import Mathlib

/-!
# Quoridor fence counting (`src/src/Main.cpp`)

A shallow embedding of the fence-counting program: the Row Enumerator
(`countNewRows`), the Row Convolution Engine (`addRow`), the Grid Driver
(`quoridorCalc`) and the Result Aggregator (`outputResults`).

The three constants `COLUMN_COUNT`, `ROW_COUNT` and `MAX_FENCE_COUNT` of the
source are the parameters `C`, `R` and `F` of the definitions below.  Values of
type `unsigned __int32` are natural numbers reduced modulo `2 ^ 32` after each
operation that can leave the range; `BigUnsigned` values are natural numbers.

The recursion of `countNewRows` and the loop of `addRow` over the previous
signatures carry a bound on their depth and on their number of iterations; the
theorems show that the calls return as soon as the bound exceeds `C` and
`2 ^ C`.

The theorems are stated for the parameters the 32-bit constants of the program
can hold: `C < 32` (a signature has one bit per column and `1 << COLUMN_COUNT`
is computed in 32 bits), `F + 1 < 2 ^ 32` (`FENCE_DIMENSION`) and
`R * C < 2 ^ 32` (`row * COLUMN_COUNT` for the rows of the board).

A table is a function of two indices, so a cell `[s][k]` with
`k ≥ FENCE_DIMENSION` is a cell of its own here, whereas in the program it
lies outside the row `s` of the array.  `countNewRows` increments
`rows [vertical_signature][fence_count]` for fence counts up to `C`; these
stay inside the array exactly when `C ≤ F`, and the theorems about a run of
the Row Enumerator inside `quoridorCalc` assume `C ≤ F`.
-/

namespace Quoridor

/-! ## Machine words -/

/-- Number of values of an `unsigned __int32`. -/
def WORD : Nat := 2 ^ 32

/-- Reduction of a natural number to an `unsigned __int32`. -/
def u32 (n : Nat) : Nat := n % WORD

/-- Bitwise complement `~x` of an `unsigned __int32`. -/
def not32 (x : Nat) : Nat := (WORD - 1) ^^^ (x % WORD)

/-- The shift `1 << n` as the source uses it (an `int` shift whose result is
converted to `unsigned __int32`); it is exact for `n < 32`. -/
def shl1 (n : Nat) : Nat := u32 (1 <<< n)

/-! ## Constants derived from the parameters -/

/-- `SIGNATURE_DIMENSION = (1 << COLUMN_COUNT)`. -/
def SIGNATURE_DIMENSION (C : Nat) : Nat := shl1 C

/-- `MAX_VERTICAL_SIGNATURE = SIGNATURE_DIMENSION - 1` (unsigned subtraction). -/
def MAX_VERTICAL_SIGNATURE (C : Nat) : Nat := u32 (SIGNATURE_DIMENSION C + (WORD - 1))

/-- `FENCE_DIMENSION = MAX_FENCE_COUNT + 1`. -/
def FENCE_DIMENSION (F : Nat) : Nat := u32 (F + 1)

/-! ## Tables -/

/-- A two-dimensional table `t[vertical_signature][fence_count]`.  The cells
inside the declared dimensions are those with `vertical_signature <
SIGNATURE_DIMENSION` and `fence_count < FENCE_DIMENSION`.  An index outside the
declared dimensions addresses a cell of the function outside them; what such
cells hold is left arbitrary in the statements about `addRow`, which therefore
hold whatever a read past the end of a row returns. -/
abbrev Table := Nat → Nat → Nat

/-- The table all of whose cells are zero. -/
def zeroTable : Table := fun _ _ => 0

/-- Assignment `t[s][k] = v`. -/
def Table.set (t : Table) (s k v : Nat) : Table :=
  fun s' k' => if s' = s ∧ k' = k then v else t s' k'

/-! ## Row Enumerator -/

/-- The depth-first search `countNewRows` of the source.  The table `rows` is
threaded through the calls; the first argument bounds the recursion depth and
`none` is returned when it is exhausted.  The increment
`++rows [vertical_signature][fence_count]` is the increment of the source as
long as `fence_count < FENCE_DIMENSION`, which holds at every leaf when
`C ≤ F`. -/
def countNewRows (C : Nat) : Nat → Table → Nat → Nat → Nat → Bool → Option Table
  | 0, _, _, _, _, _ => none
  | fuel + 1, rows, vertical_signature, columns_filled, fence_count,
      last_column_was_horizontal =>
    if columns_filled = C then
      some (rows.set vertical_signature fence_count
        (u32 (rows vertical_signature fence_count + 1)))
    else
      match countNewRows C fuel rows vertical_signature (u32 (columns_filled + 1))
          fence_count false with
      | none => none
      | some rows1 =>
        match countNewRows C fuel rows1 (vertical_signature ||| shl1 columns_filled)
            (u32 (columns_filled + 1)) (u32 (fence_count + 1)) false with
        | none => none
        | some rows2 =>
          if !last_column_was_horizontal then
            countNewRows C fuel rows2 vertical_signature (u32 (columns_filled + 1))
              (u32 (fence_count + 1)) true
          else
            some rows2

/-! ## Row Convolution Engine -/

/-- The values `0, 1, ..., n` taken by the counter of a loop
`for (i = 0; i <= n; ++i)`; the counter is an `unsigned __int32` and does not
wrap before the loop ends when `n + 1 < 2 ^ 32`. -/
def upTo (n : Nat) : List Nat := List.range (n + 1)

/-- The step `((prev_vertical_signature | new_vertical_signature) + 1) &
~new_vertical_signature` of the loop over the previous signatures. -/
def nextPrev (new_vertical_signature prev_vertical_signature : Nat) : Nat :=
  u32 ((prev_vertical_signature ||| new_vertical_signature) + 1) &&&
    not32 new_vertical_signature

/-- The loop `for (p = start; p <= maxSig; p = nextPrev s p) body`, with a bound
on the number of tests of its condition; `none` when the bound is exhausted. -/
def prevSigLoop {σ : Type} (maxSig s : Nat) (body : Nat → σ → σ) :
    Nat → Nat → σ → Option σ
  | 0, _, _ => none
  | fuel + 1, p, st =>
    if p ≤ maxSig then prevSigLoop maxSig s body fuel (nextPrev s p) (body p st)
    else some st

/-- The first pair of loops of `addRow`: every cell of the destination inside
the declared dimensions is set to zero. -/
def clearGrid (C F : Nat) (current_grid : Table) : Table :=
  (upTo (MAX_VERTICAL_SIGNATURE C)).foldl
    (fun g vertical_signature =>
      (upTo F).foldl (fun g fence_count => g.set vertical_signature fence_count 0) g)
    current_grid

/-- The innermost loop of `addRow`, over `added_fence_count`. -/
def addedLoop (C F : Nat) (rows previous_grid : Table)
    (new_vertical_signature prev_vertical_signature prev_fence_count : Nat)
    (current_grid : Table) : Table :=
  ((upTo C).takeWhile
      (fun added_fence_count => decide (u32 (added_fence_count + prev_fence_count) ≤ F))).foldl
    (fun g added_fence_count =>
      if rows new_vertical_signature added_fence_count ≠ 0 then
        g.set new_vertical_signature (u32 (prev_fence_count + added_fence_count))
          (g new_vertical_signature (u32 (prev_fence_count + added_fence_count)) +
            previous_grid prev_vertical_signature prev_fence_count *
              rows new_vertical_signature added_fence_count)
      else g)
    current_grid

/-- The loop of `addRow` over `prev_fence_count`. -/
def prevFenceLoop (C F : Nat) (rows previous_grid : Table) (max_prev_fence_count : Nat)
    (new_vertical_signature prev_vertical_signature : Nat) (current_grid : Table) : Table :=
  (upTo max_prev_fence_count).foldl
    (fun g prev_fence_count =>
      if previous_grid prev_vertical_signature prev_fence_count ≠ 0 then
        addedLoop C F rows previous_grid new_vertical_signature prev_vertical_signature
          prev_fence_count g
      else g)
    current_grid

/-- The function `addRow` of the source.  `rows` is the global Row table,
`previous_grid` is only read, and the result is the destination
`current_grid` after the call. -/
def addRow (C F fuel : Nat) (rows previous_grid current_grid : Table) (row : Nat) :
    Option Table :=
  let max_prev_fence_count := u32 (row * C)
  (upTo (MAX_VERTICAL_SIGNATURE C)).foldlM
    (fun g new_vertical_signature =>
      prevSigLoop (MAX_VERTICAL_SIGNATURE C) new_vertical_signature
        (fun prev_vertical_signature g =>
          prevFenceLoop C F rows previous_grid max_prev_fence_count
            new_vertical_signature prev_vertical_signature g)
        fuel 0 g)
    (clearGrid C F current_grid)

/-! ## Result Aggregator -/

/-- The function `outputResults` of the source: the numbers printed on the
lines of the fence counts `0, ..., F`, in this order, and the number printed on
the line `Total`. -/
def outputResults (C F : Nat) (final_grid : Table) : List Nat × Nat :=
  (upTo F).foldl
    (fun (out : List Nat × Nat) fence_count =>
      let r := (upTo (MAX_VERTICAL_SIGNATURE C)).foldl
        (fun (ct : Nat × Nat) vertical_signature =>
          (ct.1 + final_grid vertical_signature fence_count,
            ct.2 + final_grid vertical_signature fence_count))
        (0, out.2)
      (out.1 ++ [r.1], r.2))
    ([], 0)

/-! ## Grid Driver -/

/-- The global tables of the program. -/
structure Globals where
  /-- The Row table `rows`. -/
  rows : Table
  /-- The first buffer `grid_a`. -/
  grid_a : Table
  /-- The second buffer `grid_b`. -/
  grid_b : Table

/-- The global tables when the program starts: static storage is
zero-initialised. -/
def initialGlobals : Globals := ⟨zeroTable, zeroTable, zeroTable⟩

/-- The call `memset (rows, 0, ...)`: the cells inside the declared dimensions
become zero. -/
def memsetRows (C F : Nat) (rows : Table) : Table :=
  fun s k => if s < SIGNATURE_DIMENSION C ∧ k < FENCE_DIMENSION F then 0 else rows s k

/-- One iteration of the loop over the rows in `quoridorCalc`. -/
def rowStep (C F fuel : Nat) (g : Globals) (row : Nat) : Option Globals :=
  if row &&& 1 = 0 then
    (addRow C F fuel g.rows g.grid_a g.grid_b row).map (fun t => { g with grid_b := t })
  else
    (addRow C F fuel g.rows g.grid_b g.grid_a row).map (fun t => { g with grid_a := t })

/-- The table `quoridorCalc` hands to `outputResults`. -/
def finalGrid (R : Nat) (g : Globals) : Table :=
  if R &&& 1 = 0 then g.grid_a else g.grid_b

/-- The function `quoridorCalc` of the source, from given global tables: the
global tables it leaves and the numbers it prints. -/
def quoridorCalc (C R F fuel : Nat) (g : Globals) : Option (Globals × (List Nat × Nat)) :=
  match countNewRows C fuel (memsetRows C F g.rows) 0 0 0 false with
  | none => none
  | some rows =>
    match (List.range R).foldlM (rowStep C F fuel)
        { rows := rows, grid_a := g.grid_a.set 0 0 1, grid_b := g.grid_b } with
    | none => none
    | some g2 => some (g2, outputResults C F (finalGrid R g2))

/-! ## Arrangements of one row -/

/-- What a column of a row holds. -/
inductive Cell
  | empty
  | vertical
  | horizontal
  deriving DecidableEq, Fintype

/-- An assignment `f` of the columns `0, ..., C - 1` is a way to realise the
signature `s` with `k` fences: no two consecutive columns are both horizontal,
the vertical columns are the bits set in `s`, and `k` columns are not empty. -/
def IsRowWay (C s k : Nat) (f : Fin C → Cell) : Prop :=
  (∀ i j : Fin C, j.val = i.val + 1 → ¬ (f i = Cell.horizontal ∧ f j = Cell.horizontal)) ∧
  (∀ i : Fin C, f i = Cell.vertical ↔ s.testBit i.val = true) ∧
  (Finset.univ.filter (fun i => f i ≠ Cell.empty)).card = k

instance (C s k : Nat) : DecidablePred (IsRowWay C s k) := fun f => by
  unfold IsRowWay
  infer_instance

/-- The number of ways to realise the signature `s` with `k` fences in a row of
`C` columns. -/
def rowWays (C s k : Nat) : Nat := (Finset.univ.filter (IsRowWay C s k)).card

/-- The signature bits of the vertical columns of an assignment `g` of the
columns `cf, ..., cf + m - 1`. -/
def verticalBits : (m : Nat) → Nat → (Fin m → Cell) → Nat
  | 0, _, _ => 0
  | m + 1, cf, g =>
    (if g 0 = Cell.vertical then 2 ^ cf else 0) ||| verticalBits m (cf + 1) (Fin.tail g)

/-- An assignment `g` of the `m` columns `cf, ..., cf + m - 1` completes a
row begun with signature `vs`, `fc` fences and last column horizontal or not
(`lh`) to a row with signature `s` and `k` fences. -/
def IsCompletion (m cf vs fc : Nat) (lh : Bool) (s k : Nat) (g : Fin m → Cell) : Prop :=
  (∀ j : Fin m, j.val = 0 → lh = true → g j ≠ Cell.horizontal) ∧
  (∀ i j : Fin m, j.val = i.val + 1 → ¬ (g i = Cell.horizontal ∧ g j = Cell.horizontal)) ∧
  vs ||| verticalBits m cf g = s ∧
  fc + (Finset.univ.filter (fun i => g i ≠ Cell.empty)).card = k

instance (m cf vs fc : Nat) (lh : Bool) (s k : Nat) :
    DecidablePred (IsCompletion m cf vs fc lh s k) := fun g => by
  unfold IsCompletion
  infer_instance

/-- The number of completions. -/
def completions (m cf vs fc : Nat) (lh : Bool) (s k : Nat) : Nat :=
  (Finset.univ.filter (IsCompletion m cf vs fc lh s k)).card

/-! ## Auxiliary objects of the proofs -/

/-- The bits of `x` that are not bits of `s`. -/
def clearBits (x s : Nat) : Nat := x ^^^ (x &&& s)

/-- The signatures below `2 ^ C` that share no bit with `s`, in increasing
order. -/
def disjointSignatures (C s : Nat) : List Nat :=
  (List.range (2 ^ C)).filter (fun p => decide (p &&& s = 0))

/-- What the pair `(prev_vertical_signature, prev_fence_count) = (p, j)` adds to
the cell `[s][k]`. -/
def contribution (C : Nat) (rows previous_grid : Table) (s k p j : Nat) : Nat :=
  ∑ a in Finset.range (C + 1), if j + a = k then previous_grid p j * rows s a else 0

/-- The value `addRow` leaves in the cell `[s][k]` of its destination, for a
cell inside the declared dimensions. -/
def rowSum (C row : Nat) (rows previous_grid : Table) (s k : Nat) : Nat :=
  ∑ p in (Finset.range (2 ^ C)).filter (fun p => p &&& s = 0),
    ∑ j in Finset.range (row * C + 1), contribution C rows previous_grid s k p j


/-! ## Reference objects for the statements -/

/-- The sum of `previous[p][j] * rows[s][a]` over the triples `(p, j, a)` with
`p ≤ 2 ^ C - 1`, `p & s = 0`, `j ≤ n * C`, `a ≤ C` and `j + a = k`. -/
def convolution (C n : Nat) (previous rows : Table) (s k : Nat) : Nat :=
  ∑ t in ((Finset.range (2 ^ C) ×ˢ Finset.range (n * C + 1) ×ˢ Finset.range (C + 1)).filter
      (fun t : Nat × Nat × Nat => t.1 &&& s = 0 ∧ t.2.1 + t.2.2 = k)),
    previous t.1 t.2.1 * rows s t.2.2

/-- The previous signatures for which the body of the loop over
`prev_vertical_signature` runs, in the order of the runs. -/
def prevSignatures (C s fuel : Nat) : Option (List Nat) :=
  prevSigLoop (MAX_VERTICAL_SIGNATURE C) s (fun p visited => visited ++ [p]) fuel 0 []

/-- The table for zero rows: one way, with signature 0 and no fence. -/
def seedGrid : Table := zeroTable.set 0 0 1

/-- The table after `n` calls of `addRow` from the seed,
`T (n + 1) = addRow (T n, rows, n)`, each call writing to a fresh table. -/
def gridAfter (C F fuel : Nat) (rows : Table) : Nat → Option Table
  | 0 => some seedGrid
  | n + 1 =>
    match gridAfter C F fuel rows n with
    | none => none
    | some t => addRow C F fuel rows t zeroTable n

/-! ## Bit counts -/

/-- The number of bits set in a 32-bit word. -/
def popcount (s : Nat) : Nat := ((List.range 32).filter (fun i => s.testBit i)).length

/-! ## The Row Enumerator with a record of its leaves -/

/-- The search `countNewRows` with a record of its leaves: besides the table,
the pairs `(vertical_signature, fence_count)` of the increments
`++rows [vertical_signature][fence_count]` are kept, in the order they are
made. -/
def countNewRowsTraced (C : Nat) :
    Nat → Table × List (Nat × Nat) → Nat → Nat → Nat → Bool → Option (Table × List (Nat × Nat))
  | 0, _, _, _, _, _ => none
  | fuel + 1, st, vertical_signature, columns_filled, fence_count,
      last_column_was_horizontal =>
    if columns_filled = C then
      some (st.1.set vertical_signature fence_count
          (u32 (st.1 vertical_signature fence_count + 1)),
        st.2 ++ [(vertical_signature, fence_count)])
    else
      match countNewRowsTraced C fuel st vertical_signature (u32 (columns_filled + 1))
          fence_count false with
      | none => none
      | some st1 =>
        match countNewRowsTraced C fuel st1 (vertical_signature ||| shl1 columns_filled)
            (u32 (columns_filled + 1)) (u32 (fence_count + 1)) false with
        | none => none
        | some st2 =>
          if !last_column_was_horizontal then
            countNewRowsTraced C fuel st2 vertical_signature (u32 (columns_filled + 1))
              (u32 (fence_count + 1)) true
          else
            some st2

/-! ## Legal rows -/

/-- An assignment `g` of `m` columns has no two consecutive horizontal columns,
and does not start with a horizontal column when `lh` says the column before
it is horizontal. -/
def IsLegalSuffix (m : Nat) (lh : Bool) (g : Fin m → Cell) : Prop :=
  (∀ j : Fin m, j.val = 0 → lh = true → g j ≠ Cell.horizontal) ∧
  (∀ i j : Fin m, j.val = i.val + 1 → ¬ (g i = Cell.horizontal ∧ g j = Cell.horizontal))

instance (m : Nat) (lh : Bool) : DecidablePred (IsLegalSuffix m lh) := fun g => by
  unfold IsLegalSuffix
  infer_instance

/-- The number of such assignments. -/
def legalSuffixes (m : Nat) (lh : Bool) : Nat := (Finset.univ.filter (IsLegalSuffix m lh)).card

/-! ## The Row Convolution Engine without the row bound -/

/-- The computation of `addRow` with the previous fence count ranging over the
whole of `0, ..., F` instead of `0, ..., row * COLUMN_COUNT`: the same loops,
with `max_prev_fence_count` replaced by `MAX_FENCE_COUNT`. -/
def addRowUnbounded (C F fuel : Nat) (rows previous_grid current_grid : Table) :
    Option Table :=
  (upTo (MAX_VERTICAL_SIGNATURE C)).foldlM
    (fun g new_vertical_signature =>
      prevSigLoop (MAX_VERTICAL_SIGNATURE C) new_vertical_signature
        (fun prev_vertical_signature g =>
          prevFenceLoop C F rows previous_grid F
            new_vertical_signature prev_vertical_signature g)
        fuel 0 g)
    (clearGrid C F current_grid)


/-! ## The Row Convolution Engine with a record of its accesses -/

/-- An access of `addRow` to one of the tables: a read of
`previous_grid [sig][fence]`, a read of `rows [sig][fence]`, or an accumulation
`current_grid [sig][fence] += ...`. -/
inductive Access
  | readPrevious (sig fence : Nat)
  | readRows (sig fence : Nat)
  | accumulate (sig fence : Nat)
  deriving DecidableEq

/-- The innermost loop of `addRow` with a record of its accesses: the test
`rows [..][..] != 0` reads the Row table, and the statement it guards
accumulates into the destination. -/
def addedLoopTraced (C F : Nat) (rows previous_grid : Table)
    (new_vertical_signature prev_vertical_signature prev_fence_count : Nat)
    (st : Table × List Access) : Table × List Access :=
  ((upTo C).takeWhile
      (fun added_fence_count => decide (u32 (added_fence_count + prev_fence_count) ≤ F))).foldl
    (fun st added_fence_count =>
      if rows new_vertical_signature added_fence_count ≠ 0 then
        (st.1.set new_vertical_signature (u32 (prev_fence_count + added_fence_count))
          (st.1 new_vertical_signature (u32 (prev_fence_count + added_fence_count)) +
            previous_grid prev_vertical_signature prev_fence_count *
              rows new_vertical_signature added_fence_count),
          st.2 ++ [Access.readRows new_vertical_signature added_fence_count,
            Access.accumulate new_vertical_signature (u32 (prev_fence_count + added_fence_count))])
      else (st.1, st.2 ++ [Access.readRows new_vertical_signature added_fence_count]))
    st

/-- The loop of `addRow` over `prev_fence_count` with a record of its accesses:
the test `previous_grid [..][..] != 0` reads the previous table. -/
def prevFenceLoopTraced (C F : Nat) (rows previous_grid : Table) (max_prev_fence_count : Nat)
    (new_vertical_signature prev_vertical_signature : Nat) (st : Table × List Access) :
    Table × List Access :=
  (upTo max_prev_fence_count).foldl
    (fun st prev_fence_count =>
      if previous_grid prev_vertical_signature prev_fence_count ≠ 0 then
        addedLoopTraced C F rows previous_grid new_vertical_signature prev_vertical_signature
          prev_fence_count
          (st.1, st.2 ++ [Access.readPrevious prev_vertical_signature prev_fence_count])
      else (st.1, st.2 ++ [Access.readPrevious prev_vertical_signature prev_fence_count]))
    st

/-- The function `addRow` with a record of the accesses of its second pair of
loops, in the order they are made. -/
def addRowTraced (C F fuel : Nat) (rows previous_grid current_grid : Table) (row : Nat) :
    Option (Table × List Access) :=
  let max_prev_fence_count := u32 (row * C)
  (upTo (MAX_VERTICAL_SIGNATURE C)).foldlM
    (fun st new_vertical_signature =>
      prevSigLoop (MAX_VERTICAL_SIGNATURE C) new_vertical_signature
        (fun prev_vertical_signature st =>
          prevFenceLoopTraced C F rows previous_grid max_prev_fence_count
            new_vertical_signature prev_vertical_signature st)
        fuel 0 st)
    (clearGrid C F current_grid, [])

/-- The accesses of the innermost loop of `addRow`. -/
def addedAccesses (C F : Nat) (rows : Table) (s j : Nat) : List Access :=
  ((upTo C).takeWhile (fun a => decide (u32 (a + j) ≤ F))).flatMap
    (fun a => if rows s a ≠ 0 then [Access.readRows s a, Access.accumulate s (u32 (j + a))]
      else [Access.readRows s a])

/-- The accesses of the loop of `addRow` over `prev_fence_count`. -/
def prevFenceAccesses (C F : Nat) (rows previous_grid : Table) (m s p : Nat) : List Access :=
  (upTo m).flatMap
    (fun j => Access.readPrevious p j ::
      (if previous_grid p j ≠ 0 then addedAccesses C F rows s j else []))

/-- The accesses of `addRow`. -/
def addRowAccesses (C F : Nat) (rows previous_grid : Table) (m : Nat) : List Access :=
  (upTo (2 ^ C - 1)).flatMap
    (fun s => (disjointSignatures C s).flatMap
      (fun p => prevFenceAccesses C F rows previous_grid m s p))


/-! ## Arrangements of the whole board -/

/-- An `R`-by-`C` array `A` over the three kinds of cell is a way to fill the
board with last signature `s` and `k` fences: no two horizontally adjacent
cells of a row are both horizontal, no column holds a vertical fence in two
consecutive rows, the vertical cells of the last row are the bits set in `s`,
and `k` cells are not empty. -/
def IsGridWay (C R s k : Nat) (A : Fin R → Fin C → Cell) : Prop :=
  (∀ (r : Fin R) (i j : Fin C), j.val = i.val + 1 →
    ¬ (A r i = Cell.horizontal ∧ A r j = Cell.horizontal)) ∧
  (∀ (r r' : Fin R) (i : Fin C), r'.val = r.val + 1 →
    ¬ (A r i = Cell.vertical ∧ A r' i = Cell.vertical)) ∧
  (∀ r : Fin R, r.val + 1 = R → ∀ i : Fin C, A r i = Cell.vertical ↔ s.testBit i.val = true) ∧
  (Finset.univ.filter (fun c : Fin R × Fin C => A c.1 c.2 ≠ Cell.empty)).card = k

instance (C R s k : Nat) : DecidablePred (IsGridWay C R s k) := fun A => by
  unfold IsGridWay
  infer_instance

/-- The number of ways to fill a board of `R` rows and `C` columns with last
signature `s` and `k` fences. -/
def gridWays (C R s k : Nat) : Nat := (Finset.univ.filter (IsGridWay C R s k)).card

/-- The array `A` with the row `f` added below it. -/
def appendRow {n C : Nat} (A : Fin n → Fin C → Cell) (f : Fin C → Cell) :
    Fin (n + 1) → Fin C → Cell :=
  fun r => if h : r.val < n then A ⟨r.val, h⟩ else f

/-- The array `A` without its last row. -/
def initRows {n C : Nat} (A : Fin (n + 1) → Fin C → Cell) : Fin n → Fin C → Cell :=
  fun r => A r.castSucc

/-- The number of cells of an array that are not empty. -/
def gridFences {n C : Nat} (A : Fin n → Fin C → Cell) : Nat :=
  (Finset.univ.filter (fun c : Fin n × Fin C => A c.1 c.2 ≠ Cell.empty)).card

/-- The signature of the last row of an array, 0 for the array without rows. -/
def lastSignature (C : Nat) : (n : Nat) → (Fin n → Fin C → Cell) → Nat
  | 0, _ => 0
  | n + 1, A => verticalBits C 0 (A (Fin.last n))

/-- The rows of the array `A` have no two adjacent horizontal cells, and no
column of it holds a vertical fence in two consecutive rows. -/
def IsGridLegal (C n : Nat) (A : Fin n → Fin C → Cell) : Prop :=
  (∀ (r : Fin n) (i j : Fin C), j.val = i.val + 1 →
    ¬ (A r i = Cell.horizontal ∧ A r j = Cell.horizontal)) ∧
  (∀ (r r' : Fin n) (i : Fin C), r'.val = r.val + 1 →
    ¬ (A r i = Cell.vertical ∧ A r' i = Cell.vertical))

/-- The array `A` of `n` rows is legal, its last row has signature `s` (`s = 0`
when there is no row), and it has `k` fences. -/
def IsGridPrefix (C n s k : Nat) (A : Fin n → Fin C → Cell) : Prop :=
  IsGridLegal C n A ∧ lastSignature C n A = s ∧ gridFences A = k

instance (C n s k : Nat) : DecidablePred (IsGridPrefix C n s k) := fun A => by
  unfold IsGridPrefix IsGridLegal
  infer_instance

/-- The number of such arrays. -/
def gridPrefixes (C n s k : Nat) : Nat := (Finset.univ.filter (IsGridPrefix C n s k)).card

/-! ## Tables as numbers in base `x` -/

/-- The cells `c 0, ..., c F` written as the digits of one number in base
`x`. -/
def packCells (x F : Nat) (c : Nat → Nat) : Nat := ∑ k in Finset.range (F + 1), c k * x ^ k

/-- The sum of `x ^ (number of fences)` over the legal assignments of the `m`
columns `cf, ..., cf + m - 1` whose vertical columns are the bits set in `s`. -/
def suffixWeight (x s m cf : Nat) (lh : Bool) : Nat :=
  ∑ g : Fin m → Cell,
    if IsLegalSuffix m lh g ∧ ∀ i : Fin m, (g i = Cell.vertical ↔ s.testBit (cf + i.val) = true)
    then x ^ (Finset.univ.filter (fun i => g i ≠ Cell.empty)).card else 0

/-- The row of signature `s` of the Row table as one number in base `x`,
computed column by column. -/
def rowPack (x s : Nat) : Nat → Nat → Bool → Nat
  | 0, _, _ => 1
  | m + 1, cf, lh =>
    if s.testBit cf then x * rowPack x s m (cf + 1) false
    else rowPack x s m (cf + 1) false + (if lh then 0 else x * rowPack x s m (cf + 1) true)

/-- For a list `L` of `2 ^ i` numbers, indexed by the signatures below `2 ^ i`,
the list of the sums of the entries of `L` over the signatures sharing no bit
with the index. -/
def disjointSums : Nat → List Nat → List Nat
  | 0, L => L
  | i + 1, L =>
    let D0 := disjointSums i (L.take (2 ^ i))
    let D1 := disjointSums i (L.drop (2 ^ i))
    List.zipWith (fun a b => a + b) D0 D1 ++ D0

/-- The list of the packed rows of the Row table, by signature. -/
def rowPacks (x C : Nat) : List Nat := (List.range (2 ^ C)).map (fun s => rowPack x s C 0 false)

/-- One row added to a packed table: the packed row of the Row table times the
sum of the packed rows of the previous table over the disjoint signatures, cut
at the digit `F`. -/
def packedStep (x C F : Nat) (R P : List Nat) : List Nat :=
  List.zipWith (fun r z => r * z % x ^ (F + 1)) R (disjointSums C P)

/-- The packed seed: one way, with signature 0 and no fence. -/
def packedSeed (C : Nat) : List Nat := (List.range (2 ^ C)).map (fun s => if s = 0 then 1 else 0)

/-- The packed table after `n` rows. -/
def packedIter (x C F : Nat) : Nat → List Nat
  | 0 => packedSeed C
  | n + 1 => packedStep x C F (rowPacks x C) (packedIter x C F n)

/-- The sum of the digits `0, ..., F` in base `x`. -/
def digitSum (x F v : Nat) : Nat := ((List.range (F + 1)).map (fun k => v / x ^ k % x)).sum

/-- The sum of all the cells of the packed table after `R` rows. -/
def packedTotal (x C R F : Nat) : Nat := ((packedIter x C F R).map (digitSum x F)).sum

/-! # Theorems -/

/-! ## Word arithmetic inside the range -/

theorem u32_of_lt {n : Nat} (h : n < 2 ^ 32) : u32 n = n := by
  unfold u32 WORD
  exact Nat.mod_eq_of_lt h

theorem two_pow_lt_word {C : Nat} (hC : C < 32) : 2 ^ C < 2 ^ 32 :=
  Nat.pow_lt_pow_right (by decide) hC

theorem shl1_eq {n : Nat} (h : n < 32) : shl1 n = 2 ^ n := by
  unfold shl1
  rw [Nat.one_shiftLeft]
  exact u32_of_lt (two_pow_lt_word h)

theorem SIGNATURE_DIMENSION_eq {C : Nat} (hC : C < 32) : SIGNATURE_DIMENSION C = 2 ^ C :=
  shl1_eq hC

theorem MAX_VERTICAL_SIGNATURE_eq {C : Nat} (hC : C < 32) :
    MAX_VERTICAL_SIGNATURE C = 2 ^ C - 1 := by
  unfold MAX_VERTICAL_SIGNATURE
  rw [SIGNATURE_DIMENSION_eq hC]
  have h1 := two_pow_lt_word hC
  have h2 : 0 < 2 ^ C := Nat.two_pow_pos C
  unfold u32 WORD
  omega

theorem FENCE_DIMENSION_eq {F : Nat} (hF : F + 1 < 2 ^ 32) : FENCE_DIMENSION F = F + 1 :=
  u32_of_lt hF

/-! ## The step of the loop over the previous signatures -/

theorem testBit_clearBits (x s i : Nat) :
    (clearBits x s).testBit i = (x.testBit i && !s.testBit i) := by
  unfold clearBits
  rw [Nat.testBit_xor, Nat.testBit_and]
  cases x.testBit i <;> cases s.testBit i <;> rfl

theorem and_not32_eq_clearBits {x : Nat} (s : Nat) (hx : x < 2 ^ 32) :
    x &&& not32 s = clearBits x s := by
  apply Nat.eq_of_testBit_eq
  intro i
  rw [testBit_clearBits]
  unfold not32 WORD
  rw [Nat.testBit_and, Nat.testBit_xor, Nat.testBit_two_pow_sub_one, Nat.testBit_mod_two_pow]
  by_cases hi : i < 32
  · simp [hi]
  · have hx2 : x.testBit i = false := by
      apply Nat.testBit_lt_two_pow
      exact lt_of_lt_of_le hx (Nat.pow_le_pow_right (by decide) (by omega))
    simp [hx2]

theorem clearBits_bit (a : Bool) (m : Nat) (b : Bool) (n : Nat) :
    clearBits (Nat.bit a m) (Nat.bit b n) = Nat.bit (a && !b) (clearBits m n) := by
  unfold clearBits
  rw [Nat.land_bit, Nat.xor_bit]
  cases a <;> cases b <;> rfl

theorem clearBits_or_of_disjoint {p s : Nat} (h : p &&& s = 0) : clearBits (p ||| s) s = p := by
  apply Nat.eq_of_testBit_eq
  intro i
  rw [testBit_clearBits, Nat.testBit_or]
  have hi : (p &&& s).testBit i = false := by rw [h]; exact Nat.zero_testBit i
  rw [Nat.testBit_and] at hi
  cases hp : p.testBit i <;> cases hs : s.testBit i <;> simp_all

theorem bit_false_add_one (n : Nat) : Nat.bit false n + 1 = Nat.bit true n := by
  simp [Nat.bit_val]

theorem bit_true_add_one (n : Nat) : Nat.bit true n + 1 = Nat.bit false (n + 1) := by
  simp [Nat.bit_val]; omega

/-- The step of the loop: from a signature `p` disjoint from `s`, the next
value is larger, disjoint from `s`, and no value between the two is disjoint
from `s`. -/
theorem clearBits_step (p s : Nat) (h : p &&& s = 0) :
    p < clearBits ((p ||| s) + 1) s ∧ clearBits ((p ||| s) + 1) s &&& s = 0 ∧
      ∀ r, p < r → r < clearBits ((p ||| s) + 1) s → r &&& s ≠ 0 := by
  generalize hn : p + s = n
  induction n using Nat.strong_induction_on generalizing p s with
  | _ n ih =>
    obtain ⟨a, p', rfl⟩ : ∃ a p', p = Nat.bit a p' := ⟨_, _, (Nat.bit_decomp p).symm⟩
    obtain ⟨b, s', rfl⟩ : ∃ b s', s = Nat.bit b s' := ⟨_, _, (Nat.bit_decomp s).symm⟩
    rw [Nat.land_bit, Nat.bit_eq_zero_iff] at h
    obtain ⟨h', hab⟩ := h
    rw [Nat.lor_bit]
    cases a <;> cases b
    · -- both low bits clear: the next value sets the low bit
      simp only [Bool.or_self, bit_false_add_one, clearBits_bit, Bool.not_false, Bool.and_true,
        clearBits_or_of_disjoint h', Nat.land_bit, Bool.and_false, h']
      refine ⟨by simp [Nat.bit_val], by simp [Nat.bit_val], ?_⟩
      intro r h1 h2
      simp [Nat.bit_val] at h1 h2
      omega
    · -- the low bit belongs to `s`
      have hlt : p' + s' < n := by simp [Nat.bit_val] at hn; omega
      obtain ⟨i1, i2, i3⟩ := ih _ hlt p' s' h' rfl
      simp only [Bool.or_true, Bool.false_or, bit_true_add_one, clearBits_bit, Bool.not_true,
        Bool.and_false, Nat.land_bit, Bool.false_and, i2]
      refine ⟨by simp [Nat.bit_val]; omega, by simp [Nat.bit_val], ?_⟩
      intro r h1 h2
      obtain ⟨c, r', rfl⟩ : ∃ c r', r = Nat.bit c r' := ⟨_, _, (Nat.bit_decomp r).symm⟩
      rw [Nat.land_bit, Ne, Nat.bit_eq_zero_iff]
      cases c
      · have := i3 r' (by simp [Nat.bit_val] at h1; omega) (by simp [Nat.bit_val] at h2; omega)
        simp [this]
      · simp
    · -- the low bit of `p` is set: carry
      have hlt : p' + s' < n := by simp [Nat.bit_val] at hn; omega
      obtain ⟨i1, i2, i3⟩ := ih _ hlt p' s' h' rfl
      simp only [Bool.or_false, Bool.true_or, bit_true_add_one, clearBits_bit, Bool.not_false,
        Bool.and_true, Bool.false_and, Nat.land_bit, Bool.and_false, i2]
      refine ⟨by simp [Nat.bit_val]; omega, by simp [Nat.bit_val], ?_⟩
      intro r h1 h2
      obtain ⟨c, r', rfl⟩ : ∃ c r', r = Nat.bit c r' := ⟨_, _, (Nat.bit_decomp r).symm⟩
      rw [Nat.land_bit, Ne, Nat.bit_eq_zero_iff]
      have := i3 r' (by cases c <;> simp [Nat.bit_val] at h1 <;> omega)
        (by cases c <;> simp [Nat.bit_val] at h2 <;> omega)
      simp [this]
    · simp at hab

theorem two_pow_and_of_lt {s C : Nat} (hs : s < 2 ^ C) : 2 ^ C &&& s = 0 := by
  apply Nat.eq_of_testBit_eq
  intro i
  rw [Nat.testBit_and, Nat.testBit_two_pow, Nat.zero_testBit]
  by_cases h : C = i
  · subst h
    simp [Nat.testBit_lt_two_pow hs]
  · simp [h]

theorem nextPrev_eq {C s p : Nat} (hC : C < 32) (hs : s < 2 ^ C) (hp : p < 2 ^ C) :
    nextPrev s p = clearBits ((p ||| s) + 1) s := by
  have h1 : p ||| s < 2 ^ C := Nat.or_lt_two_pow hp hs
  have h2 := two_pow_lt_word hC
  unfold nextPrev
  rw [u32_of_lt (by omega), and_not32_eq_clearBits s (by omega)]

theorem prevSigLoop_from {σ : Type} {C s : Nat} (hC : C < 32) (hs : s < 2 ^ C)
    (body : Nat → σ → σ) :
    ∀ (fuel p : Nat) (st : σ), p &&& s = 0 → p ≤ 2 ^ C → 2 ^ C - p < fuel →
      prevSigLoop (2 ^ C - 1) s body fuel p st =
        some (((List.range' p (2 ^ C - p)).filter (fun q => decide (q &&& s = 0))).foldl
          (fun st q => body q st) st) := by
  intro fuel
  induction fuel with
  | zero => intro p st _ _ h; omega
  | succ fuel ih =>
    intro p st hps hp hf
    have hpos : 0 < 2 ^ C := Nat.two_pow_pos C
    unfold prevSigLoop
    by_cases hlt : p ≤ 2 ^ C - 1
    · have hp2 : p < 2 ^ C := by omega
      rw [if_pos hlt, nextPrev_eq hC hs hp2]
      obtain ⟨g1, g2, g3⟩ := clearBits_step p s hps
      generalize clearBits ((p ||| s) + 1) s = q at g1 g2 g3
      have hq : q ≤ 2 ^ C := by
        by_contra hcon
        exact g3 (2 ^ C) hp2 (by omega) (two_pow_and_of_lt hs)
      rw [ih q (body p st) g2 hq (by omega)]
      have hsplit : List.range' p (2 ^ C - p) =
          p :: (List.range' (p + 1) (q - (p + 1)) ++ List.range' q (2 ^ C - q)) := by
        have e1 : 2 ^ C - p = (2 ^ C - p - 1) + 1 := by omega
        rw [e1, List.range'_succ]
        congr 1
        have e2 : q = (p + 1) + (q - (p + 1)) := by omega
        conv_rhs => rw [e2]
        rw [← e2, show List.range' q (2 ^ C - q) =
          List.range' ((p + 1) + (q - (p + 1))) (2 ^ C - q) by rw [← e2], List.range'_append_1]
        congr 1
        omega
      have hmid : (List.range' (p + 1) (q - (p + 1))).filter (fun r => decide (r &&& s = 0)) = [] := by
        rw [List.filter_eq_nil_iff]
        intro r hr
        rw [List.mem_range'_1] at hr
        simpa using g3 r (by omega) (by omega)
      rw [hsplit, List.filter_cons, List.filter_append, hmid]
      simp [hps]
    · have hp2 : p = 2 ^ C := by omega
      rw [if_neg hlt, hp2]
      simp

theorem prevSigLoop_eq {σ : Type} {C s fuel : Nat} (hC : C < 32) (hs : s < 2 ^ C)
    (hfuel : 2 ^ C < fuel) (body : Nat → σ → σ) (st : σ) :
    prevSigLoop (MAX_VERTICAL_SIGNATURE C) s body fuel 0 st =
      some ((disjointSignatures C s).foldl (fun st q => body q st) st) := by
  rw [MAX_VERTICAL_SIGNATURE_eq hC,
    prevSigLoop_from hC hs body fuel 0 st (Nat.zero_and s) (Nat.zero_le _) (by omega)]
  unfold disjointSignatures
  rw [List.range_eq_range']
  rfl

/-! ## Folds that add to the cells of a table -/

theorem Table.set_apply (t : Table) (s k v s' k' : Nat) :
    t.set s k v s' k' = if s' = s ∧ k' = k then v else t s' k' := rfl

theorem foldl_pointwise {α : Type} (L : List α) (step : Table → α → Table)
    (δ : α → Nat → Nat → Nat)
    (h : ∀ g x s k, x ∈ L → step g x s k = g s k + δ x s k) :
    ∀ g s k, (L.foldl step g) s k = g s k + (L.map (fun x => δ x s k)).sum := by
  induction L with
  | nil => intro g s k; simp
  | cons x L ih =>
    intro g s k
    rw [List.foldl_cons, ih (fun g y s k hy => h g y s k (List.mem_cons_of_mem _ hy)),
      h g x s k (List.mem_cons_self _ _)]
    simp [Nat.add_assoc]

theorem foldlM_eq_some_foldl {α β : Type} (L : List α) (f : β → α → Option β)
    (f' : β → α → β) (h : ∀ b a, a ∈ L → f b a = some (f' b a)) :
    ∀ b, L.foldlM f b = some (L.foldl f' b) := by
  induction L with
  | nil => intro b; rfl
  | cons x L ih =>
    intro b
    rw [List.foldlM_cons, h b x (List.mem_cons_self _ _)]
    exact ih (fun b a ha => h b a (List.mem_cons_of_mem _ ha)) (f' b x)

theorem sum_map_range (n : Nat) (f : Nat → Nat) :
    ((List.range n).map f).sum = ∑ i in Finset.range n, f i := by
  induction n with
  | zero => simp
  | succ n ih => rw [List.range_succ, List.map_append, List.sum_append, ih, Finset.sum_range_succ]; simp

theorem sum_map_filter {α : Type} (L : List α) (P : α → Bool) (f : α → Nat) :
    ((L.filter P).map f).sum = (L.map (fun x => if P x then f x else 0)).sum := by
  induction L with
  | nil => rfl
  | cons x L ih =>
    rw [List.filter_cons]
    cases hP : P x <;> simp [hP, ih]

theorem takeWhile_eq_filter_of_pairwise (P : Nat → Bool) :
    ∀ l : List Nat, l.Pairwise (fun a b => a < b) →
      (∀ a ∈ l, ∀ b ∈ l, a ≤ b → P b = true → P a = true) → l.takeWhile P = l.filter P := by
  intro l
  induction l with
  | nil => intro _ _; rfl
  | cons x l ih =>
    intro hl hP
    rw [List.pairwise_cons] at hl
    rw [List.takeWhile_cons, List.filter_cons]
    cases hx : P x
    · simp only [Bool.false_eq_true, if_false]
      symm
      rw [List.filter_eq_nil_iff]
      intro y hy hPy
      have := hP x (List.mem_cons_self _ _) y (List.mem_cons_of_mem _ hy)
        (Nat.le_of_lt (hl.1 y hy)) hPy
      rw [hx] at this
      exact Bool.false_ne_true this
    · simp only [if_true]
      rw [ih hl.2 (fun a ha b hb => hP a (List.mem_cons_of_mem _ ha) b (List.mem_cons_of_mem _ hb))]

theorem sum_map_ite_const {α : Type} (L : List α) (c : Prop) [Decidable c] (f : α → Nat) :
    (L.map (fun x => if c then f x else 0)).sum = if c then (L.map f).sum else 0 := by
  by_cases hc : c <;> simp [hc]

/-! ## The loops of `addRow` -/

theorem addedLoop_apply {C F : Nat} (rows previous_grid : Table) (s p j : Nat)
    (hj : j + C < 2 ^ 32) (g : Table) (s' k' : Nat) :
    addedLoop C F rows previous_grid s p j g s' k' =
      g s' k' + if s' = s ∧ k' ≤ F then contribution C rows previous_grid s k' p j else 0 := by
  unfold addedLoop
  rw [foldl_pointwise _ _
    (fun a s' k' => if s' = s ∧ k' = u32 (j + a) then previous_grid p j * rows s a else 0)]
  · congr 1
    unfold upTo
    rw [takeWhile_eq_filter_of_pairwise _ _ (List.pairwise_lt_range _), sum_map_filter,
      sum_map_range]
    · unfold contribution
      by_cases hc : s' = s ∧ k' ≤ F
      · rw [if_pos hc]
        apply Finset.sum_congr rfl
        intro a ha
        rw [Finset.mem_range] at ha
        rw [u32_of_lt (by omega), u32_of_lt (by omega)]
        by_cases hk : j + a = k'
        · have : a + j ≤ F := by omega
          simp [hk, this, hc.1]
        · have : ¬ k' = j + a := fun h => hk h.symm
          simp [hk, this]
      · rw [if_neg hc]
        apply Finset.sum_eq_zero
        intro a ha
        rw [Finset.mem_range] at ha
        rw [u32_of_lt (by omega), u32_of_lt (by omega)]
        by_cases h1 : a + j ≤ F
        · have : ¬ (s' = s ∧ k' = j + a) := fun h => hc ⟨h.1, by omega⟩
          simp [this]
        · simp [h1]
    · intro a ha b hb hab
      rw [List.mem_range] at ha hb
      rw [u32_of_lt (by omega), u32_of_lt (by omega)]
      simp only [decide_eq_true_eq]
      omega
  · intro g a s1 k1 _
    by_cases hr : rows s a = 0
    · simp [hr]
    · simp only [ne_eq, hr, not_false_eq_true, if_true, Table.set_apply]
      by_cases hc : s1 = s ∧ k1 = u32 (j + a)
      · rw [if_pos hc, if_pos hc, hc.1, hc.2]
      · rw [if_neg hc, if_neg hc]; rfl

theorem prevFenceLoop_apply {C F : Nat} (rows previous_grid : Table) (m s p : Nat)
    (hm : m + C < 2 ^ 32) (g : Table) (s' k' : Nat) :
    prevFenceLoop C F rows previous_grid m s p g s' k' =
      g s' k' + if s' = s ∧ k' ≤ F then
        ∑ j in Finset.range (m + 1), contribution C rows previous_grid s k' p j else 0 := by
  unfold prevFenceLoop
  rw [foldl_pointwise _ _
    (fun j s' k' => if s' = s ∧ k' ≤ F then contribution C rows previous_grid s k' p j else 0)]
  · unfold upTo
    rw [sum_map_ite_const, sum_map_range]
  · intro g j s1 k1 hj
    unfold upTo at hj
    rw [List.mem_range] at hj
    by_cases hp : previous_grid p j = 0
    · have : contribution C rows previous_grid s k1 p j = 0 := by
        unfold contribution
        apply Finset.sum_eq_zero
        intro a _
        simp [hp]
      simp [hp, this]
    · simp only [ne_eq, hp, not_false_eq_true, if_true]
      exact addedLoop_apply rows previous_grid s p j (by omega) g s1 k1

theorem foldl_set_zero (s s' k' : Nat) (L : List Nat) :
    ∀ g : Table, (L.foldl (fun g k => g.set s k 0) g) s' k' =
      if s' = s ∧ k' ∈ L then 0 else g s' k' := by
  induction L with
  | nil => intro g; simp
  | cons x L ih =>
    intro g
    rw [List.foldl_cons, ih, Table.set_apply]
    by_cases h1 : s' = s <;> by_cases h2 : k' = x <;> by_cases h3 : k' ∈ L <;>
      simp [h1, h2, h3]

theorem foldl_clear (Lk : List Nat) (s' k' : Nat) (Ls : List Nat) :
    ∀ g : Table, (Ls.foldl (fun g s => Lk.foldl (fun g k => g.set s k 0) g) g) s' k' =
      if s' ∈ Ls ∧ k' ∈ Lk then 0 else g s' k' := by
  induction Ls with
  | nil => intro g; simp
  | cons x Ls ih =>
    intro g
    rw [List.foldl_cons, ih, foldl_set_zero]
    by_cases h1 : s' = x <;> by_cases h2 : s' ∈ Ls <;> by_cases h3 : k' ∈ Lk <;>
      simp [h1, h2, h3]

theorem clearGrid_apply {C : Nat} (hC : C < 32) (F : Nat) (g : Table) (s k : Nat) :
    clearGrid C F g s k = if s < 2 ^ C ∧ k ≤ F then 0 else g s k := by
  unfold clearGrid
  rw [foldl_clear, MAX_VERTICAL_SIGNATURE_eq hC]
  unfold upTo
  have hpos : 0 < 2 ^ C := Nat.two_pow_pos C
  have e1 : s ∈ List.range (2 ^ C - 1 + 1) ↔ s < 2 ^ C := by rw [List.mem_range]; omega
  have e2 : k ∈ List.range (F + 1) ↔ k ≤ F := by rw [List.mem_range]; omega
  simp only [e1, e2]

theorem sum_map_disjointSignatures (C s : Nat) (f : Nat → Nat) :
    ((disjointSignatures C s).map f).sum =
      ∑ p in (Finset.range (2 ^ C)).filter (fun p => p &&& s = 0), f p := by
  unfold disjointSignatures
  rw [sum_map_filter, sum_map_range, Finset.sum_filter]
  apply Finset.sum_congr rfl
  intro p _
  simp

theorem signatureStep_apply {C F : Nat} (rows previous_grid : Table) (m s : Nat)
    (hm : m + C < 2 ^ 32) (g : Table) (s' k' : Nat) :
    ((disjointSignatures C s).foldl
        (fun g p => prevFenceLoop C F rows previous_grid m s p g) g) s' k' =
      g s' k' + if s' = s ∧ k' ≤ F then
        ∑ p in (Finset.range (2 ^ C)).filter (fun p => p &&& s = 0),
          ∑ j in Finset.range (m + 1), contribution C rows previous_grid s k' p j else 0 := by
  rw [foldl_pointwise _ _ (fun p s' k' => if s' = s ∧ k' ≤ F then
    ∑ j in Finset.range (m + 1), contribution C rows previous_grid s k' p j else 0)]
  · rw [sum_map_ite_const, sum_map_disjointSignatures]
  · intro g p s1 k1 _
    exact prevFenceLoop_apply rows previous_grid m s p hm g s1 k1

/-- The table `addRow` produces: inside the declared dimensions it is `rowSum`,
outside them the destination is left as it was. -/
theorem addRow_eq {C F fuel : Nat} (rows previous_grid current_grid : Table) (row : Nat)
    (hC : C < 32) (hfuel : 2 ^ C < fuel) (hrow : row * C + C < 2 ^ 32) :
    ∃ t, addRow C F fuel rows previous_grid current_grid row = some t ∧
      ∀ s k, t s k =
        if s < 2 ^ C ∧ k ≤ F then rowSum C row rows previous_grid s k else current_grid s k := by
  have hpos : 0 < 2 ^ C := Nat.two_pow_pos C
  have hmax := MAX_VERTICAL_SIGNATURE_eq hC
  have hu : u32 (row * C) = row * C := u32_of_lt (by omega)
  refine ⟨(upTo (MAX_VERTICAL_SIGNATURE C)).foldl
      (fun g s => (disjointSignatures C s).foldl
        (fun g p => prevFenceLoop C F rows previous_grid (row * C) s p g) g)
      (clearGrid C F current_grid), ?_, ?_⟩
  · unfold addRow
    simp only [hu]
    apply foldlM_eq_some_foldl _ _
      (fun g s => (disjointSignatures C s).foldl
        (fun g p => prevFenceLoop C F rows previous_grid (row * C) s p g) g)
    intro g s hs
    unfold upTo at hs
    rw [List.mem_range, hmax] at hs
    exact prevSigLoop_eq hC (by omega) hfuel _ g
  · intro s k
    rw [foldl_pointwise _ _ (fun s s' k' => if s' = s ∧ k' ≤ F then
      ∑ p in (Finset.range (2 ^ C)).filter (fun p => p &&& s = 0),
        ∑ j in Finset.range (row * C + 1), contribution C rows previous_grid s k' p j else 0)]
    · rw [clearGrid_apply hC]
      unfold upTo
      rw [sum_map_range, hmax, show 2 ^ C - 1 + 1 = 2 ^ C by omega]
      by_cases hc : s < 2 ^ C ∧ k ≤ F
      · rw [if_pos hc, if_pos hc, Nat.zero_add]
        rw [Finset.sum_eq_single s]
        · simp [hc.2, rowSum]
        · intro b _ hb
          have : ¬ (s = b ∧ k ≤ F) := fun h => hb h.1.symm
          rw [if_neg this]
        · intro hs
          exact absurd (Finset.mem_range.mpr hc.1) hs
      · rw [if_neg hc, if_neg hc]
        rw [Finset.sum_eq_zero, Nat.add_zero]
        intro b hb
        rw [Finset.mem_range] at hb
        have : ¬ (s = b ∧ k ≤ F) := fun h => hc ⟨by omega, h.2⟩
        rw [if_neg this]
    · intro g s1 s2 k2 _
      exact signatureStep_apply rows previous_grid (row * C) s1 hrow g s2 k2

theorem card_filter_cons (m : Nat) (P : (Fin (m + 1) → Cell) → Prop) [DecidablePred P] :
    (Finset.univ.filter P).card =
      (Finset.univ.filter (fun g : Fin m → Cell => P (Fin.cons Cell.empty g))).card +
      (Finset.univ.filter (fun g : Fin m → Cell => P (Fin.cons Cell.vertical g))).card +
      (Finset.univ.filter (fun g : Fin m → Cell => P (Fin.cons Cell.horizontal g))).card := by
  simp only [Finset.card_filter]
  rw [← Equiv.sum_comp (Fin.consEquiv (fun _ => Cell)) (fun f => if P f then 1 else 0),
    Fintype.sum_prod_type]
  have huniv : (Finset.univ : Finset Cell) = {Cell.empty, Cell.vertical, Cell.horizontal} := by
    decide
  rw [huniv]
  simp only [Finset.sum_insert, Finset.mem_insert, Finset.mem_singleton, Finset.sum_singleton,
    reduceCtorEq, or_self, not_false_eq_true, Fin.consEquiv, Equiv.coe_fn_mk]
  omega

theorem verticalBits_cons (m cf : Nat) (c : Cell) (g : Fin m → Cell) :
    verticalBits (m + 1) cf (Fin.cons c g) =
      (if c = Cell.vertical then 2 ^ cf else 0) ||| verticalBits m (cf + 1) g := by
  simp [verticalBits]

theorem card_nonempty_cons (m : Nat) (c : Cell) (g : Fin m → Cell) :
    (Finset.univ.filter (fun i => (Fin.cons c g : Fin (m + 1) → Cell) i ≠ Cell.empty)).card =
      (if c = Cell.empty then 0 else 1) +
        (Finset.univ.filter (fun i => g i ≠ Cell.empty)).card := by
  simp only [Finset.card_filter, Fin.sum_univ_succ, Fin.cons_zero, Fin.cons_succ]
  by_cases h : c = Cell.empty <;> simp [h]

theorem isCompletion_cons (m cf vs fc : Nat) (lh : Bool) (s k : Nat) (c : Cell)
    (g : Fin m → Cell) :
    IsCompletion (m + 1) cf vs fc lh s k (Fin.cons c g) ↔
      ¬ (lh = true ∧ c = Cell.horizontal) ∧
        IsCompletion m (cf + 1) (vs ||| (if c = Cell.vertical then 2 ^ cf else 0))
          (fc + (if c = Cell.empty then 0 else 1)) (decide (c = Cell.horizontal)) s k g := by
  unfold IsCompletion
  rw [verticalBits_cons, card_nonempty_cons, Nat.lor_assoc, Nat.add_assoc]
  simp only [Fin.forall_fin_succ, Fin.cons_zero, Fin.cons_succ, Fin.val_zero, Fin.val_succ]
  constructor
  · rintro ⟨h1, h2, h3, h4⟩
    refine ⟨fun hc => h1.1 trivial hc.1 hc.2, ?_, ?_, h3, h4⟩
    · intro j hj hc
      have := h2.1.2 j (by omega)
      simp only [decide_eq_true_eq] at hc
      exact fun hg => this ⟨hc, hg⟩
    · intro i
      exact fun j hj => (h2.2 i).2 j (by omega)
  · rintro ⟨h0, h1, h2, h3, h4⟩
    refine ⟨⟨fun _ hl hc => h0 ⟨hl, hc⟩, fun j hj => by omega⟩, ⟨⟨fun h => by omega, ?_⟩, ?_⟩, h3, h4⟩
    · intro j hj hc
      exact h1 j (by omega) (by simpa using hc.1) hc.2
    · intro i
      exact ⟨fun h => by omega, fun j hj => h2 i j (by omega)⟩

theorem completions_zero (cf vs fc : Nat) (lh : Bool) (s k : Nat) :
    completions 0 cf vs fc lh s k = if vs = s ∧ fc = k then 1 else 0 := by
  unfold completions
  rw [Finset.card_filter, Fintype.sum_unique]
  unfold IsCompletion
  simp [verticalBits]

theorem completions_succ (m cf vs fc : Nat) (lh : Bool) (s k : Nat) :
    completions (m + 1) cf vs fc lh s k =
      completions m (cf + 1) vs fc false s k +
        completions m (cf + 1) (vs ||| 2 ^ cf) (fc + 1) false s k +
        (if lh = true then 0 else completions m (cf + 1) vs (fc + 1) true s k) := by
  unfold completions
  rw [card_filter_cons]
  simp only [isCompletion_cons]
  congr 1
  · congr 1
    · congr 1
      apply Finset.filter_congr
      intro g _
      simp
    · congr 1
      apply Finset.filter_congr
      intro g _
      simp
  · by_cases hl : lh = true
    · simp [hl]
    · rw [if_neg hl]
      congr 1
      apply Finset.filter_congr
      intro g _
      simp [hl]

/-- The Row Enumerator from an arbitrary node of the search: the call returns,
and each cell has been incremented once per completion of the row begun. -/
theorem countNewRows_eq (C : Nat) (hC : C ≤ 32) :
    ∀ (m fuel : Nat) (r : Table) (vs cf fc : Nat) (lh : Bool),
      cf + m = C → fc ≤ cf → m < fuel →
      ∃ r', countNewRows C fuel r vs cf fc lh = some r' ∧
        ∀ s k, r' s k =
          if completions m cf vs fc lh s k = 0 then r s k
          else (r s k + completions m cf vs fc lh s k) % 2 ^ 32 := by
  intro m
  induction m with
  | zero =>
    intro fuel r vs cf fc lh hcf _ hfuel
    obtain ⟨fuel, rfl⟩ : ∃ f, fuel = f + 1 := ⟨fuel - 1, by omega⟩
    refine ⟨_, by unfold countNewRows; rw [if_pos (by omega)], ?_⟩
    intro s k
    rw [completions_zero, Table.set_apply]
    by_cases h : s = vs ∧ k = fc
    · have h2 : vs = s ∧ fc = k := ⟨h.1.symm, h.2.symm⟩
      rw [if_pos h, if_pos h2, h.1, h.2]
      simp [u32, WORD]
    · have h2 : ¬ (vs = s ∧ fc = k) := fun h3 => h ⟨h3.1.symm, h3.2.symm⟩
      rw [if_neg h, if_neg h2]
      simp
  | succ m ih =>
    intro fuel r vs cf fc lh hcf hfc hfuel
    obtain ⟨fuel, rfl⟩ : ∃ f, fuel = f + 1 := ⟨fuel - 1, by omega⟩
    have e1 : u32 (cf + 1) = cf + 1 := u32_of_lt (by omega)
    have e2 : u32 (fc + 1) = fc + 1 := u32_of_lt (by omega)
    have e3 : shl1 cf = 2 ^ cf := shl1_eq (by omega)
    obtain ⟨r1, hr1, f1⟩ := ih fuel r vs (cf + 1) fc false (by omega) (by omega) (by omega)
    obtain ⟨r2, hr2, f2⟩ :=
      ih fuel r1 (vs ||| 2 ^ cf) (cf + 1) (fc + 1) false (by omega) (by omega) (by omega)
    obtain ⟨r3, hr3, f3⟩ := ih fuel r2 vs (cf + 1) (fc + 1) true (by omega) (by omega) (by omega)
    unfold countNewRows
    rw [if_neg (by omega), e1, e2, e3, hr1]
    simp only [hr2]
    cases lh
    · refine ⟨r3, by simpa using hr3, ?_⟩
      intro s k
      rw [f3, f2, f1, completions_succ]
      simp only [Bool.false_eq_true, if_false]
      generalize completions m (cf + 1) vs fc false s k = c1
      generalize completions m (cf + 1) (vs ||| 2 ^ cf) (fc + 1) false s k = c2
      generalize completions m (cf + 1) vs (fc + 1) true s k = c3
      generalize r s k = x
      split_ifs <;> omega
    · refine ⟨r2, by simp, ?_⟩
      intro s k
      rw [f2, f1, completions_succ]
      simp only [if_true, Nat.add_zero]
      generalize completions m (cf + 1) vs fc false s k = c1
      generalize completions m (cf + 1) (vs ||| 2 ^ cf) (fc + 1) false s k = c2
      generalize r s k = x
      split_ifs <;> omega

theorem testBit_verticalBits :
    ∀ (m cf : Nat) (g : Fin m → Cell) (b : Nat),
      (verticalBits m cf g).testBit b = true ↔ ∃ i : Fin m, cf + i.val = b ∧ g i = Cell.vertical := by
  intro m
  induction m with
  | zero =>
    intro cf g b
    simp [verticalBits]
  | succ m ih =>
    intro cf g b
    unfold verticalBits
    rw [Nat.testBit_or, Bool.or_eq_true, ih, Fin.exists_fin_succ]
    apply or_congr
    · by_cases hg : g 0 = Cell.vertical
      · simp [hg, Nat.testBit_two_pow]
      · simp [hg]
    · apply exists_congr
      intro i
      simp only [Fin.tail, Fin.val_succ]
      constructor
      · rintro ⟨h1, h2⟩
        exact ⟨by omega, h2⟩
      · rintro ⟨h1, h2⟩
        exact ⟨by omega, h2⟩

theorem isCompletion_iff_isRowWay {C s : Nat} (hs : s < 2 ^ C) (k : Nat) (g : Fin C → Cell) :
    IsCompletion C 0 0 0 false s k g ↔ IsRowWay C s k g := by
  unfold IsCompletion IsRowWay
  have hbits : 0 ||| verticalBits C 0 g = s ↔
      ∀ i : Fin C, g i = Cell.vertical ↔ s.testBit i.val = true := by
    rw [Nat.zero_or]
    constructor
    · intro h i
      rw [← h, testBit_verticalBits]
      constructor
      · intro hv
        exact ⟨i, by omega, hv⟩
      · rintro ⟨i', h1, h2⟩
        have : i' = i := Fin.ext (by omega)
        rw [← this]
        exact h2
    · intro h
      apply Nat.eq_of_testBit_eq
      intro b
      rw [Bool.eq_iff_iff, testBit_verticalBits]
      constructor
      · rintro ⟨i, h1, h2⟩
        rw [← h1, Nat.zero_add]
        exact (h i).1 h2
      · intro hb
        have hbC : b < C := by
          by_contra hcon
          have : s.testBit b = false :=
            Nat.testBit_lt_two_pow (lt_of_lt_of_le hs (Nat.pow_le_pow_right (by decide) (by omega)))
          rw [this] at hb
          exact Bool.false_ne_true hb
        exact ⟨⟨b, hbC⟩, by simp, (h ⟨b, hbC⟩).2 hb⟩
  rw [hbits, Nat.zero_add]
  simp

theorem completions_eq_rowWays {C s : Nat} (hs : s < 2 ^ C) (k : Nat) :
    completions C 0 0 0 false s k = rowWays C s k := by
  unfold completions rowWays
  congr 1
  apply Finset.filter_congr
  intro g _
  exact isCompletion_iff_isRowWay hs k g

/-- For a fixed signature a way is determined by its horizontal columns. -/
theorem rowWays_le (C s k : Nat) : rowWays C s k ≤ 2 ^ C := by
  unfold rowWays
  have hcard : (Finset.univ : Finset (Finset (Fin C))).card = 2 ^ C := by
    rw [Finset.card_univ, Fintype.card_finset, Fintype.card_fin]
  rw [← hcard]
  apply Finset.card_le_card_of_injOn
    (fun f => Finset.univ.filter (fun i => f i = Cell.horizontal))
  · intro f _
    exact Finset.mem_univ _
  · intro f hf g hg hfg
    simp only [Finset.coe_filter, Finset.mem_univ, true_and, Set.mem_setOf_eq] at hf hg
    funext i
    have hH : f i = Cell.horizontal ↔ g i = Cell.horizontal := by
      have := congrArg (fun S => i ∈ S) hfg
      simpa using this
    have hV : f i = Cell.vertical ↔ g i = Cell.vertical := by
      rw [hf.2.1 i, hg.2.1 i]
    cases hfi : f i <;> cases hgi : g i <;> simp_all

theorem rowWays_eq_zero_of_lt {C s k : Nat} (hk : C < k) : rowWays C s k = 0 := by
  unfold rowWays
  rw [Finset.card_eq_zero, Finset.filter_eq_empty_iff]
  intro f _ hf
  have h1 := hf.2.2
  have h2 : (Finset.univ.filter (fun i => f i ≠ Cell.empty)).card ≤ C := by
    calc (Finset.univ.filter (fun i => f i ≠ Cell.empty)).card
        ≤ (Finset.univ : Finset (Fin C)).card := Finset.card_filter_le _ _
      _ = C := by rw [Finset.card_univ, Fintype.card_fin]
  omega

theorem rowWays_zero_fences {C s : Nat} (hs : s < 2 ^ C) :
    rowWays C s 0 = if s = 0 then 1 else 0 := by
  by_cases h0 : s = 0
  · subst h0
    rw [if_pos rfl, ← completions_eq_rowWays hs]
    clear hs
    suffices h : ∀ m cf lh, completions m cf 0 0 lh 0 0 = 1 from h C 0 false
    intro m
    induction m with
    | zero => intro cf lh; rw [completions_zero]; simp
    | succ m ih =>
      intro cf lh
      rw [completions_succ, ih]
      have z1 : ∀ vs lh2, completions m (cf + 1) vs 1 lh2 0 0 = 0 := by
        intro vs lh2
        unfold completions
        rw [Finset.card_eq_zero, Finset.filter_eq_empty_iff]
        intro g _ hg
        have := hg.2.2.2
        omega
      rw [z1, z1]
      simp
  · rw [if_neg h0]
    unfold rowWays
    rw [Finset.card_eq_zero, Finset.filter_eq_empty_iff]
    intro f _ hf
    obtain ⟨b, hb⟩ : ∃ b, s.testBit b = true := by
      by_contra hcon
      apply h0
      apply Nat.eq_of_testBit_eq
      intro i
      rw [Nat.zero_testBit]
      by_contra h2
      exact hcon ⟨i, by simpa using h2⟩
    have hbC : b < C := by
      by_contra hcon
      have : s.testBit b = false :=
        Nat.testBit_lt_two_pow (lt_of_lt_of_le hs (Nat.pow_le_pow_right (by decide) (by omega)))
      rw [this] at hb
      exact Bool.false_ne_true hb
    have hv : f ⟨b, hbC⟩ = Cell.vertical := (hf.2.1 ⟨b, hbC⟩).2 hb
    have hcard := hf.2.2
    rw [Finset.card_eq_zero, Finset.filter_eq_empty_iff] at hcard
    exact hcard (Finset.mem_univ ⟨b, hbC⟩) (by rw [hv]; decide)

/-- The Row Enumerator started at the root of the search on a table `r`: it
returns, and a cell that was zero holds the number of ways afterwards. -/
theorem countNewRows_root {C fuel : Nat} (hC : C < 32) (hfuel : C < fuel) (r : Table) :
    ∃ rows, countNewRows C fuel r 0 0 0 false = some rows ∧
      ∀ s k, s < 2 ^ C → r s k = 0 → rows s k = rowWays C s k := by
  obtain ⟨rows, h1, h2⟩ :=
    countNewRows_eq C (by omega) C fuel r 0 0 0 false (by omega) (Nat.le_refl 0) hfuel
  refine ⟨rows, h1, ?_⟩
  intro s k hs hr
  rw [h2, hr, completions_eq_rowWays hs, Nat.zero_add]
  have hle := rowWays_le C s k
  have hlt := two_pow_lt_word hC
  split_ifs with h0
  · exact h0.symm
  · exact Nat.mod_eq_of_lt (by omega)

/-! ## Properties of the closed form of `addRow` -/

theorem rowSum_eq_convolution (C n : Nat) (rows previous_grid : Table) (s k : Nat) :
    rowSum C n rows previous_grid s k = convolution C n previous_grid rows s k := by
  unfold rowSum convolution contribution
  rw [Finset.sum_filter, Finset.sum_filter, Finset.sum_product]
  apply Finset.sum_congr rfl
  intro p _
  rw [Finset.sum_product]
  by_cases hp : p &&& s = 0
  · simp [hp]
  · simp [hp]

theorem rowSum_congr {C n : Nat} {rows1 rows2 prev1 prev2 : Table} {s k : Nat}
    (hprev : ∀ p, p < 2 ^ C → ∀ j, j ≤ k → j ≤ n * C → prev1 p j = prev2 p j)
    (hrows : ∀ a, a ≤ k → rows1 s a = rows2 s a) :
    rowSum C n rows1 prev1 s k = rowSum C n rows2 prev2 s k := by
  unfold rowSum contribution
  apply Finset.sum_congr rfl
  intro p hp
  rw [Finset.mem_filter, Finset.mem_range] at hp
  apply Finset.sum_congr rfl
  intro j hj
  rw [Finset.mem_range] at hj
  apply Finset.sum_congr rfl
  intro a _
  by_cases h : j + a = k
  · rw [if_pos h, if_pos h, hprev p hp.1 j (by omega) (by omega), hrows a (by omega)]
  · rw [if_neg h, if_neg h]

theorem rowSum_eq_zero_of_lt {C n : Nat} (rows previous_grid : Table) (s : Nat) {k : Nat}
    (hk : n * C + C < k) : rowSum C n rows previous_grid s k = 0 := by
  unfold rowSum contribution
  apply Finset.sum_eq_zero
  intro p _
  apply Finset.sum_eq_zero
  intro j hj
  rw [Finset.mem_range] at hj
  apply Finset.sum_eq_zero
  intro a ha
  rw [Finset.mem_range] at ha
  rw [if_neg (by omega)]

theorem rowSum_eq_zero_of_forall {C n : Nat} {rows previous_grid : Table} {s k : Nat}
    (h : ∀ p j a, p < 2 ^ C → p &&& s = 0 → j ≤ n * C → a ≤ C → j + a = k →
      previous_grid p j * rows s a = 0) :
    rowSum C n rows previous_grid s k = 0 := by
  unfold rowSum contribution
  apply Finset.sum_eq_zero
  intro p hp
  rw [Finset.mem_filter, Finset.mem_range] at hp
  apply Finset.sum_eq_zero
  intro j hj
  rw [Finset.mem_range] at hj
  apply Finset.sum_eq_zero
  intro a ha
  rw [Finset.mem_range] at ha
  by_cases hk : j + a = k
  · rw [if_pos hk]
    exact h p j a hp.1 hp.2 (by omega) (by omega) hk
  · rw [if_neg hk]

/-- The first row: only the column `prev_fence_count = 0` of the previous table
is read, and with the seed there the Row table is copied. -/
theorem rowSum_first {C : Nat} (rows previous_grid : Table) (s k : Nat)
    (hseed : ∀ p, p < 2 ^ C → previous_grid p 0 = if p = 0 then 1 else 0) :
    rowSum C 0 rows previous_grid s k = if k ≤ C then rows s k else 0 := by
  unfold rowSum contribution
  have hpos : 0 < 2 ^ C := Nat.two_pow_pos C
  rw [Finset.sum_eq_single 0]
  · simp only [Nat.zero_mul, Nat.zero_add, Finset.range_one, Finset.sum_singleton,
      hseed 0 hpos, if_true, Nat.one_mul]
    by_cases hk : k ≤ C
    · rw [if_pos hk, Finset.sum_eq_single k]
      · simp
      · intro a _ ha
        rw [if_neg ha]
      · intro hk2
        exact absurd (Finset.mem_range.mpr (by omega)) hk2
    · rw [if_neg hk]
      apply Finset.sum_eq_zero
      intro a ha
      rw [Finset.mem_range] at ha
      rw [if_neg (by omega)]
  · intro p hp hp0
    rw [Finset.mem_filter, Finset.mem_range] at hp
    apply Finset.sum_eq_zero
    intro j hj
    simp only [Nat.zero_mul, Nat.zero_add, Finset.range_one, Finset.mem_singleton] at hj
    subst hj
    apply Finset.sum_eq_zero
    intro a _
    rw [hseed p hp.1, if_neg hp0]
    simp
  · intro h0
    exfalso
    apply h0
    rw [Finset.mem_filter, Finset.mem_range]
    exact ⟨hpos, Nat.zero_and s⟩

/-- With no fence at all the signature is 0. -/
theorem rowSum_zero_fences {C n : Nat} {rows previous_grid : Table} {s : Nat}
    (hrows : rows s 0 = 0) : rowSum C n rows previous_grid s 0 = 0 := by
  apply rowSum_eq_zero_of_forall
  intro p j a _ _ _ _ hja
  have : a = 0 := by omega
  rw [this, hrows, Nat.mul_zero]

/-! ## The Result Aggregator -/

theorem foldl_count_total (f : Nat → Nat) (L : List Nat) :
    ∀ a b : Nat, L.foldl (fun (ct : Nat × Nat) s => (ct.1 + f s, ct.2 + f s)) (a, b) =
      (a + (L.map f).sum, b + (L.map f).sum) := by
  induction L with
  | nil => intro a b; simp
  | cons x L ih =>
    intro a b
    rw [List.foldl_cons, ih]
    simp [Nat.add_assoc]

theorem foldl_output (cnt : Nat → Nat) (step : List Nat × Nat → Nat → List Nat × Nat)
    (hstep : ∀ out k, step out k = (out.1 ++ [cnt k], out.2 + cnt k)) (L : List Nat) :
    ∀ out : List Nat × Nat, L.foldl step out =
      (out.1 ++ L.map cnt, out.2 + (L.map cnt).sum) := by
  induction L with
  | nil => intro out; simp
  | cons x L ih =>
    intro out
    rw [List.foldl_cons, ih, hstep]
    simp [Nat.add_assoc]

/-- The numbers `outputResults` prints. -/
theorem outputResults_eq {C : Nat} (hC : C < 32) (F : Nat) (t : Table) :
    outputResults C F t =
      ((List.range (F + 1)).map (fun k => ∑ s in Finset.range (2 ^ C), t s k),
        ∑ k in Finset.range (F + 1), ∑ s in Finset.range (2 ^ C), t s k) := by
  unfold outputResults
  have hpos : 0 < 2 ^ C := Nat.two_pow_pos C
  rw [foldl_output (fun k => ∑ s in Finset.range (2 ^ C), t s k)]
  · unfold upTo
    rw [sum_map_range]
    simp
  · intro out k
    rw [foldl_count_total (fun s => t s k)]
    unfold upTo
    rw [sum_map_range, MAX_VERTICAL_SIGNATURE_eq hC, show 2 ^ C - 1 + 1 = 2 ^ C by omega]
    simp

theorem outputResults_congr {C : Nat} (hC : C < 32) (F : Nat) {t1 t2 : Table}
    (h : ∀ s, s < 2 ^ C → ∀ k, k ≤ F → t1 s k = t2 s k) :
    outputResults C F t1 = outputResults C F t2 := by
  rw [outputResults_eq hC, outputResults_eq hC]
  congr 1
  · apply List.map_congr_left
    intro k hk
    rw [List.mem_range] at hk
    apply Finset.sum_congr rfl
    intro s hs
    rw [Finset.mem_range] at hs
    exact h s hs k (by omega)
  · apply Finset.sum_congr rfl
    intro k hk
    rw [Finset.mem_range] at hk
    apply Finset.sum_congr rfl
    intro s hs
    rw [Finset.mem_range] at hs
    exact h s hs k (by omega)

/-! ## The Grid Driver -/

theorem and_one_succ (n : Nat) : (n + 1) &&& 1 = 0 ↔ ¬ (n &&& 1 = 0) := by
  rw [Nat.and_one_is_mod, Nat.and_one_is_mod]
  omega

theorem seedGrid_apply (s k : Nat) : seedGrid s k = if s = 0 ∧ k = 0 then 1 else 0 := rfl

/-- One more call of `addRow` on the reference sequence. -/
theorem gridAfter_succ {C F fuel : Nat} (hC : C < 32) (hfuel : 2 ^ C < fuel) (rows : Table)
    {n : Nat} (hn : n * C + C < 2 ^ 32) {T : Table} (hT : gridAfter C F fuel rows n = some T) :
    ∃ T', gridAfter C F fuel rows (n + 1) = some T' ∧
      ∀ s k, T' s k = if s < 2 ^ C ∧ k ≤ F then rowSum C n rows T s k else 0 := by
  obtain ⟨T', h1, h2⟩ := addRow_eq (F := F) rows T zeroTable n hC hfuel hn
  refine ⟨T', ?_, h2⟩
  show (match gridAfter C F fuel rows n with
    | none => none
    | some t => addRow C F fuel rows t zeroTable n) = some T'
  rw [hT]
  exact h1

/-- The loop over the rows, from global tables whose `grid_a` has the seed in
its column of fence count 0: the buffer that was written last agrees with the
reference sequence. -/
theorem rows_loop {C F fuel : Nat} (hC : C < 32) (hfuel : 2 ^ C < fuel) (rowsRef : Table)
    (g0 : Globals)
    (hrows : ∀ s, s < 2 ^ C → ∀ k, k ≤ F → g0.rows s k = rowsRef s k)
    (hrows0 : ∀ s, s < 2 ^ C → s ≠ 0 → rowsRef s 0 = 0)
    (hseed : ∀ p, p < 2 ^ C → g0.grid_a p 0 = if p = 0 then 1 else 0)
    (hb : ∀ p, p < 2 ^ C → p ≠ 0 → g0.grid_b p 0 = 0) :
    ∀ R, R * C < 2 ^ 32 →
      ∃ g T, (List.range R).foldlM (rowStep C F fuel) g0 = some g ∧
        gridAfter C F fuel rowsRef R = some T ∧
        g.rows = g0.rows ∧
        (∀ s, s < 2 ^ C → ∀ k, k ≤ F → (k ≤ R * C ∨ 0 < R) → finalGrid R g s k = T s k) ∧
        (∀ s k, ¬ (s < 2 ^ C ∧ k ≤ F) → T s k = 0) ∧
        (∀ p, p < 2 ^ C → p ≠ 0 → g.grid_a p 0 = 0 ∧ g.grid_b p 0 = 0) ∧
        (∀ s k, ¬ (s < 2 ^ C ∧ k ≤ F) →
          g.grid_a s k = g0.grid_a s k ∧ g.grid_b s k = g0.grid_b s k) := by
  intro R
  induction R with
  | zero =>
    intro _
    refine ⟨g0, seedGrid, rfl, rfl, rfl, ?_, ?_, ?_, ?_⟩
    · intro s hs k _ hk
      have hk0 : k = 0 := by omega
      subst hk0
      have : finalGrid 0 g0 = g0.grid_a := rfl
      rw [this, hseed s hs, seedGrid_apply]
      simp
    · intro s k hsk
      rw [seedGrid_apply]
      have hpos : 0 < 2 ^ C := Nat.two_pow_pos C
      have : ¬ (s = 0 ∧ k = 0) := fun h => hsk ⟨by omega, by omega⟩
      rw [if_neg this]
    · intro p hp hp0
      refine ⟨?_, hb p hp hp0⟩
      rw [hseed p hp, if_neg hp0]
    · intro s k _
      exact ⟨rfl, rfl⟩
  | succ n ih =>
    intro hR
    have hn : n * C + C < 2 ^ 32 := by rw [Nat.succ_mul] at hR; exact hR
    obtain ⟨g, T, hrun, hT, hgrows, hagree, hTout, hcol, hout⟩ := ih (by omega)
    obtain ⟨T', hT', hT'val⟩ := gridAfter_succ hC hfuel rowsRef hn hT
    rw [List.range_succ, List.foldlM_append, hrun]
    have hsum : ∀ s, s < 2 ^ C → ∀ k, k ≤ F →
        rowSum C n g.rows (finalGrid n g) s k = rowSum C n rowsRef T s k := by
      intro s hs k hk
      apply rowSum_congr
      · intro p hp j hj1 hj2
        exact hagree p hp j (by omega) (Or.inl hj2)
      · intro a ha
        rw [hgrows]
        exact hrows s hs a (by omega)
    have hzero : ∀ s, s < 2 ^ C → s ≠ 0 → rowSum C n g.rows (finalGrid n g) s 0 = 0 := by
      intro s hs hs0
      apply rowSum_zero_fences
      rw [hgrows, hrows s hs 0 (Nat.zero_le _)]
      exact hrows0 s hs hs0
    by_cases hpar : n &&& 1 = 0
    · have hfin : finalGrid n g = g.grid_a := by unfold finalGrid; rw [if_pos hpar]
      obtain ⟨t, ht, htval⟩ := addRow_eq (F := F) g.rows g.grid_a g.grid_b n hC hfuel hn
      have hstep : rowStep C F fuel g n = some { g with grid_b := t } := by
        unfold rowStep
        rw [if_pos hpar, ht]
        rfl
      refine ⟨{ g with grid_b := t }, T', ?_, hT', hgrows, ?_, ?_, ?_, ?_⟩
      · show List.foldlM (rowStep C F fuel) g [n] = _
        rw [List.foldlM_cons, hstep]
        rfl
      · intro s hs k hk _
        have : finalGrid (n + 1) { g with grid_b := t } = t := by
          unfold finalGrid
          rw [if_neg ((and_one_succ n).not.mpr (not_not.mpr hpar))]
        rw [this, htval, hT'val, if_pos ⟨hs, hk⟩, if_pos ⟨hs, hk⟩, ← hfin]
        exact hsum s hs k hk
      · intro s k hsk
        rw [hT'val, if_neg hsk]
      · intro p hp hp0
        refine ⟨(hcol p hp hp0).1, ?_⟩
        show t p 0 = 0
        rw [htval, if_pos ⟨hp, Nat.zero_le _⟩, ← hfin]
        exact hzero p hp hp0
      · intro s k hsk
        refine ⟨(hout s k hsk).1, ?_⟩
        show t s k = _
        rw [htval, if_neg hsk]
        exact (hout s k hsk).2
    · have hfin : finalGrid n g = g.grid_b := by unfold finalGrid; rw [if_neg hpar]
      obtain ⟨t, ht, htval⟩ := addRow_eq (F := F) g.rows g.grid_b g.grid_a n hC hfuel hn
      have hstep : rowStep C F fuel g n = some { g with grid_a := t } := by
        unfold rowStep
        rw [if_neg hpar, ht]
        rfl
      refine ⟨{ g with grid_a := t }, T', ?_, hT', hgrows, ?_, ?_, ?_, ?_⟩
      · show List.foldlM (rowStep C F fuel) g [n] = _
        rw [List.foldlM_cons, hstep]
        rfl
      · intro s hs k hk _
        have : finalGrid (n + 1) { g with grid_a := t } = t := by
          unfold finalGrid
          rw [if_pos ((and_one_succ n).mpr hpar)]
        rw [this, htval, hT'val, if_pos ⟨hs, hk⟩, if_pos ⟨hs, hk⟩, ← hfin]
        exact hsum s hs k hk
      · intro s k hsk
        rw [hT'val, if_neg hsk]
      · intro p hp hp0
        refine ⟨?_, (hcol p hp hp0).2⟩
        show t p 0 = 0
        rw [htval, if_pos ⟨hp, Nat.zero_le _⟩, ← hfin]
        exact hzero p hp hp0
      · intro s k hsk
        refine ⟨?_, (hout s k hsk).2⟩
        show t s k = _
        rw [htval, if_neg hsk]
        exact (hout s k hsk).1

theorem rowStep_writes {C F fuel n : Nat} {g g' : Globals}
    (h : rowStep C F fuel g n = some g') :
    addRow C F fuel g.rows (finalGrid n g) (finalGrid (n + 1) g) n =
      some (finalGrid (n + 1) g') := by
  unfold rowStep at h
  unfold finalGrid
  by_cases hpar : n &&& 1 = 0
  · rw [if_pos hpar] at h
    rw [if_pos hpar, if_neg ((and_one_succ n).not.mpr (not_not.mpr hpar)),
      if_neg ((and_one_succ n).not.mpr (not_not.mpr hpar))]
    cases hadd : addRow C F fuel g.rows g.grid_a g.grid_b n with
    | none => rw [hadd] at h; exact absurd h (by simp)
    | some t =>
      rw [hadd] at h
      simp only [Option.map_some', Option.some.injEq] at h
      rw [← h]
  · rw [if_neg hpar] at h
    rw [if_neg hpar, if_pos ((and_one_succ n).mpr hpar), if_pos ((and_one_succ n).mpr hpar)]
    cases hadd : addRow C F fuel g.rows g.grid_b g.grid_a n with
    | none => rw [hadd] at h; exact absurd h (by simp)
    | some t =>
      rw [hadd] at h
      simp only [Option.map_some', Option.some.injEq] at h
      rw [← h]

/-- The Row Enumerator as `quoridorCalc` runs it, after the `memset`. -/
theorem enumerator_run {C F fuel : Nat} (hC : C < 32) (hF : F + 1 < 2 ^ 32) (hfuel : C < fuel)
    (r0 : Table) :
    ∃ rows, countNewRows C fuel (memsetRows C F r0) 0 0 0 false = some rows ∧
      ∀ s, s < 2 ^ C → ∀ k, k ≤ F → rows s k = rowWays C s k := by
  obtain ⟨rows, h1, h2⟩ := countNewRows_root hC hfuel (memsetRows C F r0)
  refine ⟨rows, h1, ?_⟩
  intro s hs k hk
  apply h2 s k hs
  unfold memsetRows
  rw [SIGNATURE_DIMENSION_eq hC, FENCE_DIMENSION_eq hF, if_pos ⟨hs, by omega⟩]

theorem quoridorCalc_of_parts {C R F fuel : Nat} {g0 g : Globals} {rows : Table}
    (h1 : countNewRows C fuel (memsetRows C F g0.rows) 0 0 0 false = some rows)
    (h2 : (List.range R).foldlM (rowStep C F fuel)
      { rows := rows, grid_a := g0.grid_a.set 0 0 1, grid_b := g0.grid_b } = some g) :
    quoridorCalc C R F fuel g0 = some (g, outputResults C F (finalGrid R g)) := by
  unfold quoridorCalc
  rw [h1]
  simp only
  rw [h2]

theorem rowWays_zero_col {C s : Nat} (hs : s < 2 ^ C) (h0 : s ≠ 0) : rowWays C s 0 = 0 := by
  rw [rowWays_zero_fences hs, if_neg h0]

theorem two_pow_gt (C : Nat) : C < 2 ^ C := Nat.lt_two_pow C

/-- A whole run of `quoridorCalc` from global tables whose two buffers are
zero in the column of fence count 0, away from signature 0. -/
theorem quoridorCalc_run {C R F fuel : Nat} (hC : C < 32) (hF : F + 1 < 2 ^ 32)
    (hfuel : 2 ^ C < fuel) (hR : R * C < 2 ^ 32) (rowsRef : Table)
    (href : ∀ s, s < 2 ^ C → ∀ k, k ≤ F → rowsRef s k = rowWays C s k) (g0 : Globals)
    (hcol : ∀ p, p < 2 ^ C → p ≠ 0 → g0.grid_a p 0 = 0 ∧ g0.grid_b p 0 = 0) :
    ∃ rows g T, countNewRows C fuel (memsetRows C F g0.rows) 0 0 0 false = some rows ∧
      (∀ s, s < 2 ^ C → ∀ k, k ≤ F → rows s k = rowWays C s k) ∧
      (List.range R).foldlM (rowStep C F fuel)
        { rows := rows, grid_a := g0.grid_a.set 0 0 1, grid_b := g0.grid_b } = some g ∧
      quoridorCalc C R F fuel g0 = some (g, outputResults C F (finalGrid R g)) ∧
      g.rows = rows ∧
      gridAfter C F fuel rowsRef R = some T ∧
      (∀ s, s < 2 ^ C → ∀ k, k ≤ F → (k ≤ R * C ∨ 0 < R) → finalGrid R g s k = T s k) ∧
      (∀ s k, ¬ (s < 2 ^ C ∧ k ≤ F) → T s k = 0) ∧
      (∀ p, p < 2 ^ C → p ≠ 0 → g.grid_a p 0 = 0 ∧ g.grid_b p 0 = 0) ∧
      (∀ s k, ¬ (s < 2 ^ C ∧ k ≤ F) →
        g.grid_a s k = g0.grid_a s k ∧ g.grid_b s k = g0.grid_b s k) := by
  have hpos : 0 < 2 ^ C := Nat.two_pow_pos C
  obtain ⟨rows, hrows, hrowsval⟩ :=
    enumerator_run hC hF (lt_trans (two_pow_gt C) hfuel) g0.rows
  obtain ⟨g, T, hrun, hT, hgrows, hagree, hTout, hcolg, hout⟩ :=
    rows_loop hC hfuel rowsRef
      { rows := rows, grid_a := g0.grid_a.set 0 0 1, grid_b := g0.grid_b }
      (fun s hs k hk => by rw [href s hs k hk]; exact hrowsval s hs k hk)
      (fun s hs h0 => by rw [href s hs 0 (Nat.zero_le _)]; exact rowWays_zero_col hs h0)
      (fun p hp => by
        show g0.grid_a.set 0 0 1 p 0 = _
        rw [Table.set_apply]
        by_cases hp0 : p = 0
        · simp [hp0]
        · simp [hp0, (hcol p hp hp0).1])
      (fun p hp hp0 => (hcol p hp hp0).2) R hR
  refine ⟨rows, g, T, hrows, hrowsval, hrun, quoridorCalc_of_parts hrows hrun, hgrows, hT,
    hagree, hTout, hcolg, ?_⟩
  intro s k hsk
  refine ⟨?_, (hout s k hsk).2⟩
  rw [(hout s k hsk).1]
  show g0.grid_a.set 0 0 1 s k = _
  rw [Table.set_apply]
  have : ¬ (s = 0 ∧ k = 0) := fun h => hsk ⟨by omega, by omega⟩
  rw [if_neg this]

/-! ## Sample runs of the model -/

/-- Two columns, two rows, at most three fences: the printed counts and total. -/
theorem quoridorCalc_sample_2_2_3 :
    (quoridorCalc 2 2 3 5 initialGlobals).map (fun r => r.2) = some ([1, 8, 20, 16], 45) := by
  decide!

/-- Two columns, three rows, at most three fences: the printed counts and
total. -/
theorem quoridorCalc_sample_2_3_3 :
    (quoridorCalc 2 3 3 5 initialGlobals).map (fun r => r.2) = some ([1, 12, 53, 106], 172) := by
  decide!

/-- The ways to fill a row of two columns: both columns horizontal is not a
way, both vertical is one, and there are two ways to place one horizontal
fence. -/
theorem rowWays_sample :
    rowWays 2 0 2 = 0 ∧ rowWays 2 3 2 = 1 ∧ rowWays 2 0 1 = 2 ∧ rowWays 2 1 2 = 1 := by
  decide

/-- With too small a bound on the loop iterations the model returns nothing. -/
theorem quoridorCalc_sample_no_fuel : (quoridorCalc 2 3 3 4 initialGlobals).isSome = false := by
  decide!

/-! ## The claims -/

/-- C1 (Row Enumerator correctness): for a column count `C < 32` with `C ≤ F`,
after `countNewRows (0, 0, 0, false)` has run on the zeroed Row table, the call
has returned and, for every signature `s < 2 ^ C` and every fence count
`k ≤ C`, `rows[s][k]` is the number of assignments of empty, vertical or
horizontal to the columns `0, ..., C - 1` with no two consecutive horizontal
columns, vertical columns exactly the bits of `s`, and exactly `k` non-empty
columns. -/
theorem C1_rows_eq_rowWays (C F fuel : Nat) (r0 : Table) (hC : C < 32) (hCF : C ≤ F)
    (hF : F + 1 < 2 ^ 32) (hfuel : C < fuel) :
    ∃ rows, countNewRows C fuel (memsetRows C F r0) 0 0 0 false = some rows ∧
      ∀ s, s < 2 ^ C → ∀ k, k ≤ C → rows s k = rowWays C s k := by
  obtain ⟨rows, h1, h2⟩ := enumerator_run hC hF hfuel r0
  exact ⟨rows, h1, fun s hs k hk => h2 s hs k (le_trans hk hCF)⟩

/-- An instance of C1: one column, at most one fence. -/
theorem C1_rows_eq_rowWays_witness :
    (1 < 32 ∧ 1 ≤ 1 ∧ 1 + 1 < 2 ^ 32 ∧ 1 < 2) ∧
      ∃ rows, countNewRows 1 2 (memsetRows 1 1 zeroTable) 0 0 0 false = some rows ∧
        ∀ s, s < 2 ^ 1 → ∀ k, k ≤ 1 → rows s k = rowWays 1 s k :=
  ⟨by decide, C1_rows_eq_rowWays 1 1 2 zeroTable (by decide) (by decide) (by decide) (by decide)⟩

/-- C3, as the code has it: the previous signatures for which the body of the
loop runs start at 0 and are exactly the signatures `p ≤ 2 ^ C - 1` that share
no bit with the new signature `s` (`p & s = 0`), each visited exactly once. -/
theorem C3_prevSignatures_disjoint (C s fuel : Nat) (hC : C < 32) (hs : s < 2 ^ C)
    (hfuel : 2 ^ C < fuel) :
    ∃ l, prevSignatures C s fuel = some l ∧ l.head? = some 0 ∧ l.Nodup ∧
      ∀ p, p ∈ l ↔ (p < 2 ^ C ∧ p &&& s = 0) := by
  have happ : ∀ (L acc : List Nat), L.foldl (fun st q => st ++ [q]) acc = acc ++ L := by
    intro L
    induction L with
    | nil => intro acc; simp
    | cons x L ih => intro acc; rw [List.foldl_cons, ih]; simp
  refine ⟨disjointSignatures C s, ?_, ?_, ?_, ?_⟩
  · unfold prevSignatures
    rw [prevSigLoop_eq hC hs hfuel, happ, List.nil_append]
  · unfold disjointSignatures
    obtain ⟨m, hm⟩ : ∃ m, 2 ^ C = m + 1 := ⟨2 ^ C - 1, by have := Nat.two_pow_pos C; omega⟩
    rw [hm, List.range_succ_eq_map, List.filter_cons]
    simp
  · unfold disjointSignatures
    exact (List.nodup_range _).filter _
  · intro p
    unfold disjointSignatures
    rw [List.mem_filter, List.mem_range]
    simp

/-- An instance of C3 as the code has it: two columns, new signature 1. -/
theorem C3_prevSignatures_disjoint_witness :
    (2 < 32 ∧ 1 < 2 ^ 2 ∧ 2 ^ 2 < 5) ∧
      ∃ l, prevSignatures 2 1 5 = some l ∧ l.head? = some 0 ∧ l.Nodup ∧
        ∀ p, p ∈ l ↔ (p < 2 ^ 2 ∧ p &&& 1 = 0) :=
  ⟨by decide, C3_prevSignatures_disjoint 2 1 5 (by decide) (by decide) (by decide)⟩

/-- C3 as stated fails: with one column and new signature 1 the loop visits
the signature 0 only, so it does not start at the mask 1 and does not visit
the signatures `p` with `p & 1 = 1`. -/
theorem C3_superset_counterexample :
    prevSignatures 1 1 3 = some [0] ∧
      ¬ ∃ l, prevSignatures 1 1 3 = some l ∧ l.head? = some 1 ∧
        ∀ p, p ∈ l ↔ (p ≤ 2 ^ 1 - 1 ∧ p &&& 1 = 1) := by
  have h : prevSignatures 1 1 3 = some [0] := by decide
  refine ⟨h, ?_⟩
  rintro ⟨l, h1, h2, _⟩
  rw [h] at h1
  simp only [Option.some.injEq] at h1
  rw [← h1] at h2
  simp at h2

/-- C4 (Grid Driver result): for `R ≥ 1`, of either parity, and `C ≤ F` (the
Row table holds every fence count of a row), `quoridorCalc`
started from the zero-initialised global tables returns; the table it hands to
`outputResults` is the destination written by the last call of `addRow` (the
call for row `R - 1`, which reads the buffer selected after `R - 1` rows and
writes the other one), and it is the `R`-th table of the sequence
`T (n + 1) = addRow (T n, rows, n)` started at the seed, whose only non-zero
cell is `T 0 [0][0] = 1`. -/
theorem C4_quoridorCalc_final_table (C R F fuel : Nat) (hC : C < 32) (_hCF : C ≤ F)
    (hF : F + 1 < 2 ^ 32) (hRC : R * C < 2 ^ 32) (hfuel : 2 ^ C < fuel) (hR : 1 ≤ R) :
    ∃ rows g' g,
      countNewRows C fuel (memsetRows C F initialGlobals.rows) 0 0 0 false = some rows ∧
      (List.range (R - 1)).foldlM (rowStep C F fuel)
        { rows := rows, grid_a := initialGlobals.grid_a.set 0 0 1,
          grid_b := initialGlobals.grid_b } = some g' ∧
      addRow C F fuel g'.rows (finalGrid (R - 1) g') (finalGrid R g') (R - 1) =
        some (finalGrid R g) ∧
      quoridorCalc C R F fuel initialGlobals = some (g, outputResults C F (finalGrid R g)) ∧
      gridAfter C F fuel rows R = some (finalGrid R g) ∧
      gridAfter C F fuel rows 0 = some seedGrid ∧
      ∀ s k, seedGrid s k = if s = 0 ∧ k = 0 then 1 else 0 := by
  obtain ⟨n, rfl⟩ : ∃ n, R = n + 1 := ⟨R - 1, by omega⟩
  have hzero : ∀ p, p < 2 ^ C → p ≠ 0 →
      initialGlobals.grid_a p 0 = 0 ∧ initialGlobals.grid_b p 0 = 0 :=
    fun _ _ _ => ⟨rfl, rfl⟩
  obtain ⟨rows, hrows, hrowsval⟩ :=
    enumerator_run hC hF (lt_trans (two_pow_gt C) hfuel) initialGlobals.rows
  obtain ⟨rows2, g, T, hrows2, _, hrun, hcalc, _, hT, hagree, hTout, _, hout⟩ :=
    quoridorCalc_run hC hF hfuel hRC rows hrowsval initialGlobals hzero
  have hrr : rows2 = rows := by
    rw [hrows] at hrows2
    exact (Option.some.inj hrows2).symm
  subst hrr
  have hTg : T = finalGrid (n + 1) g := by
    funext s k
    by_cases hsk : s < 2 ^ C ∧ k ≤ F
    · exact (hagree s hsk.1 k hsk.2 (Or.inr (Nat.succ_pos n))).symm
    · rw [hTout s k hsk]
      unfold finalGrid
      split_ifs
      · rw [(hout s k hsk).1]; rfl
      · rw [(hout s k hsk).2]; rfl
  rw [List.range_succ, List.foldlM_append] at hrun
  cases hpre : (List.range n).foldlM (rowStep C F fuel)
      { rows := rows2, grid_a := initialGlobals.grid_a.set 0 0 1,
        grid_b := initialGlobals.grid_b } with
  | none => rw [hpre] at hrun; exact absurd hrun (by simp)
  | some g' =>
    rw [hpre] at hrun
    have hstep : rowStep C F fuel g' n = some g := by
      have : List.foldlM (rowStep C F fuel) g' [n] = some g := hrun
      rw [List.foldlM_cons] at this
      cases hs : rowStep C F fuel g' n with
      | none => rw [hs] at this; exact absurd this (by simp)
      | some g2 =>
        rw [hs] at this
        exact this
    refine ⟨rows2, g', g, hrows, hpre, rowStep_writes hstep, hcalc, ?_, rfl, seedGrid_apply⟩
    rw [hT, hTg]

/-- An instance of C4: one column, two rows, at most one fence. -/
theorem C4_quoridorCalc_final_table_witness :
    (1 < 32 ∧ 1 ≤ 1 ∧ 1 + 1 < 2 ^ 32 ∧ 2 * 1 < 2 ^ 32 ∧ 2 ^ 1 < 3 ∧ 1 ≤ 2) ∧
    ∃ rows g' g,
      countNewRows 1 3 (memsetRows 1 1 initialGlobals.rows) 0 0 0 false = some rows ∧
      (List.range (2 - 1)).foldlM (rowStep 1 1 3)
        { rows := rows, grid_a := initialGlobals.grid_a.set 0 0 1,
          grid_b := initialGlobals.grid_b } = some g' ∧
      addRow 1 1 3 g'.rows (finalGrid (2 - 1) g') (finalGrid 2 g') (2 - 1) =
        some (finalGrid 2 g) ∧
      quoridorCalc 1 2 1 3 initialGlobals = some (g, outputResults 1 1 (finalGrid 2 g)) ∧
      gridAfter 1 1 3 rows 2 = some (finalGrid 2 g) ∧
      gridAfter 1 1 3 rows 0 = some seedGrid ∧
      ∀ s k, seedGrid s k = if s = 0 ∧ k = 0 then 1 else 0 :=
  ⟨by decide, C4_quoridorCalc_final_table 1 2 1 3 (by decide) (by decide) (by decide)
    (by decide) (by decide) (by decide)⟩

/-- C5 (Result Aggregator): for every final table, `outputResults` prints one
count per fence count `0, ..., F`; the count for `k` is the sum of
`final[s][k]` over the signatures `s ≤ 2 ^ C - 1`, and the total is the sum of
these counts, which is the sum of all the cells of the table. -/
theorem C5_outputResults_sums (C F : Nat) (final : Table) (hC : C < 32)
    (_hF : F + 1 < 2 ^ 32) :
    (outputResults C F final).1.length = F + 1 ∧
      (∀ k, k ≤ F → (outputResults C F final).1[k]? =
        some (∑ s in Finset.range (2 ^ C), final s k)) ∧
      (outputResults C F final).2 = (outputResults C F final).1.sum ∧
      (outputResults C F final).2 =
        ∑ c in Finset.range (2 ^ C) ×ˢ Finset.range (F + 1), final c.1 c.2 := by
  rw [outputResults_eq hC]
  refine ⟨by simp, ?_, ?_, ?_⟩
  · intro k hk
    simp only [List.getElem?_map]
    rw [List.getElem?_range (by omega)]
    rfl
  · simp only
    rw [sum_map_range]
  · simp only
    rw [Finset.sum_product, Finset.sum_comm]

/-- An instance of C5: the seed as final table. -/
theorem C5_outputResults_sums_witness :
    (1 < 32 ∧ 1 + 1 < 2 ^ 32) ∧
    ((outputResults 1 1 seedGrid).1.length = 1 + 1 ∧
      (∀ k, k ≤ 1 → (outputResults 1 1 seedGrid).1[k]? =
        some (∑ s in Finset.range (2 ^ 1), seedGrid s k)) ∧
      (outputResults 1 1 seedGrid).2 = (outputResults 1 1 seedGrid).1.sum ∧
      (outputResults 1 1 seedGrid).2 =
        ∑ c in Finset.range (2 ^ 1) ×ˢ Finset.range (1 + 1), seedGrid c.1 c.2) :=
  ⟨by decide, C5_outputResults_sums 1 1 seedGrid (by decide) (by decide)⟩

/-- C6 (Monotonic fence bound): for `C ≤ F` (the Row table holds every fence
count of a row) and every `n ≤ R` the table obtained after `n`
calls of `addRow` from the seed exists and has `table[s][k] = 0` for every
signature `s ≤ 2 ^ C - 1` and every `k` with `n * C < k ≤ F`; and in the final
table of `quoridorCalc` the sum over `s` of `final[s][k]` is 0 for every `k`
with `R * C < k ≤ F`. -/
theorem C6_fence_bound (C R F fuel : Nat) (hC : C < 32) (_hCF : C ≤ F) (hF : F + 1 < 2 ^ 32)
    (hRC : R * C < 2 ^ 32) (hfuel : 2 ^ C < fuel) :
    ∃ rows g,
      countNewRows C fuel (memsetRows C F initialGlobals.rows) 0 0 0 false = some rows ∧
      (∀ n, n ≤ R → ∃ T, gridAfter C F fuel rows n = some T ∧
        ∀ s, s < 2 ^ C → ∀ k, n * C < k → k ≤ F → T s k = 0) ∧
      quoridorCalc C R F fuel initialGlobals = some (g, outputResults C F (finalGrid R g)) ∧
      ∀ k, R * C < k → k ≤ F → ∑ s in Finset.range (2 ^ C), finalGrid R g s k = 0 := by
  have hzero : ∀ p, p < 2 ^ C → p ≠ 0 →
      initialGlobals.grid_a p 0 = 0 ∧ initialGlobals.grid_b p 0 = 0 :=
    fun _ _ _ => ⟨rfl, rfl⟩
  obtain ⟨rows, hrows, hrowsval⟩ :=
    enumerator_run hC hF (lt_trans (two_pow_gt C) hfuel) initialGlobals.rows
  have hbound : ∀ n, n * C < 2 ^ 32 → ∃ T, gridAfter C F fuel rows n = some T ∧
      ∀ s, s < 2 ^ C → ∀ k, n * C < k → k ≤ F → T s k = 0 := by
    intro n hn
    cases n with
    | zero =>
      refine ⟨seedGrid, rfl, ?_⟩
      intro s _ k hk _
      rw [seedGrid_apply, if_neg (by omega)]
    | succ m =>
      have hm : m * C + C < 2 ^ 32 := by rw [Nat.succ_mul] at hn; exact hn
      obtain ⟨_, _, Tm, _, _, _, _, _, hTm, _⟩ :=
        quoridorCalc_run (R := m) hC hF hfuel (by omega) rows hrowsval initialGlobals hzero
      obtain ⟨T, hT, hTval⟩ := gridAfter_succ hC hfuel rows hm hTm
      refine ⟨T, hT, ?_⟩
      intro s hs k hk hkF
      rw [hTval, if_pos ⟨hs, hkF⟩]
      exact rowSum_eq_zero_of_lt rows Tm s (by rw [Nat.succ_mul] at hk; exact hk)
  obtain ⟨rows2, g, T, hrows2, _, hrun, hcalc, _, hT, hagree, _, _, _⟩ :=
    quoridorCalc_run hC hF hfuel hRC rows hrowsval initialGlobals hzero
  have hrr : rows2 = rows := by
    rw [hrows] at hrows2
    exact (Option.some.inj hrows2).symm
  subst hrr
  refine ⟨rows2, g, hrows, ?_, hcalc, ?_⟩
  · intro n hn
    exact hbound n (lt_of_le_of_lt (Nat.mul_le_mul_right C hn) hRC)
  · intro k hk hkF
    apply Finset.sum_eq_zero
    intro s hs
    rw [Finset.mem_range] at hs
    obtain ⟨T2, hT2, hT2zero⟩ := hbound R hRC
    rw [hT] at hT2
    have hTT : T = T2 := Option.some.inj hT2
    subst hTT
    cases R with
    | zero =>
      have hg := Option.some.inj (show some _ = some g from hrun)
      rw [← hg]
      show (zeroTable.set 0 0 1) s k = 0
      rw [Table.set_apply, if_neg (by omega)]
      rfl
    | succ m =>
      rw [hagree s hs k hkF (Or.inr (Nat.succ_pos m))]
      exact hT2zero s hs k hk hkF

/-- An instance of C6: one column, two rows, at most three fences. -/
theorem C6_fence_bound_witness :
    (1 < 32 ∧ 1 ≤ 3 ∧ 3 + 1 < 2 ^ 32 ∧ 2 * 1 < 2 ^ 32 ∧ 2 ^ 1 < 3) ∧
    ∃ rows g,
      countNewRows 1 3 (memsetRows 1 3 initialGlobals.rows) 0 0 0 false = some rows ∧
      (∀ n, n ≤ 2 → ∃ T, gridAfter 1 3 3 rows n = some T ∧
        ∀ s, s < 2 ^ 1 → ∀ k, n * 1 < k → k ≤ 3 → T s k = 0) ∧
      quoridorCalc 1 2 3 3 initialGlobals = some (g, outputResults 1 3 (finalGrid 2 g)) ∧
      ∀ k, 2 * 1 < k → k ≤ 3 → ∑ s in Finset.range (2 ^ 1), finalGrid 2 g s k = 0 :=
  ⟨by decide, C6_fence_bound 1 2 3 3 (by decide) (by decide) (by decide) (by decide)
    (by decide)⟩

/-- C7 (Single-row convolution reproduces the Row table): for one row and every
`C ≤ F`, the final table of `quoridorCalc` equals the Row table cell for cell:
`final[s][k] = rows[s][k]` for every signature `s ≤ 2 ^ C - 1` and every
`k ≤ F`. -/
theorem C7_single_row_is_row_table (C F fuel : Nat) (hC : C < 32) (_hCF : C ≤ F)
    (hF : F + 1 < 2 ^ 32) (hfuel : 2 ^ C < fuel) :
    ∃ rows g,
      countNewRows C fuel (memsetRows C F initialGlobals.rows) 0 0 0 false = some rows ∧
      quoridorCalc C 1 F fuel initialGlobals = some (g, outputResults C F (finalGrid 1 g)) ∧
      g.rows = rows ∧
      ∀ s, s < 2 ^ C → ∀ k, k ≤ F → finalGrid 1 g s k = rows s k := by
  have hzero : ∀ p, p < 2 ^ C → p ≠ 0 →
      initialGlobals.grid_a p 0 = 0 ∧ initialGlobals.grid_b p 0 = 0 :=
    fun _ _ _ => ⟨rfl, rfl⟩
  have hC1 : 1 * C < 2 ^ 32 := by omega
  obtain ⟨rows, hrows, hrowsval⟩ :=
    enumerator_run hC hF (lt_trans (two_pow_gt C) hfuel) initialGlobals.rows
  obtain ⟨rows2, g, T, hrows2, _, _, hcalc, hgrows, hT, hagree, _, _, _⟩ :=
    quoridorCalc_run hC hF hfuel hC1 rows hrowsval initialGlobals hzero
  have hrr : rows2 = rows := by
    rw [hrows] at hrows2
    exact (Option.some.inj hrows2).symm
  subst hrr
  refine ⟨rows2, g, hrows, hcalc, hgrows, ?_⟩
  intro s hs k hk
  obtain ⟨T1, hT1, hT1val⟩ := gridAfter_succ (F := F) (n := 0) hC hfuel rows2 (by omega)
    (T := seedGrid) rfl
  rw [hT] at hT1
  have hTT : T = T1 := Option.some.inj hT1
  subst hTT
  rw [hagree s hs k hk (Or.inr Nat.one_pos), hT1val, if_pos ⟨hs, hk⟩,
    rowSum_first rows2 seedGrid s k (fun p _ => by rw [seedGrid_apply]; simp)]
  by_cases hkC : k ≤ C
  · rw [if_pos hkC]
  · rw [if_neg hkC, hrowsval s hs k hk, rowWays_eq_zero_of_lt (by omega)]

/-- An instance of C7: one column, one row. -/
theorem C7_single_row_is_row_table_witness :
    (1 < 32 ∧ 1 ≤ 1 ∧ 1 + 1 < 2 ^ 32 ∧ 2 ^ 1 < 3) ∧
    ∃ rows g,
      countNewRows 1 3 (memsetRows 1 1 initialGlobals.rows) 0 0 0 false = some rows ∧
      quoridorCalc 1 1 1 3 initialGlobals = some (g, outputResults 1 1 (finalGrid 1 g)) ∧
      g.rows = rows ∧
      ∀ s, s < 2 ^ 1 → ∀ k, k ≤ 1 → finalGrid 1 g s k = rows s k :=
  ⟨by decide, C7_single_row_is_row_table 1 1 3 (by decide) (by decide) (by decide)
    (by decide)⟩

/-- C8 (Documented example): with 8 columns, after
`countNewRows (0, 0, 0, false)` has run on a zeroed table, `rows[17][4] = 11`:
there are exactly 11 arrangements of one row with 4 fences and vertical
signature 17. -/
theorem C8_rows_17_4 (fuel : Nat) (hfuel : 8 < fuel) :
    ∃ rows, countNewRows 8 fuel zeroTable 0 0 0 false = some rows ∧ rows 17 4 = 11 ∧
      rowWays 8 17 4 = 11 := by
  obtain ⟨rows, h1, h2⟩ := countNewRows_root (C := 8) (by decide) hfuel zeroTable
  obtain ⟨rows9, h3, h4⟩ := @countNewRows_root 8 9 (by decide) (by decide) zeroTable
  have e : (countNewRows 8 9 zeroTable 0 0 0 false).map (fun t => t 17 4) = some 11 := by
    decide!
  rw [h3] at e
  simp only [Option.map_some', Option.some.injEq] at e
  have hw : rowWays 8 17 4 = 11 := by
    rw [← h4 17 4 (by decide) rfl]
    exact e
  exact ⟨rows, h1, by rw [h2 17 4 (by decide) rfl]; exact hw, hw⟩

/-- An instance of C8: recursion depth bound 9. -/
theorem C8_rows_17_4_witness :
    8 < 9 ∧ ∃ rows, countNewRows 8 9 zeroTable 0 0 0 false = some rows ∧ rows 17 4 = 11 ∧
      rowWays 8 17 4 = 11 :=
  ⟨by decide, C8_rows_17_4 9 (by decide)⟩

/-- C9 (Idempotence of the pipeline): for `R ≥ 1` and `C ≤ F` (the Row table
holds every fence count of a row), `quoridorCalc` run from the
zero-initialised global tables and then run again from the global tables as the
first run left them, both runs return and the second prints the same count for
each fence count and the same total as the first. -/
theorem C9_second_run_same_output (C R F fuel : Nat) (hC : C < 32) (_hCF : C ≤ F)
    (hF : F + 1 < 2 ^ 32) (hRC : R * C < 2 ^ 32) (hfuel : 2 ^ C < fuel) (hR : 1 ≤ R) :
    ∃ g1 out1 g2 out2,
      quoridorCalc C R F fuel initialGlobals = some (g1, out1) ∧
      quoridorCalc C R F fuel g1 = some (g2, out2) ∧ out2 = out1 := by
  have hzero : ∀ p, p < 2 ^ C → p ≠ 0 →
      initialGlobals.grid_a p 0 = 0 ∧ initialGlobals.grid_b p 0 = 0 :=
    fun _ _ _ => ⟨rfl, rfl⟩
  obtain ⟨rows, _, hrowsval⟩ :=
    enumerator_run hC hF (lt_trans (two_pow_gt C) hfuel) initialGlobals.rows
  obtain ⟨_, g1, T1, _, _, _, hcalc1, _, hT1, hagree1, _, hcol1, _⟩ :=
    quoridorCalc_run hC hF hfuel hRC rows hrowsval initialGlobals hzero
  obtain ⟨_, g2, T2, _, _, _, hcalc2, _, hT2, hagree2, _, _, _⟩ :=
    quoridorCalc_run hC hF hfuel hRC rows hrowsval g1 hcol1
  rw [hT1] at hT2
  have hTT : T1 = T2 := Option.some.inj hT2
  subst hTT
  refine ⟨g1, _, g2, _, hcalc1, hcalc2, ?_⟩
  apply outputResults_congr hC
  intro s hs k hk
  rw [hagree1 s hs k hk (Or.inr hR), hagree2 s hs k hk (Or.inr hR)]

/-- An instance of C9: one column, two rows, at most two fences. -/
theorem C9_second_run_same_output_witness :
    (1 < 32 ∧ 1 ≤ 2 ∧ 2 + 1 < 2 ^ 32 ∧ 2 * 1 < 2 ^ 32 ∧ 2 ^ 1 < 3 ∧ 1 ≤ 2) ∧
    ∃ g1 out1 g2 out2,
      quoridorCalc 1 2 2 3 initialGlobals = some (g1, out1) ∧
      quoridorCalc 1 2 2 3 g1 = some (g2, out2) ∧ out2 = out1 :=
  ⟨by decide, C9_second_run_same_output 1 2 2 3 (by decide) (by decide) (by decide)
    (by decide) (by decide) (by decide)⟩

/-- C10 (No carry-over in `addRow`): for every previous table, Row table and
row index, `addRow` returns whatever the destination held before, any two
prior contents of the destination give the same cells `[s][k]`,
`s ≤ 2 ^ C - 1`, `k ≤ F`, and a cell that receives no contribution (every
product `previous[p][j] * rows[s][a]` of the sum for it is zero) is 0. -/
theorem C10_addRow_no_carry_over (C F fuel n : Nat) (rows previous current1 current2 : Table)
    (hC : C < 32) (_hF : F + 1 < 2 ^ 32) (hfuel : 2 ^ C < fuel) (hn : n * C + C < 2 ^ 32) :
    ∃ t1 t2, addRow C F fuel rows previous current1 n = some t1 ∧
      addRow C F fuel rows previous current2 n = some t2 ∧
      ∀ s, s < 2 ^ C → ∀ k, k ≤ F → t1 s k = t2 s k ∧
        ((∀ p j a, p < 2 ^ C → p &&& s = 0 → j ≤ n * C → a ≤ C → j + a = k →
            previous p j * rows s a = 0) → t1 s k = 0) := by
  obtain ⟨t1, h1, v1⟩ := addRow_eq (F := F) rows previous current1 n hC hfuel hn
  obtain ⟨t2, h2, v2⟩ := addRow_eq (F := F) rows previous current2 n hC hfuel hn
  refine ⟨t1, t2, h1, h2, ?_⟩
  intro s hs k hk
  rw [v1, v2, if_pos ⟨hs, hk⟩, if_pos ⟨hs, hk⟩]
  exact ⟨rfl, fun h => rowSum_eq_zero_of_forall h⟩

/-- An instance of C10: a zero destination and a destination holding the seed. -/
theorem C10_addRow_no_carry_over_witness :
    (1 < 32 ∧ 1 + 1 < 2 ^ 32 ∧ 2 ^ 1 < 3 ∧ 0 * 1 + 1 < 2 ^ 32) ∧
    ∃ t1 t2, addRow 1 1 3 zeroTable seedGrid zeroTable 0 = some t1 ∧
      addRow 1 1 3 zeroTable seedGrid seedGrid 0 = some t2 ∧
      ∀ s, s < 2 ^ 1 → ∀ k, k ≤ 1 → t1 s k = t2 s k ∧
        ((∀ p j a, p < 2 ^ 1 → p &&& s = 0 → j ≤ 0 * 1 → a ≤ 1 → j + a = k →
            seedGrid p j * zeroTable s a = 0) → t1 s k = 0) :=
  ⟨by decide, C10_addRow_no_carry_over 1 1 3 0 zeroTable seedGrid zeroTable seedGrid
    (by decide) (by decide) (by decide) (by decide)⟩

/-! ## The Row table with one and with two columns -/

/-- The result of the Row Enumerator does not depend on the bound on the
recursion depth, once the bound exceeds the number of columns left. -/
theorem countNewRows_fuel {C m fuel1 fuel2 : Nat} (hC : C ≤ 32) (r : Table) (vs cf fc : Nat)
    (lh : Bool) (hcf : cf + m = C) (hfc : fc ≤ cf) (h1 : m < fuel1) (h2 : m < fuel2) :
    countNewRows C fuel1 r vs cf fc lh = countNewRows C fuel2 r vs cf fc lh := by
  obtain ⟨r1, e1, v1⟩ := countNewRows_eq C hC m fuel1 r vs cf fc lh hcf hfc h1
  obtain ⟨r2, e2, v2⟩ := countNewRows_eq C hC m fuel2 r vs cf fc lh hcf hfc h2
  rw [e1, e2]
  congr 1
  funext s k
  rw [v1, v2]

theorem countNewRows_one :
    countNewRows 1 2 zeroTable 0 0 0 false =
      some (((zeroTable.set 0 0 1).set 1 1 1).set 0 1 1) := by
  rfl

theorem countNewRows_two :
    countNewRows 2 3 zeroTable 0 0 0 false =
      some ((((((((zeroTable.set 0 0 1).set 2 1 1).set 0 1 1).set 1 1 1).set 3 2 1).set 1 2 1).set
        0 1 2).set 2 2 1) := by
  rfl


/-- C12 (Single-column Row table): with one column, after the Row Enumerator
has run on a zeroed table, `rows[0][0] = 1` (empty), `rows[1][1] = 1`
(vertical) and `rows[0][1] = 1` (the lone column takes a horizontal fence, as
the first column has no preceding column), and every other cell is 0. -/
theorem C12_single_column_rows (fuel : Nat) (hfuel : 1 < fuel) :
    ∃ rows, countNewRows 1 fuel zeroTable 0 0 0 false = some rows ∧
      rows 0 0 = 1 ∧ rows 1 1 = 1 ∧ rows 0 1 = 1 ∧
      ∀ s k, ¬ ((s = 0 ∧ k = 0) ∨ (s = 1 ∧ k = 1) ∨ (s = 0 ∧ k = 1)) → rows s k = 0 := by
  refine ⟨((zeroTable.set 0 0 1).set 1 1 1).set 0 1 1, ?_, rfl, rfl, rfl, ?_⟩
  · rw [countNewRows_fuel (m := 1) (by decide) zeroTable 0 0 0 false rfl (Nat.le_refl 0) hfuel
      (Nat.lt_succ_self 1)]
    exact countNewRows_one
  · intro s k h
    simp only [Table.set_apply, zeroTable]
    split_ifs with h1 h2 h3
    · exact absurd (Or.inr (Or.inr h1)) h
    · exact absurd (Or.inr (Or.inl h2)) h
    · exact absurd (Or.inl h3) h
    · rfl

/-- An instance of C12: recursion depth bound 2. -/
theorem C12_single_column_rows_witness :
    1 < 2 ∧ ∃ rows, countNewRows 1 2 zeroTable 0 0 0 false = some rows ∧
      rows 0 0 = 1 ∧ rows 1 1 = 1 ∧ rows 0 1 = 1 ∧
      ∀ s k, ¬ ((s = 0 ∧ k = 0) ∨ (s = 1 ∧ k = 1) ∨ (s = 0 ∧ k = 1)) → rows s k = 0 :=
  ⟨by decide, C12_single_column_rows 2 (by decide)⟩

/-- C13 (Two-column Row table): with two columns, after the Row Enumerator has
run on a zeroed table, `rows[0][0] = 1` (both empty), `rows[3][2] = 1` (both
vertical) and `rows[0][2] = 0` (both columns horizontal is not counted); the
cells outside signatures `0, ..., 3` and fence counts `0, 1, 2` are 0 and the
sum of all cells is 8, not 9. -/
theorem C13_two_column_rows (fuel : Nat) (hfuel : 2 < fuel) :
    ∃ rows, countNewRows 2 fuel zeroTable 0 0 0 false = some rows ∧
      rows 0 0 = 1 ∧ rows 3 2 = 1 ∧ rows 0 2 = 0 ∧
      (∀ s k, ¬ (s < 2 ^ 2 ∧ k ≤ 2) → rows s k = 0) ∧
      ∑ c in Finset.range (2 ^ 2) ×ˢ Finset.range (2 + 1), rows c.1 c.2 = 8 := by
  refine ⟨(((((((zeroTable.set 0 0 1).set 2 1 1).set 0 1 1).set 1 1 1).set 3 2 1).set 1 2 1).set
        0 1 2).set 2 2 1, ?_, rfl, rfl, rfl, ?_, ?_⟩
  · rw [countNewRows_fuel (m := 2) (by decide) zeroTable 0 0 0 false rfl (Nat.le_refl 0) hfuel
      (Nat.lt_succ_self 2)]
    exact countNewRows_two
  · intro s k h
    simp only [Table.set_apply, zeroTable]
    have h' : ¬ (s < 4 ∧ k ≤ 2) := h
    split_ifs <;> first | rfl | omega
  · decide

/-- An instance of C13: recursion depth bound 3. -/
theorem C13_two_column_rows_witness :
    2 < 3 ∧ ∃ rows, countNewRows 2 3 zeroTable 0 0 0 false = some rows ∧
      rows 0 0 = 1 ∧ rows 3 2 = 1 ∧ rows 0 2 = 0 ∧
      (∀ s k, ¬ (s < 2 ^ 2 ∧ k ≤ 2) → rows s k = 0) ∧
      ∑ c in Finset.range (2 ^ 2) ×ˢ Finset.range (2 + 1), rows c.1 c.2 = 8 :=
  ⟨by decide, C13_two_column_rows 3 (by decide)⟩

/-! ## Counting the disjoint signatures -/

theorem and_eq_zero_iff_testBit (x s : Nat) :
    x &&& s = 0 ↔ ∀ i, x.testBit i = true → s.testBit i = false := by
  constructor
  · intro h i hx
    have hi : (x &&& s).testBit i = false := by rw [h]; exact Nat.zero_testBit i
    rw [Nat.testBit_and, hx] at hi
    simpa using hi
  · intro h
    apply Nat.eq_of_testBit_eq
    intro i
    rw [Nat.testBit_and, Nat.zero_testBit]
    cases hx : x.testBit i
    · rfl
    · rw [h i hx]; rfl

theorem two_pow_add_and_eq_zero {C p : Nat} (hp : p < 2 ^ C) (s : Nat) :
    (2 ^ C + p) &&& s = 0 ↔ (s.testBit C = false ∧ p &&& s = 0) := by
  rw [and_eq_zero_iff_testBit, and_eq_zero_iff_testBit]
  have hpC : p.testBit C = false := Nat.testBit_lt_two_pow hp
  constructor
  · intro h
    refine ⟨h C (by rw [Nat.testBit_two_pow_add_eq, hpC]; rfl), ?_⟩
    intro i hi
    have hiC : i < C := by
      by_contra hcon
      have : p.testBit i = false :=
        Nat.testBit_lt_two_pow (lt_of_lt_of_le hp (Nat.pow_le_pow_right (by decide) (by omega)))
      rw [this] at hi
      exact Bool.false_ne_true hi
    exact h i (by rw [Nat.testBit_two_pow_add_gt hiC]; exact hi)
  · rintro ⟨h1, h2⟩ i hi
    rcases Nat.lt_trichotomy i C with hlt | heq | hgt
    · rw [Nat.testBit_two_pow_add_gt hlt] at hi
      exact h2 i hi
    · rw [heq]; exact h1
    · have hlt : 2 ^ C + p < 2 ^ i := by
        have : 2 ^ (C + 1) ≤ 2 ^ i := Nat.pow_le_pow_right (by decide) (by omega)
        rw [Nat.pow_succ] at this
        omega
      rw [Nat.testBit_lt_two_pow hlt] at hi
      exact absurd hi Bool.false_ne_true

/-- The number of set bits of `s` below position `C`. -/
theorem bitsBelow_succ (C s : Nat) :
    ((List.range (C + 1)).filter (fun i => s.testBit i)).length =
      ((List.range C).filter (fun i => s.testBit i)).length +
        (if s.testBit C = true then 1 else 0) := by
  rw [List.range_succ, List.filter_append, List.length_append]
  cases h : s.testBit C <;> simp [h]

theorem length_disjointSignatures_mul (C s : Nat) :
    (disjointSignatures C s).length *
      2 ^ ((List.range C).filter (fun i => s.testBit i)).length = 2 ^ C := by
  induction C with
  | zero =>
    unfold disjointSignatures
    have : List.range 1 = [0] := rfl
    simp [this]
  | succ C ih =>
    have hsplit : (disjointSignatures (C + 1) s).length =
        (disjointSignatures C s).length +
          (if s.testBit C = true then 0 else (disjointSignatures C s).length) := by
      unfold disjointSignatures
      rw [Nat.pow_succ, Nat.mul_two, List.range_add, List.filter_append, List.length_append,
        List.filter_map, List.length_map]
      congr 1
      by_cases hC : s.testBit C = true
      · rw [if_pos hC]
        rw [List.length_eq_zero, List.filter_eq_nil_iff]
        intro p hp
        rw [List.mem_range] at hp
        simp only [Function.comp, decide_eq_true_eq]
        rw [two_pow_add_and_eq_zero hp]
        simp [hC]
      · rw [if_neg hC]
        congr 1
        apply List.filter_congr
        intro p hp
        rw [List.mem_range] at hp
        simp only [Function.comp, decide_eq_decide]
        rw [two_pow_add_and_eq_zero hp]
        simp [hC]
    rw [hsplit, bitsBelow_succ]
    by_cases hC : s.testBit C = true
    · simp only [hC, if_true, Nat.add_zero]
      rw [Nat.pow_succ, ← Nat.mul_assoc, ih, Nat.pow_succ]
    · have hCf : s.testBit C = false := by simpa using hC
      simp only [hCf, Bool.false_eq_true, if_false, Nat.add_zero]
      rw [Nat.pow_succ, ← ih]
      ring

theorem popcount_eq_bitsBelow {C s : Nat} (hC : C ≤ 32) (hs : s < 2 ^ C) :
    popcount s = ((List.range C).filter (fun i => s.testBit i)).length := by
  unfold popcount
  obtain ⟨d, hd⟩ : ∃ d, 32 = C + d := ⟨32 - C, by omega⟩
  rw [hd, List.range_add, List.filter_append, List.length_append]
  have : ((List.range d).map (fun x => C + x)).filter (fun i => s.testBit i) = [] := by
    rw [List.filter_eq_nil_iff]
    intro i hi
    rw [List.mem_map] at hi
    obtain ⟨x, _, rfl⟩ := hi
    rw [Nat.testBit_lt_two_pow (lt_of_lt_of_le hs (Nat.pow_le_pow_right (by decide) (by omega)))]
    exact Bool.false_ne_true
  rw [this]
  rfl

theorem bitsBelow_le (C s : Nat) :
    ((List.range C).filter (fun i => s.testBit i)).length ≤ C := by
  calc ((List.range C).filter (fun i => s.testBit i)).length
      ≤ (List.range C).length := List.length_filter_le _ _
    _ = C := List.length_range C

theorem length_disjointSignatures {C s : Nat} (hC : C ≤ 32) (hs : s < 2 ^ C) :
    (disjointSignatures C s).length = 2 ^ (C - popcount s) := by
  have h := length_disjointSignatures_mul C s
  rw [popcount_eq_bitsBelow hC hs]
  have hb := bitsBelow_le C s
  generalize ((List.range C).filter (fun i => s.testBit i)).length = b at h hb
  have hpos : 0 < 2 ^ b := Nat.two_pow_pos b
  have e : 2 ^ C = 2 ^ (C - b) * 2 ^ b := by
    rw [← Nat.pow_add]
    congr 1
    omega
  rw [e] at h
  exact Nat.eq_of_mul_eq_mul_right hpos h

theorem prevSignatures_eq {C s fuel : Nat} (hC : C < 32) (hs : s < 2 ^ C)
    (hfuel : 2 ^ C < fuel) : prevSignatures C s fuel = some (disjointSignatures C s) := by
  have happ : ∀ (L acc : List Nat), L.foldl (fun st q => st ++ [q]) acc = acc ++ L := by
    intro L
    induction L with
    | nil => intro acc; simp
    | cons x L ih => intro acc; rw [List.foldl_cons, ih]; simp
  unfold prevSignatures
  rw [prevSigLoop_eq hC hs hfuel, happ, List.nil_append]

/-- C15 (Subset iteration): for `1 ≤ C < 32` and a new signature `s ≤ 2 ^ C - 1`,
the loop `p := 0; while p <= 2 ^ C - 1: p := ((p | s) + 1) & ~s` in 32-bit
unsigned arithmetic terminates; the values of `p` for which the body runs are
strictly increasing, so each occurs once, they are exactly the signatures
`p ≤ 2 ^ C - 1` with `p & s = 0`, and there are `2 ^ (C - popcount s)` of
them. -/
theorem C15_subset_iteration (C s fuel : Nat) (_hC1 : 1 ≤ C) (hC : C < 32) (hs : s < 2 ^ C)
    (hfuel : 2 ^ C < fuel) :
    ∃ l, prevSignatures C s fuel = some l ∧
      l.Pairwise (fun a b => a < b) ∧ l.Nodup ∧
      (∀ p, p ∈ l ↔ (p ≤ 2 ^ C - 1 ∧ p &&& s = 0)) ∧
      l.length = 2 ^ (C - popcount s) := by
  have hpos : 0 < 2 ^ C := Nat.two_pow_pos C
  refine ⟨disjointSignatures C s, prevSignatures_eq hC hs hfuel, ?_, ?_, ?_,
    length_disjointSignatures (Nat.le_of_lt hC) hs⟩
  · unfold disjointSignatures
    exact (List.pairwise_lt_range _).filter _
  · unfold disjointSignatures
    exact (List.nodup_range _).filter _
  · intro p
    unfold disjointSignatures
    rw [List.mem_filter, List.mem_range]
    simp only [decide_eq_true_eq]
    constructor
    · rintro ⟨h1, h2⟩
      exact ⟨by omega, h2⟩
    · rintro ⟨h1, h2⟩
      exact ⟨by omega, h2⟩

/-- An instance of C15: three columns, new signature 5, of popcount 2; the
loop visits 0 and 2. -/
theorem C15_subset_iteration_witness :
    (1 ≤ 3 ∧ 3 < 32 ∧ 5 < 2 ^ 3 ∧ 2 ^ 3 < 9) ∧
    ∃ l, prevSignatures 3 5 9 = some l ∧
      l.Pairwise (fun a b => a < b) ∧ l.Nodup ∧
      (∀ p, p ∈ l ↔ (p ≤ 2 ^ 3 - 1 ∧ p &&& 5 = 0)) ∧
      l.length = 2 ^ (3 - popcount 5) :=
  ⟨by decide, C15_subset_iteration 3 5 9 (by decide) (by decide) (by decide) (by decide)⟩

theorem prevSignatures_sample : prevSignatures 3 5 9 = some [0, 2] ∧ popcount 5 = 2 := by
  decide

/-! ## The leaves of the Row Enumerator -/

/-- The table of the search with a record of the leaves is the table of
`countNewRows`. -/
theorem countNewRowsTraced_fst (C : Nat) :
    ∀ (fuel : Nat) (st : Table × List (Nat × Nat)) (vs cf fc : Nat) (lh : Bool),
      (countNewRowsTraced C fuel st vs cf fc lh).map Prod.fst =
        countNewRows C fuel st.1 vs cf fc lh := by
  intro fuel
  induction fuel with
  | zero => intro st vs cf fc lh; rfl
  | succ fuel ih =>
    intro st vs cf fc lh
    unfold countNewRowsTraced countNewRows
    by_cases hcf : cf = C
    · rw [if_pos hcf, if_pos hcf]; rfl
    · rw [if_neg hcf, if_neg hcf]
      have h1 := ih st vs (u32 (cf + 1)) fc false
      cases e1 : countNewRowsTraced C fuel st vs (u32 (cf + 1)) fc false with
      | none => rw [e1] at h1; rw [← h1]; rfl
      | some st1 =>
        rw [e1] at h1
        rw [← h1]
        simp only [Option.map_some']
        have h2 := ih st1 (vs ||| shl1 cf) (u32 (cf + 1)) (u32 (fc + 1)) false
        cases e2 : countNewRowsTraced C fuel st1 (vs ||| shl1 cf) (u32 (cf + 1)) (u32 (fc + 1))
            false with
        | none => rw [e2] at h2; rw [← h2]; rfl
        | some st2 =>
          rw [e2] at h2
          rw [← h2]
          simp only [Option.map_some']
          cases lh
          · exact ih st2 vs (u32 (cf + 1)) (u32 (fc + 1)) true
          · rfl

theorem popcount_or_two_pow {vs cf : Nat} (hcf : cf < 32) (hvs : vs < 2 ^ cf) :
    popcount (vs ||| 2 ^ cf) = popcount vs + 1 := by
  have h1 : vs ||| 2 ^ cf < 2 ^ (cf + 1) :=
    Nat.or_lt_two_pow (lt_of_lt_of_le hvs (Nat.pow_le_pow_right (by decide) (by omega)))
      (Nat.pow_lt_pow_right (by decide) (by omega))
  rw [popcount_eq_bitsBelow (C := cf + 1) (by omega) h1,
    popcount_eq_bitsBelow (Nat.le_of_lt hcf) hvs, bitsBelow_succ]
  congr 1
  · congr 1
    apply List.filter_congr
    intro i hi
    rw [List.mem_range] at hi
    rw [Nat.testBit_or, Nat.testBit_two_pow]
    have : ¬ (cf = i) := by omega
    simp [this]
  · rw [Nat.testBit_or, Nat.testBit_two_pow]
    simp

/-- The leaves below a node of the search: each has its signature below
`2 ^ C` and at least as many fences as signature bits, and at most `C`; a
cell that is no leaf keeps its value. -/
theorem countNewRowsTraced_spec (C : Nat) (hC : C ≤ 32) :
    ∀ (m fuel : Nat) (st : Table × List (Nat × Nat)) (vs cf fc : Nat) (lh : Bool),
      cf + m = C → m < fuel → vs < 2 ^ cf → popcount vs ≤ fc → fc ≤ cf →
      ∃ r' new, countNewRowsTraced C fuel st vs cf fc lh = some (r', st.2 ++ new) ∧
        (∀ leaf ∈ new, leaf.1 < 2 ^ C ∧ popcount leaf.1 ≤ leaf.2 ∧ leaf.2 ≤ C) ∧
        (∀ s k, (s, k) ∉ new → r' s k = st.1 s k) := by
  intro m
  induction m with
  | zero =>
    intro fuel st vs cf fc lh hcf hfuel hvs hpop hfc
    obtain ⟨fuel, rfl⟩ : ∃ f, fuel = f + 1 := ⟨fuel - 1, by omega⟩
    have hcfC : cf = C := by omega
    refine ⟨_, [(vs, fc)], by unfold countNewRowsTraced; rw [if_pos hcfC], ?_, ?_⟩
    · intro leaf hleaf
      rw [List.mem_singleton] at hleaf
      subst hleaf
      exact ⟨by rw [← hcfC]; exact hvs, hpop, by omega⟩
    · intro s k hsk
      rw [Table.set_apply, if_neg]
      rintro ⟨rfl, rfl⟩
      exact hsk (List.mem_singleton.mpr rfl)
  | succ m ih =>
    intro fuel st vs cf fc lh hcf hfuel hvs hpop hfc
    obtain ⟨fuel, rfl⟩ : ∃ f, fuel = f + 1 := ⟨fuel - 1, by omega⟩
    have e1 : u32 (cf + 1) = cf + 1 := u32_of_lt (by omega)
    have e2 : u32 (fc + 1) = fc + 1 := u32_of_lt (by omega)
    have e3 : shl1 cf = 2 ^ cf := shl1_eq (by omega)
    have hvs1 : vs < 2 ^ (cf + 1) :=
      lt_of_lt_of_le hvs (Nat.pow_le_pow_right (by decide) (by omega))
    have hvs2 : vs ||| 2 ^ cf < 2 ^ (cf + 1) :=
      Nat.or_lt_two_pow hvs1 (Nat.pow_lt_pow_right (by decide) (by omega))
    have hpop2 : popcount (vs ||| 2 ^ cf) ≤ fc + 1 := by
      rw [popcount_or_two_pow (by omega) hvs]; omega
    obtain ⟨r1, n1, hr1, l1, f1⟩ :=
      ih fuel st vs (cf + 1) fc false (by omega) (by omega) hvs1 hpop (by omega)
    obtain ⟨r2, n2, hr2, l2, f2⟩ :=
      ih fuel (r1, st.2 ++ n1) (vs ||| 2 ^ cf) (cf + 1) (fc + 1) false (by omega) (by omega)
        hvs2 hpop2 (by omega)
    obtain ⟨r3, n3, hr3, l3, f3⟩ :=
      ih fuel (r2, (st.2 ++ n1) ++ n2) vs (cf + 1) (fc + 1) true (by omega) (by omega)
        hvs1 (by omega) (by omega)
    unfold countNewRowsTraced
    rw [if_neg (by omega), e1, e2, e3, hr1]
    simp only [hr2]
    cases lh
    · refine ⟨r3, n1 ++ n2 ++ n3, ?_, ?_, ?_⟩
      · simp only [Bool.not_false, if_true]
        rw [hr3]
        simp [List.append_assoc]
      · intro leaf hleaf
        rw [List.mem_append, List.mem_append] at hleaf
        rcases hleaf with (h | h) | h
        · exact l1 leaf h
        · exact l2 leaf h
        · exact l3 leaf h
      · intro s k hsk
        rw [List.mem_append, List.mem_append] at hsk
        exact (f3 s k (fun h => hsk (Or.inr h))).trans
          ((f2 s k (fun h => hsk (Or.inl (Or.inr h)))).trans
            (f1 s k (fun h => hsk (Or.inl (Or.inl h)))))
    · refine ⟨r2, n1 ++ n2, ?_, ?_, ?_⟩
      · simp [List.append_assoc]
      · intro leaf hleaf
        rw [List.mem_append] at hleaf
        rcases hleaf with h | h
        · exact l1 leaf h
        · exact l2 leaf h
      · intro s k hsk
        rw [List.mem_append] at hsk
        exact (f2 s k (fun h => hsk (Or.inr h))).trans (f1 s k (fun h => hsk (Or.inl h)))

theorem popcount_zero : popcount 0 = 0 := by decide

/-- The leaves of the search with one and with two columns. -/
theorem countNewRowsTraced_sample :
    (countNewRowsTraced 1 2 (zeroTable, []) 0 0 0 false).map Prod.snd =
        some [(0, 0), (1, 1), (0, 1)] ∧
      (countNewRowsTraced 2 3 (zeroTable, []) 0 0 0 false).map Prod.snd =
        some [(0, 0), (2, 1), (0, 1), (1, 1), (3, 2), (1, 2), (0, 1), (2, 2)] := by
  decide

/-- C20 (Row Enumerator leaves stay inside the Row table): the search from
`countNewRows (0, 0, 0, false)` returns and every leaf it reaches has
`vertical_signature ≤ 2 ^ C - 1` and
`popcount vertical_signature ≤ fence_count ≤ C`, so with `C ≤ F` the increment
`++rows [vertical_signature][fence_count]` is inside the declared dimensions;
and `rows[s][k] = 0` whenever `k < popcount s` or `k > C`. -/
theorem C20_leaves_in_bounds (C F fuel : Nat) (hC : C < 32) (hCF : C ≤ F)
    (hF : F + 1 < 2 ^ 32) (hfuel : C < fuel) :
    ∃ rows leaves,
      countNewRowsTraced C fuel (zeroTable, []) 0 0 0 false = some (rows, leaves) ∧
      countNewRows C fuel zeroTable 0 0 0 false = some rows ∧
      (∀ leaf ∈ leaves, leaf.1 ≤ 2 ^ C - 1 ∧ popcount leaf.1 ≤ leaf.2 ∧ leaf.2 ≤ C ∧
        leaf.1 < SIGNATURE_DIMENSION C ∧ leaf.2 < FENCE_DIMENSION F) ∧
      ∀ s k, (k < popcount s ∨ C < k) → rows s k = 0 := by
  obtain ⟨rows, leaves, h1, h2, h3⟩ :=
    countNewRowsTraced_spec C (Nat.le_of_lt hC) C fuel (zeroTable, []) 0 0 0 false (by omega)
      hfuel (by decide) (by rw [popcount_zero]) (Nat.le_refl 0)
  rw [List.nil_append] at h1
  refine ⟨rows, leaves, h1, ?_, ?_, ?_⟩
  · have := countNewRowsTraced_fst C fuel (zeroTable, []) 0 0 0 false
    rw [h1] at this
    exact this.symm
  · intro leaf hleaf
    obtain ⟨a, b, c⟩ := h2 leaf hleaf
    rw [SIGNATURE_DIMENSION_eq hC, FENCE_DIMENSION_eq hF]
    exact ⟨by omega, b, c, a, by omega⟩
  · intro s k hk
    rw [h3 s k]
    · rfl
    · intro hmem
      obtain ⟨_, b, c⟩ := h2 (s, k) hmem
      simp only at b c
      omega

/-- An instance of C20: two columns, at most three fences. -/
theorem C20_leaves_in_bounds_witness :
    (2 < 32 ∧ 2 ≤ 3 ∧ 3 + 1 < 2 ^ 32 ∧ 2 < 3) ∧
    ∃ rows leaves,
      countNewRowsTraced 2 3 (zeroTable, []) 0 0 0 false = some (rows, leaves) ∧
      countNewRows 2 3 zeroTable 0 0 0 false = some rows ∧
      (∀ leaf ∈ leaves, leaf.1 ≤ 2 ^ 2 - 1 ∧ popcount leaf.1 ≤ leaf.2 ∧ leaf.2 ≤ 2 ∧
        leaf.1 < SIGNATURE_DIMENSION 2 ∧ leaf.2 < FENCE_DIMENSION 3) ∧
      ∀ s k, (k < popcount s ∨ 2 < k) → rows s k = 0 :=
  ⟨by decide, C20_leaves_in_bounds 2 3 3 (by decide) (by decide) (by decide) (by decide)⟩

/-! ## The sum of the cells of the Row table -/

theorem isLegalSuffix_cons (m : Nat) (lh : Bool) (c : Cell) (g : Fin m → Cell) :
    IsLegalSuffix (m + 1) lh (Fin.cons c g) ↔
      ¬ (lh = true ∧ c = Cell.horizontal) ∧ IsLegalSuffix m (decide (c = Cell.horizontal)) g := by
  unfold IsLegalSuffix
  simp only [Fin.forall_fin_succ, Fin.cons_zero, Fin.cons_succ, Fin.val_zero, Fin.val_succ]
  constructor
  · rintro ⟨h1, h2⟩
    refine ⟨fun hc => h1.1 trivial hc.1 hc.2, ?_, ?_⟩
    · intro j hj hc
      have := h2.1.2 j (by omega)
      simp only [decide_eq_true_eq] at hc
      exact fun hg => this ⟨hc, hg⟩
    · intro i
      exact fun j hj => (h2.2 i).2 j (by omega)
  · rintro ⟨h0, h1, h2⟩
    refine ⟨⟨fun _ hl hc => h0 ⟨hl, hc⟩, fun j hj => by omega⟩, ⟨fun h => by omega, ?_⟩, ?_⟩
    · intro j hj hc
      exact h1 j (by omega) (by simpa using hc.1) hc.2
    · intro i
      exact ⟨fun h => by omega, fun j hj => h2 i j (by omega)⟩

theorem legalSuffixes_zero (lh : Bool) : legalSuffixes 0 lh = 1 := by
  unfold legalSuffixes
  rw [Finset.card_filter, Fintype.sum_unique]
  unfold IsLegalSuffix
  simp

theorem legalSuffixes_succ (m : Nat) (lh : Bool) :
    legalSuffixes (m + 1) lh =
      2 * legalSuffixes m false + (if lh = true then 0 else legalSuffixes m true) := by
  unfold legalSuffixes
  rw [card_filter_cons, Nat.two_mul]
  simp only [isLegalSuffix_cons]
  congr 1
  · congr 1
    · congr 1
      apply Finset.filter_congr
      intro g _
      simp
    · congr 1
      apply Finset.filter_congr
      intro g _
      simp
  · by_cases hl : lh = true
    · simp [hl]
    · rw [if_neg hl]
      congr 1
      apply Finset.filter_congr
      intro g _
      simp [hl]

theorem legalSuffixes_le (m : Nat) (lh : Bool) : legalSuffixes m lh ≤ 3 ^ m := by
  unfold legalSuffixes
  calc (Finset.univ.filter (IsLegalSuffix m lh)).card
      ≤ (Finset.univ : Finset (Fin m → Cell)).card := Finset.card_filter_le _ _
    _ = 3 ^ m := by
      rw [Finset.card_univ, Fintype.card_fun, Fintype.card_fin]
      rfl

theorem verticalBits_lt (m cf : Nat) (g : Fin m → Cell) : verticalBits m cf g < 2 ^ (cf + m) := by
  apply Nat.lt_pow_two_of_testBit
  intro b hb
  by_contra hcon
  have htrue : (verticalBits m cf g).testBit b = true := by simpa using hcon
  rw [testBit_verticalBits] at htrue
  obtain ⟨i, hi, _⟩ := htrue
  have := i.isLt
  omega

theorem card_nonempty_le {m : Nat} (g : Fin m → Cell) :
    (Finset.univ.filter (fun i => g i ≠ Cell.empty)).card ≤ m := by
  calc (Finset.univ.filter (fun i => g i ≠ Cell.empty)).card
      ≤ (Finset.univ : Finset (Fin m)).card := Finset.card_filter_le _ _
    _ = m := by rw [Finset.card_univ, Fintype.card_fin]

/-- Every legal row is a way for exactly one signature and one fence count. -/
theorem sum_rowWays (C : Nat) :
    ∑ c in Finset.range (2 ^ C) ×ˢ Finset.range (C + 1), rowWays C c.1 c.2 =
      legalSuffixes C false := by
  unfold legalSuffixes
  rw [Finset.card_eq_sum_card_fiberwise
    (f := fun g : Fin C → Cell =>
      (verticalBits C 0 g, (Finset.univ.filter (fun i => g i ≠ Cell.empty)).card))
    (t := Finset.range (2 ^ C) ×ˢ Finset.range (C + 1))]
  · apply Finset.sum_congr rfl
    intro c hc
    rw [Finset.mem_product, Finset.mem_range, Finset.mem_range] at hc
    unfold rowWays
    congr 1
    rw [Finset.filter_filter]
    apply Finset.filter_congr
    intro g _
    rw [← isCompletion_iff_isRowWay hc.1]
    unfold IsCompletion IsLegalSuffix
    rw [Nat.zero_or, Nat.zero_add, Prod.ext_iff]
    simp only
    tauto
  · intro g _
    rw [Finset.mem_product, Finset.mem_range, Finset.mem_range]
    refine ⟨?_, Nat.lt_succ_of_le (card_nonempty_le g)⟩
    have := verticalBits_lt C 0 g
    rw [Nat.zero_add] at this
    exact this

theorem legalSuffixes_eight : legalSuffixes 8 false = 3344 := by
  have h0 : ∀ lh, legalSuffixes 0 lh = 1 := legalSuffixes_zero
  have h1 : legalSuffixes 1 false = 3 ∧ legalSuffixes 1 true = 2 := by
    constructor <;> rw [legalSuffixes_succ] <;> simp [h0]
  have h2 : legalSuffixes 2 false = 8 ∧ legalSuffixes 2 true = 6 := by
    constructor <;> rw [legalSuffixes_succ] <;> simp [h1]
  have h3 : legalSuffixes 3 false = 22 ∧ legalSuffixes 3 true = 16 := by
    constructor <;> rw [legalSuffixes_succ] <;> simp [h2]
  have h4 : legalSuffixes 4 false = 60 ∧ legalSuffixes 4 true = 44 := by
    constructor <;> rw [legalSuffixes_succ] <;> simp [h3]
  have h5 : legalSuffixes 5 false = 164 ∧ legalSuffixes 5 true = 120 := by
    constructor <;> rw [legalSuffixes_succ] <;> simp [h4]
  have h6 : legalSuffixes 6 false = 448 ∧ legalSuffixes 6 true = 328 := by
    constructor <;> rw [legalSuffixes_succ] <;> simp [h5]
  have h7 : legalSuffixes 7 false = 1224 ∧ legalSuffixes 7 true = 896 := by
    constructor <;> rw [legalSuffixes_succ] <;> simp [h6]
  rw [legalSuffixes_succ]
  simp [h7]

theorem sum_rows_eq {C F : Nat} (hCF : C ≤ F) {rows : Table}
    (h : ∀ s k, s < 2 ^ C → rows s k = rowWays C s k) :
    ∑ c in Finset.range (2 ^ C) ×ˢ Finset.range (F + 1), rows c.1 c.2 =
      legalSuffixes C false := by
  rw [← sum_rowWays, Finset.sum_product, Finset.sum_product]
  apply Finset.sum_congr rfl
  intro s hs
  rw [Finset.mem_range] at hs
  have hsub : Finset.range (C + 1) ⊆ Finset.range (F + 1) :=
    Finset.range_subset.mpr (by omega)
  rw [← Finset.sum_subset hsub]
  · apply Finset.sum_congr rfl
    intro k _
    exact h s k hs
  · intro k _ hk
    rw [Finset.mem_range] at hk
    rw [h s k hs]
    exact rowWays_eq_zero_of_lt (by omega)

/-- C19 (No fixed-width count is silently truncated): for `1 ≤ C ≤ 20` the Row
Enumerator returns, the sum of all the cells of the Row table is at most
`3 ^ C < 2 ^ 32` (for `C = 8` it is 3344), and every cell holds the exact
number of ways, so that no 32-bit counter has wrapped. -/
theorem C19_row_counters_exact (C F fuel : Nat) (_hC1 : 1 ≤ C) (hC : C ≤ 20) (hCF : C ≤ F)
    (hfuel : C < fuel) :
    ∃ rows, countNewRows C fuel zeroTable 0 0 0 false = some rows ∧
      ∑ c in Finset.range (2 ^ C) ×ˢ Finset.range (F + 1), rows c.1 c.2 ≤ 3 ^ C ∧
      3 ^ C < 2 ^ 32 ∧
      (∀ s, s < 2 ^ C → ∀ k, k ≤ F → rows s k = rowWays C s k) ∧
      (C = 8 → ∑ c in Finset.range (2 ^ C) ×ˢ Finset.range (F + 1), rows c.1 c.2 = 3344) := by
  obtain ⟨rows, h1, h2⟩ := countNewRows_root (C := C) (by omega) hfuel zeroTable
  have hval : ∀ s k, s < 2 ^ C → rows s k = rowWays C s k := fun s k hs => h2 s k hs rfl
  have hsum := sum_rows_eq hCF hval
  refine ⟨rows, h1, ?_, ?_, fun s hs k _ => hval s k hs, ?_⟩
  · rw [hsum]
    exact legalSuffixes_le C false
  · calc 3 ^ C ≤ 3 ^ 20 := Nat.pow_le_pow_right (by decide) hC
      _ < 2 ^ 32 := by norm_num
  · intro h8
    rw [hsum, h8]
    exact legalSuffixes_eight

/-- An instance of C19: eight columns, at most twenty fences. -/
theorem C19_row_counters_exact_witness :
    (1 ≤ 8 ∧ 8 ≤ 20 ∧ 8 ≤ 20 ∧ 8 < 9) ∧
    ∃ rows, countNewRows 8 9 zeroTable 0 0 0 false = some rows ∧
      ∑ c in Finset.range (2 ^ 8) ×ˢ Finset.range (20 + 1), rows c.1 c.2 ≤ 3 ^ 8 ∧
      3 ^ 8 < 2 ^ 32 ∧
      (∀ s, s < 2 ^ 8 → ∀ k, k ≤ 20 → rows s k = rowWays 8 s k) ∧
      (8 = 8 → ∑ c in Finset.range (2 ^ 8) ×ˢ Finset.range (20 + 1), rows c.1 c.2 = 3344) :=
  ⟨by decide, C19_row_counters_exact 8 20 9 (by decide) (by decide) (by decide) (by decide)⟩


/-! ## The bound on the previous fence count -/

theorem contribution_eq_zero_of_prev {C : Nat} {rows previous_grid : Table} {s k p j : Nat}
    (h : previous_grid p j = 0) : contribution C rows previous_grid s k p j = 0 := by
  unfold contribution
  apply Finset.sum_eq_zero
  intro a _
  simp [h]

theorem contribution_eq_zero_of_lt {C : Nat} {rows previous_grid : Table} {s k p j : Nat}
    (h : k < j) : contribution C rows previous_grid s k p j = 0 := by
  unfold contribution
  apply Finset.sum_eq_zero
  intro a _
  rw [if_neg (by omega)]

theorem sum_range_eq_of_zero (c : Nat → Nat) (A B : Nat)
    (h : ∀ j, (A ≤ j ∧ j < B) ∨ (B ≤ j ∧ j < A) → c j = 0) :
    ∑ j in Finset.range A, c j = ∑ j in Finset.range B, c j := by
  have hA : ∑ j in Finset.range A, c j = ∑ j in Finset.range (max A B), c j := by
    apply Finset.sum_subset (Finset.range_subset.mpr (le_max_left A B))
    intro j hj hj2
    rw [Finset.mem_range] at hj hj2
    exact h j (Or.inl ⟨by omega, by
      rcases le_total A B with hab | hab
      · rw [max_eq_right hab] at hj; exact hj
      · rw [max_eq_left hab] at hj; omega⟩)
  have hB : ∑ j in Finset.range B, c j = ∑ j in Finset.range (max A B), c j := by
    apply Finset.sum_subset (Finset.range_subset.mpr (le_max_right A B))
    intro j hj hj2
    rw [Finset.mem_range] at hj hj2
    exact h j (Or.inr ⟨by omega, by
      rcases le_total A B with hab | hab
      · rw [max_eq_right hab] at hj; omega
      · rw [max_eq_left hab] at hj; exact hj⟩)
  rw [hA, hB]

/-- With a previous table that is zero above `n * C`, the bound `n * C` on the
previous fence count leaves out nothing. -/
theorem rowSum_eq_unbounded {C F n : Nat} (rows previous_grid : Table) {s k : Nat} (hk : k ≤ F)
    (hzero : ∀ p, p < 2 ^ C → ∀ j, n * C < j → j ≤ F → previous_grid p j = 0) :
    rowSum C n rows previous_grid s k =
      ∑ p in (Finset.range (2 ^ C)).filter (fun p => p &&& s = 0),
        ∑ j in Finset.range (F + 1), contribution C rows previous_grid s k p j := by
  unfold rowSum
  apply Finset.sum_congr rfl
  intro p hp
  rw [Finset.mem_filter, Finset.mem_range] at hp
  apply sum_range_eq_of_zero
  intro j hj
  rcases hj with ⟨h1, h2⟩ | ⟨h1, h2⟩
  · exact contribution_eq_zero_of_prev (hzero p hp.1 j (by omega) (by omega))
  · exact contribution_eq_zero_of_lt (by omega)

/-- For a previous table that is not zero above `n * C` the two computations
differ: one column, row 0, and a previous table with ways at fence count 1. -/
theorem addRowUnbounded_sample :
    (addRow 1 1 3 (fun _ _ => 1) (fun _ _ => 1) zeroTable 0).map (fun t => t 0 1) = some 2 ∧
      (addRowUnbounded 1 1 3 (fun _ _ => 1) (fun _ _ => 1) zeroTable).map (fun t => t 0 1) =
        some 4 := by
  decide


/-! ## The accesses of `addRow` -/

theorem foldl_fst {α β : Type} (L : List α) (step' : Table × β → α → Table × β)
    (step : Table → α → Table) (h : ∀ st x, (step' st x).1 = step st.1 x) :
    ∀ st, (L.foldl step' st).1 = L.foldl step st.1 := by
  induction L with
  | nil => intro st; rfl
  | cons x L ih =>
    intro st
    rw [List.foldl_cons, List.foldl_cons, ih, h]

theorem foldl_snd {α β : Type} (L : List α) (step' : Table × List β → α → Table × List β)
    (g : α → List β) (h : ∀ st x, (step' st x).2 = st.2 ++ g x) :
    ∀ st, (L.foldl step' st).2 = st.2 ++ L.flatMap g := by
  induction L with
  | nil => intro st; simp
  | cons x L ih =>
    intro st
    rw [List.foldl_cons, ih, h, List.flatMap_cons, List.append_assoc]

theorem addedLoopTraced_fst (C F : Nat) (rows previous_grid : Table) (s p j : Nat)
    (st : Table × List Access) :
    (addedLoopTraced C F rows previous_grid s p j st).1 =
      addedLoop C F rows previous_grid s p j st.1 := by
  unfold addedLoopTraced addedLoop
  apply foldl_fst
  intro st a
  by_cases h : rows s a = 0
  · simp [h]
  · simp [h]

theorem addedLoopTraced_snd (C F : Nat) (rows previous_grid : Table) (s p j : Nat)
    (st : Table × List Access) :
    (addedLoopTraced C F rows previous_grid s p j st).2 =
      st.2 ++ addedAccesses C F rows s j := by
  unfold addedLoopTraced addedAccesses
  apply foldl_snd
  intro st a
  by_cases h : rows s a = 0
  · simp [h]
  · simp [h]

theorem prevFenceLoopTraced_fst (C F : Nat) (rows previous_grid : Table) (m s p : Nat)
    (st : Table × List Access) :
    (prevFenceLoopTraced C F rows previous_grid m s p st).1 =
      prevFenceLoop C F rows previous_grid m s p st.1 := by
  unfold prevFenceLoopTraced prevFenceLoop
  apply foldl_fst
  intro st j
  by_cases h : previous_grid p j = 0
  · simp [h]
  · simp [h, addedLoopTraced_fst]

theorem prevFenceLoopTraced_snd (C F : Nat) (rows previous_grid : Table) (m s p : Nat)
    (st : Table × List Access) :
    (prevFenceLoopTraced C F rows previous_grid m s p st).2 =
      st.2 ++ prevFenceAccesses C F rows previous_grid m s p := by
  unfold prevFenceLoopTraced prevFenceAccesses
  apply foldl_snd
  intro st j
  by_cases h : previous_grid p j = 0
  · simp [h]
  · simp [h, addedLoopTraced_snd]

/-- The function `addRow` with a record of its accesses returns the table of
`addRow` and the list `addRowAccesses`. -/
theorem addRowTraced_eq {C F fuel : Nat} (rows previous_grid current_grid : Table) (row : Nat)
    (hC : C < 32) (hfuel : 2 ^ C < fuel) :
    ∃ t, addRow C F fuel rows previous_grid current_grid row = some t ∧
      addRowTraced C F fuel rows previous_grid current_grid row =
        some (t, addRowAccesses C F rows previous_grid (u32 (row * C))) := by
  have hmax := MAX_VERTICAL_SIGNATURE_eq hC
  have hpos : 0 < 2 ^ C := Nat.two_pow_pos C
  have h1 : addRow C F fuel rows previous_grid current_grid row =
      some ((upTo (MAX_VERTICAL_SIGNATURE C)).foldl
        (fun g s => (disjointSignatures C s).foldl
          (fun g p => prevFenceLoop C F rows previous_grid (u32 (row * C)) s p g) g)
        (clearGrid C F current_grid)) := by
    unfold addRow
    apply foldlM_eq_some_foldl
    intro g s hs
    unfold upTo at hs
    rw [List.mem_range, hmax] at hs
    exact prevSigLoop_eq hC (by omega) hfuel _ g
  have h2 : addRowTraced C F fuel rows previous_grid current_grid row =
      some ((upTo (MAX_VERTICAL_SIGNATURE C)).foldl
        (fun st s => (disjointSignatures C s).foldl
          (fun st p => prevFenceLoopTraced C F rows previous_grid (u32 (row * C)) s p st) st)
        (clearGrid C F current_grid, [])) := by
    unfold addRowTraced
    apply foldlM_eq_some_foldl
    intro g s hs
    unfold upTo at hs
    rw [List.mem_range, hmax] at hs
    exact prevSigLoop_eq hC (by omega) hfuel _ g
  refine ⟨_, h1, ?_⟩
  rw [h2]
  refine congrArg some (Prod.ext ?_ ?_)
  · rw [foldl_fst _ _ (fun g s => (disjointSignatures C s).foldl
      (fun g p => prevFenceLoop C F rows previous_grid (u32 (row * C)) s p g) g)]
    intro st s
    rw [foldl_fst _ _ (fun g p => prevFenceLoop C F rows previous_grid (u32 (row * C)) s p g)]
    intro st p
    exact prevFenceLoopTraced_fst C F rows previous_grid _ s p st
  · rw [foldl_snd _ _ (fun s => (disjointSignatures C s).flatMap
      (fun p => prevFenceAccesses C F rows previous_grid (u32 (row * C)) s p))]
    · rw [hmax]
      simp [addRowAccesses]
    · intro st s
      rw [foldl_snd _ _ (fun p => prevFenceAccesses C F rows previous_grid (u32 (row * C)) s p)]
      intro st p
      exact prevFenceLoopTraced_snd C F rows previous_grid _ s p st

theorem mem_addedAccesses {C F : Nat} {rows : Table} {s j : Nat} {e : Access}
    (hj : j + C < 2 ^ 32) (he : e ∈ addedAccesses C F rows s j) :
    ∃ a, a ≤ C ∧ j + a ≤ F ∧ (e = Access.readRows s a ∨ e = Access.accumulate s (j + a)) := by
  unfold addedAccesses at he
  rw [List.mem_flatMap] at he
  obtain ⟨a, ha, hea⟩ := he
  have haC : a ≤ C := by
    have := List.takeWhile_subset _ ha
    unfold upTo at this
    rw [List.mem_range] at this
    omega
  have haF := List.mem_takeWhile_imp ha
  simp only [decide_eq_true_eq] at haF
  rw [u32_of_lt (by omega)] at haF
  refine ⟨a, haC, by omega, ?_⟩
  by_cases hr : rows s a = 0
  · simp only [hr, ne_eq, not_true_eq_false, if_false, List.mem_singleton] at hea
    exact Or.inl hea
  · simp only [hr, ne_eq, not_false_eq_true, if_true, List.mem_cons, List.mem_singleton,
      List.not_mem_nil, or_false] at hea
    rw [u32_of_lt (by omega)] at hea
    exact hea

theorem mem_addRowAccesses {C F m : Nat} {rows previous_grid : Table} {e : Access}
    (hm : m + C < 2 ^ 32) (he : e ∈ addRowAccesses C F rows previous_grid m) :
    ∃ s p j, s ≤ 2 ^ C - 1 ∧ p ≤ 2 ^ C - 1 ∧ p &&& s = 0 ∧ j ≤ m ∧
      (e = Access.readPrevious p j ∨
        ∃ a, a ≤ C ∧ j + a ≤ F ∧
          (e = Access.readRows s a ∨ e = Access.accumulate s (j + a))) := by
  unfold addRowAccesses at he
  rw [List.mem_flatMap] at he
  obtain ⟨s, hs, he⟩ := he
  rw [List.mem_flatMap] at he
  obtain ⟨p, hp, he⟩ := he
  unfold prevFenceAccesses at he
  rw [List.mem_flatMap] at he
  obtain ⟨j, hj, he⟩ := he
  unfold upTo at hs hj
  rw [List.mem_range] at hs hj
  unfold disjointSignatures at hp
  rw [List.mem_filter, List.mem_range] at hp
  have hpand : p &&& s = 0 := by simpa using hp.2
  refine ⟨s, p, j, by omega, by omega, hpand, by omega, ?_⟩
  rw [List.mem_cons] at he
  rcases he with he | he
  · exact Or.inl he
  · right
    by_cases hprev : previous_grid p j = 0
    · simp [hprev] at he
    · simp only [hprev, ne_eq, not_false_eq_true, if_true] at he
      exact mem_addedAccesses (by omega) he

theorem readPrevious_mem_addRowAccesses {C F m : Nat} (rows previous_grid : Table) {p j : Nat}
    (hp : p < 2 ^ C) (hj : j ≤ m) :
    Access.readPrevious p j ∈ addRowAccesses C F rows previous_grid m := by
  have hpos : 0 < 2 ^ C := Nat.two_pow_pos C
  unfold addRowAccesses
  rw [List.mem_flatMap]
  refine ⟨0, by unfold upTo; rw [List.mem_range]; omega, ?_⟩
  rw [List.mem_flatMap]
  refine ⟨p, by unfold disjointSignatures; rw [List.mem_filter, List.mem_range]; simp [hp], ?_⟩
  unfold prevFenceAccesses
  rw [List.mem_flatMap]
  exact ⟨j, by unfold upTo; rw [List.mem_range]; omega, List.mem_cons_self _ _⟩

/-- C17, as the code has it: with 8 columns and at most 20 fences, the call of
`addRow` for row 3 returns and reads `previous_grid [0][21]`, past the declared
`FENCE_DIMENSION = 21` of the table: the loop over `prev_fence_count` runs to
`3 * 8 = 24`. -/
theorem C17_read_past_fence_dimension (fuel : Nat) (rows previous current : Table)
    (hfuel : 2 ^ 8 < fuel) :
    ∃ t accesses, addRowTraced 8 20 fuel rows previous current 3 = some (t, accesses) ∧
      addRow 8 20 fuel rows previous current 3 = some t ∧
      Access.readPrevious 0 21 ∈ accesses ∧ ¬ (21 < FENCE_DIMENSION 20) := by
  obtain ⟨t, h1, h2⟩ := addRowTraced_eq (F := 20) rows previous current 3 (by decide) hfuel
  refine ⟨t, _, h2, h1, ?_, by decide⟩
  exact readPrevious_mem_addRowAccesses rows previous (by decide) (by decide)

/-- An instance of C17 as the code has it: bound 257 on the loop iterations. -/
theorem C17_read_past_fence_dimension_witness :
    2 ^ 8 < 257 ∧
    ∃ t accesses, addRowTraced 8 20 257 zeroTable seedGrid zeroTable 3 = some (t, accesses) ∧
      addRow 8 20 257 zeroTable seedGrid zeroTable 3 = some t ∧
      Access.readPrevious 0 21 ∈ accesses ∧ ¬ (21 < FENCE_DIMENSION 20) :=
  ⟨by decide, C17_read_past_fence_dimension 257 zeroTable seedGrid zeroTable (by decide)⟩

/-- C18 (The fence ceiling is respected on writes): for every previous table,
Row table and row index, `addRow` returns, every cell `current_grid [s][k]` it
accumulates into has `s ≤ 2 ^ C - 1` and `k = prevFence + addedFence ≤ F` with
`prevFence ≤ n * C` and `addedFence ≤ C`, and every read `rows [s][addedFence]`
has `s ≤ 2 ^ C - 1` and `addedFence ≤ min C F`. -/
theorem C18_writes_respect_fence_ceiling (C F fuel n : Nat) (rows previous current : Table)
    (hC : C < 32) (hfuel : 2 ^ C < fuel) (hn : n * C + C < 2 ^ 32) :
    ∃ t accesses, addRowTraced C F fuel rows previous current n = some (t, accesses) ∧
      addRow C F fuel rows previous current n = some t ∧
      (∀ s k, Access.accumulate s k ∈ accesses →
        s ≤ 2 ^ C - 1 ∧ k ≤ F ∧ ∃ j a, j ≤ n * C ∧ a ≤ C ∧ k = j + a) ∧
      (∀ s a, Access.readRows s a ∈ accesses → s ≤ 2 ^ C - 1 ∧ a ≤ min C F) := by
  obtain ⟨t, h1, h2⟩ := addRowTraced_eq (F := F) rows previous current n hC hfuel
  rw [u32_of_lt (by omega)] at h2
  refine ⟨t, _, h2, h1, ?_, ?_⟩
  · intro s k he
    obtain ⟨s', p, j, hs, _, _, hj, hcase⟩ := mem_addRowAccesses hn he
    rcases hcase with h | ⟨a, ha, hja, h | h⟩
    · exact absurd h (by simp)
    · exact absurd h (by simp)
    · simp only [Access.accumulate.injEq] at h
      obtain ⟨rfl, rfl⟩ := h
      exact ⟨hs, hja, j, a, hj, ha, rfl⟩
  · intro s a he
    obtain ⟨s', p, j, hs, _, _, hj, hcase⟩ := mem_addRowAccesses hn he
    rcases hcase with h | ⟨a', ha, hja, h | h⟩
    · exact absurd h (by simp)
    · simp only [Access.readRows.injEq] at h
      obtain ⟨rfl, rfl⟩ := h
      exact ⟨hs, le_min ha (by omega)⟩
    · exact absurd h (by simp)

/-- An instance of C18: one column, the first row added to the seed. -/
theorem C18_writes_respect_fence_ceiling_witness :
    (1 < 32 ∧ 2 ^ 1 < 3 ∧ 0 * 1 + 1 < 2 ^ 32) ∧
    ∃ t accesses, addRowTraced 1 1 3 (fun _ _ => 1) seedGrid zeroTable 0 = some (t, accesses) ∧
      addRow 1 1 3 (fun _ _ => 1) seedGrid zeroTable 0 = some t ∧
      (∀ s k, Access.accumulate s k ∈ accesses →
        s ≤ 2 ^ 1 - 1 ∧ k ≤ 1 ∧ ∃ j a, j ≤ 0 * 1 ∧ a ≤ 1 ∧ k = j + a) ∧
      (∀ s a, Access.readRows s a ∈ accesses → s ≤ 2 ^ 1 - 1 ∧ a ≤ min 1 1) :=
  ⟨by decide, C18_writes_respect_fence_ceiling 1 1 3 0 (fun _ _ => 1) seedGrid zeroTable
    (by decide) (by decide) (by decide)⟩

/-- The accesses of the first row with one column, a Row table of ones and the
seed as previous table. -/
theorem addRowTraced_sample :
    (addRowTraced 1 1 3 (fun _ _ => 1) seedGrid zeroTable 0).map Prod.snd =
      some [Access.readPrevious 0 0, Access.readRows 0 0, Access.accumulate 0 0,
        Access.readRows 0 1, Access.accumulate 0 1, Access.readPrevious 1 0,
        Access.readPrevious 0 0, Access.readRows 1 0, Access.accumulate 1 0,
        Access.readRows 1 1, Access.accumulate 1 1] := by
  decide

/-! ## What the final table counts -/

theorem appendRow_castSucc {n C : Nat} (A : Fin n → Fin C → Cell) (f : Fin C → Cell)
    (r : Fin n) : appendRow A f r.castSucc = A r := by
  unfold appendRow
  rw [dif_pos (by simp)]
  rfl

theorem appendRow_last {n C : Nat} (A : Fin n → Fin C → Cell) (f : Fin C → Cell) :
    appendRow A f (Fin.last n) = f := by
  unfold appendRow
  rw [dif_neg (by simp)]

theorem initRows_appendRow {n C : Nat} (A : Fin n → Fin C → Cell) (f : Fin C → Cell) :
    initRows (appendRow A f) = A := by
  funext r
  exact appendRow_castSucc A f r

theorem appendRow_initRows {n C : Nat} (A : Fin (n + 1) → Fin C → Cell) :
    appendRow (initRows A) (A (Fin.last n)) = A := by
  funext r
  rcases Fin.eq_castSucc_or_eq_last r with ⟨j, rfl⟩ | rfl
  · rw [appendRow_castSucc]
    rfl
  · rw [appendRow_last]

theorem verticalBits_eq_iff {C s : Nat} (hs : s < 2 ^ C) (g : Fin C → Cell) :
    verticalBits C 0 g = s ↔ ∀ i : Fin C, g i = Cell.vertical ↔ s.testBit i.val = true := by
  constructor
  · intro h i
    rw [← h, testBit_verticalBits]
    constructor
    · intro hv
      exact ⟨i, by omega, hv⟩
    · rintro ⟨i', h1, h2⟩
      have : i' = i := Fin.ext (by omega)
      rw [← this]
      exact h2
  · intro h
    apply Nat.eq_of_testBit_eq
    intro b
    rw [Bool.eq_iff_iff, testBit_verticalBits]
    constructor
    · rintro ⟨i, h1, h2⟩
      rw [← h1, Nat.zero_add]
      exact (h i).1 h2
    · intro hb
      have hbC : b < C := by
        by_contra hcon
        rw [Nat.testBit_lt_two_pow
          (lt_of_lt_of_le hs (Nat.pow_le_pow_right (by decide) (by omega)))] at hb
        exact Bool.false_ne_true hb
      exact ⟨⟨b, hbC⟩, by simp, (h ⟨b, hbC⟩).2 hb⟩

theorem verticalBits_and_eq_zero (C : Nat) (f g : Fin C → Cell) :
    verticalBits C 0 f &&& verticalBits C 0 g = 0 ↔
      ∀ i, ¬ (f i = Cell.vertical ∧ g i = Cell.vertical) := by
  rw [and_eq_zero_iff_testBit]
  constructor
  · rintro h i ⟨hf, hg⟩
    have h1 := h i.val ((testBit_verticalBits C 0 f i.val).2 ⟨i, by omega, hf⟩)
    have h2 := (testBit_verticalBits C 0 g i.val).2 ⟨i, by omega, hg⟩
    rw [h1] at h2
    exact Bool.false_ne_true h2
  · intro h b hb
    rw [testBit_verticalBits] at hb
    obtain ⟨i, hi, hfi⟩ := hb
    by_contra hcon
    have hg : (verticalBits C 0 g).testBit b = true := by simpa using hcon
    rw [testBit_verticalBits] at hg
    obtain ⟨i', hi', hgi⟩ := hg
    have : i' = i := Fin.ext (by omega)
    subst this
    exact h i' ⟨hfi, hgi⟩

theorem gridFences_appendRow {n C : Nat} (A : Fin n → Fin C → Cell) (f : Fin C → Cell) :
    gridFences (appendRow A f) =
      gridFences A + (Finset.univ.filter (fun i => f i ≠ Cell.empty)).card := by
  unfold gridFences
  simp only [Finset.card_filter]
  rw [Fintype.sum_prod_type, Fin.sum_univ_castSucc, Fintype.sum_prod_type]
  simp only [appendRow_castSucc, appendRow_last]

theorem lastSignature_lt (C n : Nat) (A : Fin n → Fin C → Cell) : lastSignature C n A < 2 ^ C := by
  cases n with
  | zero => exact Nat.two_pow_pos C
  | succ m =>
    have := verticalBits_lt C 0 (A (Fin.last m))
    rw [Nat.zero_add] at this
    exact this

theorem gridFences_le {n C : Nat} (A : Fin n → Fin C → Cell) : gridFences A ≤ n * C := by
  unfold gridFences
  calc (Finset.univ.filter (fun c : Fin n × Fin C => A c.1 c.2 ≠ Cell.empty)).card
      ≤ (Finset.univ : Finset (Fin n × Fin C)).card := Finset.card_filter_le _ _
    _ = n * C := by rw [Finset.card_univ, Fintype.card_prod, Fintype.card_fin, Fintype.card_fin]

theorem isGridLegal_appendRow {C n : Nat} (A : Fin n → Fin C → Cell) (f : Fin C → Cell) :
    IsGridLegal C (n + 1) (appendRow A f) ↔
      IsGridLegal C n A ∧
      (∀ i j : Fin C, j.val = i.val + 1 → ¬ (f i = Cell.horizontal ∧ f j = Cell.horizontal)) ∧
      lastSignature C n A &&& verticalBits C 0 f = 0 := by
  unfold IsGridLegal
  constructor
  · rintro ⟨h1, h2⟩
    refine ⟨⟨?_, ?_⟩, ?_, ?_⟩
    · intro r i j hij
      have := h1 r.castSucc i j hij
      rw [appendRow_castSucc] at this
      exact this
    · intro r r' i hr
      have := h2 r.castSucc r'.castSucc i (by simpa using hr)
      rw [appendRow_castSucc, appendRow_castSucc] at this
      exact this
    · intro i j hij
      have := h1 (Fin.last n) i j hij
      rw [appendRow_last] at this
      exact this
    · cases n with
      | zero => exact Nat.zero_and _
      | succ m =>
        show verticalBits C 0 (A (Fin.last m)) &&& verticalBits C 0 f = 0
        rw [verticalBits_and_eq_zero]
        intro i
        have := h2 (Fin.last m).castSucc (Fin.last (m + 1)) i (by simp)
        rw [appendRow_castSucc, appendRow_last] at this
        exact this
  · rintro ⟨⟨h1, h2⟩, h3, h4⟩
    refine ⟨?_, ?_⟩
    · intro r i j hij
      rcases Fin.eq_castSucc_or_eq_last r with ⟨r0, rfl⟩ | rfl
      · rw [appendRow_castSucc]
        exact h1 r0 i j hij
      · rw [appendRow_last]
        exact h3 i j hij
    · intro r r' i hr
      rcases Fin.eq_castSucc_or_eq_last r with ⟨r0, rfl⟩ | rfl
      · rcases Fin.eq_castSucc_or_eq_last r' with ⟨r1, rfl⟩ | rfl
        · rw [appendRow_castSucc, appendRow_castSucc]
          exact h2 r0 r1 i (by simpa using hr)
        · rw [appendRow_castSucc, appendRow_last]
          cases n with
          | zero => exact r0.elim0
          | succ m =>
            have hr0 : r0 = Fin.last m := by
              apply Fin.ext
              simp only [Fin.val_last, Fin.coe_castSucc] at hr ⊢
              omega
            subst hr0
            exact (verticalBits_and_eq_zero C _ _).1 h4 i
      · exfalso
        have := r'.isLt
        simp only [Fin.val_last] at hr
        omega

theorem isGridPrefix_appendRow {C n : Nat} (s k : Nat) (A : Fin n → Fin C → Cell)
    (f : Fin C → Cell) :
    IsGridPrefix C (n + 1) s k (appendRow A f) ↔
      IsGridLegal C n A ∧
      (∀ i j : Fin C, j.val = i.val + 1 → ¬ (f i = Cell.horizontal ∧ f j = Cell.horizontal)) ∧
      lastSignature C n A &&& verticalBits C 0 f = 0 ∧
      verticalBits C 0 f = s ∧
      gridFences A + (Finset.univ.filter (fun i => f i ≠ Cell.empty)).card = k := by
  unfold IsGridPrefix
  rw [isGridLegal_appendRow, gridFences_appendRow]
  have : lastSignature C (n + 1) (appendRow A f) = verticalBits C 0 f := by
    show verticalBits C 0 (appendRow A f (Fin.last n)) = verticalBits C 0 f
    rw [appendRow_last]
  rw [this]
  tauto

/-- The arrays of `n + 1` rows, sorted by the last signature and the fences of
their first `n` rows and the fences of their last row. -/
theorem gridPrefixes_succ {C s : Nat} (hs : s < 2 ^ C) (n k : Nat) :
    gridPrefixes C (n + 1) s k = convolution C n (gridPrefixes C n) (rowWays C) s k := by
  unfold convolution
  have hmaps : ∀ A ∈ Finset.univ.filter (IsGridPrefix C (n + 1) s k),
      (fun A : Fin (n + 1) → Fin C → Cell =>
        (lastSignature C n (initRows A), gridFences (initRows A),
          (Finset.univ.filter (fun i => A (Fin.last n) i ≠ Cell.empty)).card)) A ∈
      ((Finset.range (2 ^ C) ×ˢ Finset.range (n * C + 1) ×ˢ Finset.range (C + 1)).filter
        (fun t : Nat × Nat × Nat => t.1 &&& s = 0 ∧ t.2.1 + t.2.2 = k)) := by
    intro A hA
    rw [Finset.mem_filter] at hA
    have hA2 := hA.2
    rw [← appendRow_initRows A, isGridPrefix_appendRow] at hA2
    obtain ⟨_, _, h3, h4, h5⟩ := hA2
    rw [h4] at h3
    simp only [Finset.mem_filter, Finset.mem_product, Finset.mem_range]
    exact ⟨⟨lastSignature_lt C n _, Nat.lt_succ_of_le (gridFences_le _),
      Nat.lt_succ_of_le (card_nonempty_le _)⟩, h3, h5⟩
  unfold gridPrefixes
  rw [Finset.card_eq_sum_card_fiberwise hmaps]
  apply Finset.sum_congr rfl
  intro t ht
  simp only [Finset.mem_filter, Finset.mem_product, Finset.mem_range] at ht
  obtain ⟨_, ht1, ht2⟩ := ht
  unfold rowWays
  rw [← Finset.card_product]
  apply Finset.card_bij' (fun A _ => (initRows A, A (Fin.last n)))
    (fun c _ => appendRow c.1 c.2)
  · intro A hA
    simp only [Finset.mem_filter, Finset.mem_univ, true_and] at hA
    obtain ⟨hA1, hA2⟩ := hA
    rw [← appendRow_initRows A, isGridPrefix_appendRow] at hA1
    obtain ⟨g1, g2, g3, g4, g5⟩ := hA1
    simp only [Finset.mem_product, Finset.mem_filter, Finset.mem_univ, true_and]
    have e1 : lastSignature C n (initRows A) = t.1 := congrArg Prod.fst hA2
    have e2 : gridFences (initRows A) = t.2.1 := congrArg (fun x => x.2.1) hA2
    have e3 : (Finset.univ.filter (fun i => A (Fin.last n) i ≠ Cell.empty)).card = t.2.2 :=
      congrArg (fun x => x.2.2) hA2
    exact ⟨⟨g1, e1, e2⟩, g2, (verticalBits_eq_iff hs _).1 g4, e3⟩
  · intro c hc
    simp only [Finset.mem_product, Finset.mem_filter, Finset.mem_univ, true_and] at hc
    obtain ⟨⟨g1, e1, e2⟩, g2, g4, e3⟩ := hc
    have g4' := (verticalBits_eq_iff hs _).2 g4
    simp only [Finset.mem_filter, Finset.mem_univ, true_and]
    refine ⟨?_, ?_⟩
    · rw [isGridPrefix_appendRow]
      refine ⟨g1, g2, ?_, g4', ?_⟩
      · rw [e1, g4']
        exact ht1
      · rw [e2, e3]
        exact ht2
    · rw [initRows_appendRow, appendRow_last, e1, e2, e3]
  · intro A _
    exact appendRow_initRows A
  · intro c _
    rw [initRows_appendRow, appendRow_last]

theorem gridPrefixes_zero (C s k : Nat) :
    gridPrefixes C 0 s k = if s = 0 ∧ k = 0 then 1 else 0 := by
  unfold gridPrefixes
  rw [Finset.card_filter, Fintype.sum_unique]
  have h0 : gridFences (default : Fin 0 → Fin C → Cell) = 0 := by
    unfold gridFences
    rw [Finset.card_eq_zero, Finset.filter_eq_empty_iff]
    intro c
    exact c.1.elim0
  have hiff : IsGridPrefix C 0 s k default ↔ (s = 0 ∧ k = 0) := by
    unfold IsGridPrefix IsGridLegal
    rw [h0]
    constructor
    · rintro ⟨_, h1, h2⟩
      exact ⟨h1.symm, h2.symm⟩
    · intro h
      exact ⟨⟨fun r => r.elim0, fun r => r.elim0⟩, h.1.symm, h.2.symm⟩
  by_cases h : s = 0 ∧ k = 0
  · rw [if_pos h, if_pos (hiff.2 h)]
  · rw [if_neg h, if_neg (fun hp => h (hiff.1 hp))]

theorem gridWays_eq_gridPrefixes {C s : Nat} (hs : s < 2 ^ C) (n k : Nat) :
    gridWays C (n + 1) s k = gridPrefixes C (n + 1) s k := by
  unfold gridWays gridPrefixes
  congr 1
  apply Finset.filter_congr
  intro A _
  unfold IsGridWay IsGridPrefix IsGridLegal gridFences
  have hlast : (∀ r : Fin (n + 1), r.val + 1 = n + 1 →
        ∀ i : Fin C, A r i = Cell.vertical ↔ s.testBit i.val = true) ↔
      lastSignature C (n + 1) A = s := by
    show _ ↔ verticalBits C 0 (A (Fin.last n)) = s
    rw [verticalBits_eq_iff hs]
    constructor
    · intro h
      exact h (Fin.last n) (by simp)
    · intro h r hr
      have : r = Fin.last n := Fin.ext (by simp only [Fin.val_last]; omega)
      rw [this]
      exact h
  rw [hlast]
  tauto

/-- The tables of the reference sequence count the arrays. -/
theorem gridAfter_eq_gridPrefixes {C F fuel : Nat} (hC : C < 32) (hfuel : 2 ^ C < fuel)
    (rows : Table) (hrows : ∀ s, s < 2 ^ C → ∀ a, a ≤ F → rows s a = rowWays C s a) :
    ∀ n, n * C < 2 ^ 32 → ∃ T, gridAfter C F fuel rows n = some T ∧
      ∀ s, s < 2 ^ C → ∀ k, k ≤ F → T s k = gridPrefixes C n s k := by
  intro n
  induction n with
  | zero =>
    intro _
    refine ⟨seedGrid, rfl, ?_⟩
    intro s _ k _
    rw [seedGrid_apply, gridPrefixes_zero]
  | succ n ih =>
    intro hn
    have hn' : n * C + C < 2 ^ 32 := by rw [Nat.succ_mul] at hn; exact hn
    obtain ⟨T, hT, hval⟩ := ih (by omega)
    obtain ⟨T', hT', hval'⟩ := gridAfter_succ (F := F) hC hfuel rows hn' hT
    refine ⟨T', hT', ?_⟩
    intro s hs k hk
    rw [hval' s k, if_pos ⟨hs, hk⟩, gridPrefixes_succ hs, ← rowSum_eq_convolution]
    apply rowSum_congr
    · intro p hp j hj _
      exact hval p hp j (by omega)
    · intro a ha
      exact hrows s hs a (by omega)

/-- C14 (What the final table counts): for `R ≥ 1` and `C ≤ F`, `quoridorCalc`
returns and, for every signature `s ≤ 2 ^ C - 1` and every `k ≤ F`, the cell
`final[s][k]` of its final table is the number of `R`-by-`C` arrays over
empty, vertical, horizontal in which no two horizontally adjacent cells of a
row are both horizontal, no column holds a vertical fence in two consecutive
rows, the vertical cells of the last row are the bits set in `s`, and `k`
cells are not empty. -/
theorem C14_final_table_counts (C R F fuel : Nat) (hC : C < 32) (_hCF : C ≤ F)
    (hF : F + 1 < 2 ^ 32) (hRC : R * C < 2 ^ 32) (hfuel : 2 ^ C < fuel) (hR : 1 ≤ R) :
    ∃ g, quoridorCalc C R F fuel initialGlobals =
        some (g, outputResults C F (finalGrid R g)) ∧
      ∀ s, s < 2 ^ C → ∀ k, k ≤ F → finalGrid R g s k = gridWays C R s k := by
  have hzero : ∀ p, p < 2 ^ C → p ≠ 0 →
      initialGlobals.grid_a p 0 = 0 ∧ initialGlobals.grid_b p 0 = 0 :=
    fun _ _ _ => ⟨rfl, rfl⟩
  obtain ⟨rows, _, hrowsval⟩ :=
    enumerator_run hC hF (lt_trans (two_pow_gt C) hfuel) initialGlobals.rows
  obtain ⟨_, g, T, _, _, _, hcalc, _, hT, hagree, _⟩ :=
    quoridorCalc_run hC hF hfuel hRC rows hrowsval initialGlobals hzero
  obtain ⟨T', hT', hval⟩ := gridAfter_eq_gridPrefixes (F := F) hC hfuel rows hrowsval R hRC
  have hTT : T' = T := Option.some.inj (hT'.symm.trans hT)
  subst hTT
  refine ⟨g, hcalc, ?_⟩
  intro s hs k hk
  obtain ⟨n, rfl⟩ : ∃ n, R = n + 1 := ⟨R - 1, by omega⟩
  rw [hagree s hs k hk (Or.inr (Nat.succ_pos n)), hval s hs k hk, gridWays_eq_gridPrefixes hs]

/-- An instance of C14: one column, two rows, at most two fences. -/
theorem C14_final_table_counts_witness :
    (1 < 32 ∧ 1 ≤ 2 ∧ 2 + 1 < 2 ^ 32 ∧ 2 * 1 < 2 ^ 32 ∧ 2 ^ 1 < 3 ∧ 1 ≤ 2) ∧
    ∃ g, quoridorCalc 1 2 2 3 initialGlobals =
        some (g, outputResults 1 2 (finalGrid 2 g)) ∧
      ∀ s, s < 2 ^ 1 → ∀ k, k ≤ 2 → finalGrid 2 g s k = gridWays 1 2 s k :=
  ⟨by decide, C14_final_table_counts 1 2 2 3 (by decide) (by decide) (by decide) (by decide)
    (by decide) (by decide)⟩

/-- The arrays of two rows and one column: with last signature 0 there are 1,
3, 2 of them with 0, 1, 2 fences, with last signature 1 there are 0, 1, 1. -/
theorem gridWays_sample :
    (gridWays 1 2 0 0, gridWays 1 2 0 1, gridWays 1 2 0 2) = (1, 3, 2) ∧
    (gridWays 1 2 1 0, gridWays 1 2 1 1, gridWays 1 2 1 2) = (0, 1, 1) := by
  decide

/-! ## The Row table in base `x` -/

theorem sum_cells_cons (m : Nat) (w : (Fin (m + 1) → Cell) → Nat) :
    ∑ g, w g =
      ∑ g : Fin m → Cell, w (Fin.cons Cell.empty g) +
      ∑ g : Fin m → Cell, w (Fin.cons Cell.vertical g) +
      ∑ g : Fin m → Cell, w (Fin.cons Cell.horizontal g) := by
  rw [← Equiv.sum_comp (Fin.consEquiv (fun _ => Cell)) w, Fintype.sum_prod_type]
  have huniv : (Finset.univ : Finset Cell) = {Cell.empty, Cell.vertical, Cell.horizontal} := by
    decide
  rw [huniv]
  simp only [Finset.sum_insert, Finset.mem_insert, Finset.mem_singleton, Finset.sum_singleton,
    reduceCtorEq, or_self, not_false_eq_true, Fin.consEquiv, Equiv.coe_fn_mk]
  omega

theorem suffix_cond_cons (s m cf : Nat) (lh : Bool) (c : Cell) (g : Fin m → Cell) :
    (IsLegalSuffix (m + 1) lh (Fin.cons c g) ∧
      ∀ i : Fin (m + 1), ((Fin.cons c g : Fin (m + 1) → Cell) i = Cell.vertical ↔
        s.testBit (cf + i.val) = true)) ↔
    (¬ (lh = true ∧ c = Cell.horizontal) ∧ (c = Cell.vertical ↔ s.testBit cf = true)) ∧
      (IsLegalSuffix m (decide (c = Cell.horizontal)) g ∧
        ∀ i : Fin m, (g i = Cell.vertical ↔ s.testBit (cf + 1 + i.val) = true)) := by
  rw [isLegalSuffix_cons, Fin.forall_fin_succ]
  simp only [Fin.cons_zero, Fin.cons_succ, Fin.val_zero, Fin.val_succ, Nat.add_zero]
  have h : ∀ i : Fin m, cf + (i.val + 1) = cf + 1 + i.val := fun i => by omega
  simp only [h]
  tauto

theorem suffixWeight_zero (x s cf : Nat) (lh : Bool) : suffixWeight x s 0 cf lh = 1 := by
  unfold suffixWeight
  rw [Fintype.sum_unique, if_pos]
  · simp
  · exact ⟨⟨fun j => j.elim0, fun i => i.elim0⟩, fun i => i.elim0⟩

theorem suffixWeight_succ (x s m cf : Nat) (lh : Bool) :
    suffixWeight x s (m + 1) cf lh =
      if s.testBit cf = true then x * suffixWeight x s m (cf + 1) false
      else suffixWeight x s m (cf + 1) false +
        (if lh = true then 0 else x * suffixWeight x s m (cf + 1) true) := by
  unfold suffixWeight
  rw [sum_cells_cons]
  simp only [suffix_cond_cons, card_nonempty_cons]
  cases h : s.testBit cf <;> cases lh <;>
    simp [pow_add, Finset.mul_sum]

theorem rowPack_eq_suffixWeight (x s : Nat) :
    ∀ (m cf : Nat) (lh : Bool), rowPack x s m cf lh = suffixWeight x s m cf lh := by
  intro m
  induction m with
  | zero =>
    intro cf lh
    rw [suffixWeight_zero]
    rfl
  | succ m ih =>
    intro cf lh
    rw [suffixWeight_succ, ← ih, ← ih]
    rfl

/-- The packed row of signature `s` has the cells of the Row table as its
digits. -/
theorem rowPack_eq (x C s : Nat) :
    rowPack x s C 0 false = ∑ a in Finset.range (C + 1), rowWays C s a * x ^ a := by
  have hways : ∀ a, rowWays C s a = ∑ g : Fin C → Cell, if IsRowWay C s a g then 1 else 0 := by
    intro a
    unfold rowWays
    rw [Finset.card_filter]
  rw [rowPack_eq_suffixWeight]
  unfold suffixWeight
  simp only [hways, Finset.sum_mul]
  rw [Finset.sum_comm]
  apply Finset.sum_congr rfl
  intro g _
  have hle := card_nonempty_le g
  by_cases h : IsLegalSuffix C false g ∧
      ∀ i : Fin C, (g i = Cell.vertical ↔ s.testBit (0 + i.val) = true)
  · have hway : IsRowWay C s (Finset.univ.filter (fun i => g i ≠ Cell.empty)).card g := by
      refine ⟨h.1.2, ?_, rfl⟩
      intro i
      have := h.2 i
      rw [Nat.zero_add] at this
      exact this
    rw [if_pos h, Finset.sum_eq_single (Finset.univ.filter (fun i => g i ≠ Cell.empty)).card]
    · rw [if_pos hway, Nat.one_mul]
    · intro a _ ha
      rw [if_neg (fun hw : IsRowWay C s a g => ha hw.2.2.symm), Nat.zero_mul]
    · intro hmem
      exact absurd (Finset.mem_range.mpr (Nat.lt_succ_of_le hle)) hmem
  · rw [if_neg h]
    symm
    apply Finset.sum_eq_zero
    intro a _
    have hno : ¬ IsRowWay C s a g := by
      intro hw
      apply h
      refine ⟨⟨fun _ _ hl => absurd hl Bool.false_ne_true, hw.1⟩, ?_⟩
      intro i
      rw [Nat.zero_add]
      exact hw.2.1 i
    rw [if_neg hno, Nat.zero_mul]

/-! ## Sums over the disjoint signatures -/

theorem getD_zipWith_add (D0 D1 : List Nat) (s : Nat) (h0 : s < D0.length) (h1 : s < D1.length) :
    (List.zipWith (fun a b => a + b) D0 D1).getD s 0 = D0.getD s 0 + D1.getD s 0 := by
  have hz : s < (List.zipWith (fun a b => a + b) D0 D1).length := by
    rw [List.length_zipWith]
    exact lt_min h0 h1
  rw [List.getD_eq_getElem _ _ hz, List.getD_eq_getElem _ _ h0, List.getD_eq_getElem _ _ h1,
    List.getElem_zipWith]

theorem getD_take_of_lt (L : List Nat) {n s : Nat} (h : s < n) :
    (L.take n).getD s 0 = L.getD s 0 := by
  rw [List.getD_eq_getElem?_getD, List.getD_eq_getElem?_getD, List.getElem?_take_of_lt h]

theorem getD_drop_add (L : List Nat) (n q : Nat) :
    (L.drop n).getD q 0 = L.getD (n + q) 0 := by
  rw [List.getD_eq_getElem?_getD, List.getD_eq_getElem?_getD, List.getElem?_drop]

theorem sum_disjoint_succ (i s : Nat) (f : Nat → Nat) :
    ∑ p in (Finset.range (2 ^ (i + 1))).filter (fun p => p &&& s = 0), f p =
      ∑ p in (Finset.range (2 ^ i)).filter (fun p => p &&& s = 0), f p +
        if s.testBit i = true then 0
        else ∑ p in (Finset.range (2 ^ i)).filter (fun p => p &&& s = 0), f (2 ^ i + p) := by
  rw [Finset.sum_filter, Finset.sum_filter, Finset.sum_filter, Nat.pow_succ, Nat.mul_two,
    Finset.sum_range_add]
  congr 1
  by_cases hb : s.testBit i = true
  · rw [if_pos hb]
    apply Finset.sum_eq_zero
    intro p hp
    rw [Finset.mem_range] at hp
    rw [if_neg]
    intro h
    have := ((two_pow_add_and_eq_zero hp s).1 h).1
    rw [hb] at this
    exact Bool.noConfusion this
  · rw [if_neg hb]
    apply Finset.sum_congr rfl
    intro p hp
    rw [Finset.mem_range] at hp
    have hb' : s.testBit i = false := by simpa using hb
    by_cases h : p &&& s = 0
    · rw [if_pos h, if_pos ((two_pow_add_and_eq_zero hp s).2 ⟨hb', h⟩)]
    · rw [if_neg h, if_neg (fun h2 => h ((two_pow_add_and_eq_zero hp s).1 h2).2)]

theorem and_two_pow_add {i p s : Nat} (hp : p < 2 ^ i) (hs : s < 2 ^ i) :
    p &&& (2 ^ i + s) = 0 ↔ p &&& s = 0 := by
  rw [Nat.and_comm, two_pow_add_and_eq_zero hs, Nat.and_comm]
  have : p.testBit i = false := Nat.testBit_lt_two_pow hp
  constructor
  · intro h
    exact h.2
  · intro h
    exact ⟨this, h⟩

/-- The entries of `disjointSums`. -/
theorem disjointSums_spec :
    ∀ (i : Nat) (L : List Nat), L.length = 2 ^ i →
      (disjointSums i L).length = 2 ^ i ∧
      ∀ s, s < 2 ^ i → (disjointSums i L).getD s 0 =
        ∑ p in (Finset.range (2 ^ i)).filter (fun p => p &&& s = 0), L.getD p 0 := by
  intro i
  induction i with
  | zero =>
    intro L hL
    refine ⟨hL, ?_⟩
    intro s hs
    have hs0 : s = 0 := by omega
    subst hs0
    show L.getD 0 0 = _
    simp
  | succ i ih =>
    intro L hL
    have hpow : 2 ^ (i + 1) = 2 ^ i + 2 ^ i := by rw [Nat.pow_succ, Nat.mul_two]
    have hL0 : (L.take (2 ^ i)).length = 2 ^ i := by
      rw [List.length_take, hL, hpow]
      omega
    have hL1 : (L.drop (2 ^ i)).length = 2 ^ i := by
      rw [List.length_drop, hL, hpow]
      omega
    obtain ⟨len0, val0⟩ := ih _ hL0
    obtain ⟨len1, val1⟩ := ih _ hL1
    have hdef : disjointSums (i + 1) L =
        List.zipWith (fun a b => a + b) (disjointSums i (L.take (2 ^ i)))
          (disjointSums i (L.drop (2 ^ i))) ++ disjointSums i (L.take (2 ^ i)) := rfl
    have hzlen : (List.zipWith (fun a b => a + b) (disjointSums i (L.take (2 ^ i)))
          (disjointSums i (L.drop (2 ^ i)))).length = 2 ^ i := by
      rw [List.length_zipWith, len0, len1, min_self]
    rw [hdef]
    refine ⟨?_, ?_⟩
    · rw [List.length_append, hzlen, len0, hpow]
    · intro s hs
      rw [sum_disjoint_succ]
      by_cases hlt : s < 2 ^ i
      · rw [List.getD_append _ _ _ _ (by rw [hzlen]; exact hlt),
          getD_zipWith_add _ _ _ (by rw [len0]; exact hlt) (by rw [len1]; exact hlt),
          val0 s hlt, val1 s hlt, if_neg (by rw [Nat.testBit_lt_two_pow hlt]; exact Bool.false_ne_true)]
        congr 1
        · apply Finset.sum_congr rfl
          intro p hp
          rw [Finset.mem_filter, Finset.mem_range] at hp
          exact getD_take_of_lt L hp.1
        · apply Finset.sum_congr rfl
          intro p _
          exact getD_drop_add L _ _
      · obtain ⟨s', rfl⟩ : ∃ s', s = 2 ^ i + s' := ⟨s - 2 ^ i, by omega⟩
        have hs' : s' < 2 ^ i := by omega
        have hbit : (2 ^ i + s').testBit i = true := by
          rw [Nat.testBit_two_pow_add_eq, Nat.testBit_lt_two_pow hs']
          rfl
        rw [List.getD_append_right _ _ _ _ (by rw [hzlen]; omega), hzlen, if_pos hbit,
          Nat.add_zero, Nat.add_sub_cancel_left, val0 s' hs']
        rw [Finset.sum_filter, Finset.sum_filter]
        apply Finset.sum_congr rfl
        intro p hp
        rw [Finset.mem_range] at hp
        rw [getD_take_of_lt L hp]
        by_cases h : p &&& s' = 0
        · rw [if_pos h, if_pos ((and_two_pow_add hp hs').2 h)]
        · rw [if_neg h, if_neg (fun h2 => h ((and_two_pow_add hp hs').1 h2))]

/-! ## Numbers in base `x` -/

theorem packCells_succ (x F : Nat) (c : Nat → Nat) :
    packCells x (F + 1) c = packCells x F c + c (F + 1) * x ^ (F + 1) := by
  unfold packCells
  rw [Finset.sum_range_succ]

theorem packCells_lt {x : Nat} (c : Nat → Nat) :
    ∀ F, (∀ k, k ≤ F → c k < x) → packCells x F c < x ^ (F + 1) := by
  intro F
  induction F with
  | zero =>
    intro h
    unfold packCells
    simpa using h 0 (Nat.le_refl 0)
  | succ F ih =>
    intro h
    rw [packCells_succ]
    have h1 := ih (fun k hk => h k (by omega))
    have h2 : c (F + 1) + 1 ≤ x := h (F + 1) (Nat.le_refl _)
    have h3 : (c (F + 1) + 1) * x ^ (F + 1) ≤ x * x ^ (F + 1) := Nat.mul_le_mul_right _ h2
    rw [Nat.add_mul, Nat.one_mul] at h3
    rw [Nat.pow_succ x (F + 1), Nat.mul_comm (x ^ (F + 1)) x]
    omega

/-- The digits of a packed number are the cells. -/
theorem packCells_digit {x : Nat} (c : Nat → Nat) :
    ∀ F, (∀ k, k ≤ F → c k < x) → ∀ k, k ≤ F → packCells x F c / x ^ k % x = c k := by
  intro F
  induction F with
  | zero =>
    intro h k hk
    have hk0 : k = 0 := by omega
    subst hk0
    unfold packCells
    simpa using Nat.mod_eq_of_lt (h 0 (Nat.le_refl 0))
  | succ F ih =>
    intro h k hk
    have hx : 0 < x := lt_of_le_of_lt (Nat.zero_le _) (h 0 (Nat.zero_le _))
    rw [packCells_succ]
    by_cases hkF : k = F + 1
    · subst hkF
      have hlt := packCells_lt c F (fun k hk => h k (by omega))
      rw [Nat.add_mul_div_right _ _ (pow_pos hx _), Nat.div_eq_of_lt hlt, Nat.zero_add]
      exact Nat.mod_eq_of_lt (h (F + 1) (Nat.le_refl _))
    · have hsplit : x ^ (F + 1) = x * x ^ (F - k) * x ^ k := by
        rw [← Nat.pow_succ', ← Nat.pow_add]
        congr 1
        omega
      rw [hsplit, ← Nat.mul_assoc, Nat.add_mul_div_right _ _ (pow_pos hx _),
        ← Nat.mul_assoc, Nat.mul_comm (c (F + 1)) x, Nat.mul_assoc, Nat.add_mul_mod_self_left]
      exact ih (fun k hk => h k (by omega)) k (by omega)

/-- The product of two numbers in base `x`, up to the digit `N`. -/
theorem mul_pack (x N A B : Nat) (u v : Nat → Nat) :
    ∃ M, (∑ a in Finset.range A, u a * x ^ a) * (∑ j in Finset.range B, v j * x ^ j) =
      ∑ k in Finset.range N,
        (∑ j in Finset.range B, ∑ a in Finset.range A, if j + a = k then v j * u a else 0) *
          x ^ k + x ^ N * M := by
  refine ⟨∑ j in Finset.range B, ∑ a in Finset.range A,
    if j + a < N then 0 else v j * u a * x ^ (j + a - N), ?_⟩
  have hterm : ∀ j a, u a * x ^ a * (v j * x ^ j) =
      (∑ k in Finset.range N, (if j + a = k then v j * u a else 0) * x ^ k) +
        x ^ N * (if j + a < N then 0 else v j * u a * x ^ (j + a - N)) := by
    intro j a
    by_cases h : j + a < N
    · rw [if_pos h, Nat.mul_zero, Nat.add_zero, Finset.sum_eq_single (j + a)]
      · rw [if_pos rfl, Nat.pow_add]
        ring
      · intro k _ hk
        rw [if_neg (fun h2 => hk h2.symm), Nat.zero_mul]
      · intro hmem
        exact absurd (Finset.mem_range.mpr h) hmem
    · rw [if_neg h, Finset.sum_eq_zero, Nat.zero_add]
      · have : x ^ a * x ^ j = x ^ N * x ^ (j + a - N) := by
          rw [← Nat.pow_add, ← Nat.pow_add]
          congr 1
          omega
        calc u a * x ^ a * (v j * x ^ j) = v j * u a * (x ^ a * x ^ j) := by ring
          _ = v j * u a * (x ^ N * x ^ (j + a - N)) := by rw [this]
          _ = x ^ N * (v j * u a * x ^ (j + a - N)) := by ring
      · intro k hk
        rw [Finset.mem_range] at hk
        rw [if_neg (fun h2 => h (by omega)), Nat.zero_mul]
  rw [Finset.sum_mul_sum, Finset.sum_comm]
  simp only [hterm, Finset.sum_add_distrib, ← Finset.mul_sum]
  congr 1
  refine (Finset.sum_congr rfl (fun j _ => Finset.sum_comm)).trans ?_
  rw [Finset.sum_comm]
  apply Finset.sum_congr rfl
  intro k _
  rw [Finset.sum_mul]
  apply Finset.sum_congr rfl
  intro j _
  rw [Finset.sum_mul]

/-! ## The packed tables -/

/-- One entry of `packedStep`: the packed row of the next table. -/
theorem packedStep_entry (x C F : Nat) (T : Table) (s : Nat) (c : Nat → Nat)
    (hc : ∀ k, k ≤ F → c k =
      ∑ p in (Finset.range (2 ^ C)).filter (fun p => p &&& s = 0),
        ∑ j in Finset.range (F + 1), contribution C (rowWays C) T s k p j)
    (hlt : ∀ k, k ≤ F → c k < x) :
    rowPack x s C 0 false *
        (∑ p in (Finset.range (2 ^ C)).filter (fun p => p &&& s = 0), packCells x F (T p)) %
      x ^ (F + 1) = packCells x F c := by
  choose M hM using fun p => mul_pack x (F + 1) (C + 1) (F + 1) (rowWays C s) (T p)
  have hsum : rowPack x s C 0 false *
      (∑ p in (Finset.range (2 ^ C)).filter (fun p => p &&& s = 0), packCells x F (T p)) =
      packCells x F c +
        x ^ (F + 1) * ∑ p in (Finset.range (2 ^ C)).filter (fun p => p &&& s = 0), M p := by
    rw [rowPack_eq, Finset.mul_sum]
    unfold packCells
    simp only [hM, Finset.sum_add_distrib, ← Finset.mul_sum]
    congr 1
    rw [Finset.sum_comm]
    apply Finset.sum_congr rfl
    intro k hk
    rw [Finset.mem_range] at hk
    rw [hc k (by omega), Finset.sum_mul]
    rfl
  rw [hsum, Nat.add_mul_mod_self_left]
  exact Nat.mod_eq_of_lt (packCells_lt c F hlt)

theorem gridPrefixes_le (C n s k : Nat) : gridPrefixes C n s k ≤ 3 ^ (n * C) := by
  unfold gridPrefixes
  calc (Finset.univ.filter (IsGridPrefix C n s k)).card
      ≤ (Finset.univ : Finset (Fin n → Fin C → Cell)).card := Finset.card_filter_le _ _
    _ = 3 ^ (n * C) := by
      rw [Finset.card_univ, Fintype.card_fun, Fintype.card_fun, Fintype.card_fin,
        Fintype.card_fin, ← Nat.pow_mul, Nat.mul_comm C n]
      rfl

theorem gridPrefixes_eq_zero_of_lt {C n k : Nat} (s : Nat) (hk : n * C < k) :
    gridPrefixes C n s k = 0 := by
  unfold gridPrefixes
  rw [Finset.card_eq_zero, Finset.filter_eq_empty_iff]
  intro A _ hA
  have h1 := hA.2.2
  have h2 := gridFences_le A
  omega

theorem getD_zipWith (f : Nat → Nat → Nat) (D0 D1 : List Nat) (s : Nat) (h0 : s < D0.length)
    (h1 : s < D1.length) :
    (List.zipWith f D0 D1).getD s 0 = f (D0.getD s 0) (D1.getD s 0) := by
  have hz : s < (List.zipWith f D0 D1).length := by
    rw [List.length_zipWith]
    exact lt_min h0 h1
  rw [List.getD_eq_getElem _ _ hz, List.getD_eq_getElem _ _ h0, List.getD_eq_getElem _ _ h1,
    List.getElem_zipWith]

theorem getD_map_range (f : Nat → Nat) {n s : Nat} (hs : s < n) :
    ((List.range n).map f).getD s 0 = f s := by
  rw [List.getD_eq_getElem?_getD, List.getElem?_map, List.getElem?_range hs]
  rfl

/-- The packed table after `n` rows has the numbers of arrays as its digits. -/
theorem packedIter_spec (x C F : Nat) :
    ∀ n, 3 ^ (n * C) < x →
      (packedIter x C F n).length = 2 ^ C ∧
      ∀ s, s < 2 ^ C → (packedIter x C F n).getD s 0 = packCells x F (gridPrefixes C n s) := by
  intro n
  induction n with
  | zero =>
    intro _
    refine ⟨?_, ?_⟩
    · show ((List.range (2 ^ C)).map _).length = 2 ^ C
      rw [List.length_map, List.length_range]
    · intro s hs
      show ((List.range (2 ^ C)).map (fun s => if s = 0 then 1 else 0)).getD s 0 = _
      rw [getD_map_range _ hs]
      unfold packCells
      rw [Finset.sum_eq_single 0]
      · rw [gridPrefixes_zero, Nat.pow_zero, Nat.mul_one]
        by_cases h : s = 0
        · rw [if_pos h, if_pos ⟨h, rfl⟩]
        · rw [if_neg h, if_neg (fun h2 => h h2.1)]
      · intro k _ hk
        rw [gridPrefixes_zero, if_neg (fun h2 => hk h2.2), Nat.zero_mul]
      · intro hmem
        exact absurd (Finset.mem_range.mpr (Nat.succ_pos F)) hmem
  | succ n ih =>
    intro hx
    have hmono : 3 ^ (n * C) ≤ 3 ^ ((n + 1) * C) :=
      Nat.pow_le_pow_right (by decide) (Nat.mul_le_mul_right C (Nat.le_succ n))
    obtain ⟨hlen, hval⟩ := ih (lt_of_le_of_lt hmono hx)
    obtain ⟨dlen, dval⟩ := disjointSums_spec C _ hlen
    have rlen : (rowPacks x C).length = 2 ^ C := by
      unfold rowPacks
      rw [List.length_map, List.length_range]
    have hdef : packedIter x C F (n + 1) =
        List.zipWith (fun r z => r * z % x ^ (F + 1)) (rowPacks x C)
          (disjointSums C (packedIter x C F n)) := rfl
    rw [hdef]
    refine ⟨?_, ?_⟩
    · rw [List.length_zipWith, rlen, dlen, min_self]
    · intro s hs
      rw [getD_zipWith _ _ _ _ (by rw [rlen]; exact hs) (by rw [dlen]; exact hs), dval s hs]
      unfold rowPacks
      rw [getD_map_range _ hs]
      have hP : ∑ p in (Finset.range (2 ^ C)).filter (fun p => p &&& s = 0),
            (packedIter x C F n).getD p 0 =
          ∑ p in (Finset.range (2 ^ C)).filter (fun p => p &&& s = 0),
            packCells x F (gridPrefixes C n p) := by
        apply Finset.sum_congr rfl
        intro p hp
        rw [Finset.mem_filter, Finset.mem_range] at hp
        exact hval p hp.1
      rw [hP]
      apply packedStep_entry x C F (gridPrefixes C n) s (gridPrefixes C (n + 1) s)
      · intro k hk
        rw [gridPrefixes_succ hs, ← rowSum_eq_convolution]
        apply rowSum_eq_unbounded _ _ hk
        intro p _ j hj _
        exact gridPrefixes_eq_zero_of_lt p hj
      · intro k _
        exact lt_of_le_of_lt (gridPrefixes_le C (n + 1) s k) hx

theorem sum_map_getD (f : Nat → Nat) (L : List Nat) :
    (L.map f).sum = ∑ s in Finset.range L.length, f (L.getD s 0) := by
  have h : L.map f = (List.range L.length).map (fun s => f (L.getD s 0)) := by
    apply List.ext_getElem
    · rw [List.length_map, List.length_map, List.length_range]
    · intro i h1 h2
      rw [List.getElem_map, List.getElem_map, List.getElem_range]
      rw [List.length_map] at h1
      rw [List.getD_eq_getElem _ _ h1]
  rw [h, sum_map_range]

/-- The sum of the digits of the packed table is the number of all arrays with
at most `F` fences. -/
theorem packedTotal_eq (x C R F : Nat) (hx : 3 ^ (R * C) < x) :
    packedTotal x C R F =
      ∑ k in Finset.range (F + 1), ∑ s in Finset.range (2 ^ C), gridPrefixes C R s k := by
  obtain ⟨hlen, hval⟩ := packedIter_spec x C F R hx
  unfold packedTotal
  rw [sum_map_getD, hlen, Finset.sum_comm]
  apply Finset.sum_congr rfl
  intro s hs
  rw [Finset.mem_range] at hs
  unfold digitSum
  rw [sum_map_range, hval s hs]
  apply Finset.sum_congr rfl
  intro k hk
  rw [Finset.mem_range] at hk
  exact packCells_digit _ F (fun k _ => lt_of_le_of_lt (gridPrefixes_le C R s k) hx) k (by omega)

/-- The total `quoridorCalc` prints, computed on the packed tables. -/
theorem quoridorCalc_total {C R F fuel : Nat} (x : Nat) (hC : C < 32) (hF : F + 1 < 2 ^ 32)
    (hfuel : 2 ^ C < fuel) (hRC : R * C < 2 ^ 32) (hR : 1 ≤ R) (hx : 3 ^ (R * C) < x) :
    ∃ g, quoridorCalc C R F fuel initialGlobals =
        some (g, outputResults C F (finalGrid R g)) ∧
      (outputResults C F (finalGrid R g)).2 = packedTotal x C R F := by
  have hzero : ∀ p, p < 2 ^ C → p ≠ 0 →
      initialGlobals.grid_a p 0 = 0 ∧ initialGlobals.grid_b p 0 = 0 :=
    fun _ _ _ => ⟨rfl, rfl⟩
  obtain ⟨rows, _, hrowsval⟩ :=
    enumerator_run hC hF (lt_trans (two_pow_gt C) hfuel) initialGlobals.rows
  obtain ⟨_, g, T, _, _, _, hcalc, _, hT, hagree, _⟩ :=
    quoridorCalc_run hC hF hfuel hRC rows hrowsval initialGlobals hzero
  obtain ⟨T', hT', hval⟩ := gridAfter_eq_gridPrefixes (F := F) hC hfuel rows hrowsval R hRC
  have hTT : T' = T := Option.some.inj (hT'.symm.trans hT)
  subst hTT
  refine ⟨g, hcalc, ?_⟩
  rw [outputResults_eq hC, packedTotal_eq x C R F hx]
  show ∑ k in Finset.range (F + 1), ∑ s in Finset.range (2 ^ C), finalGrid R g s k = _
  apply Finset.sum_congr rfl
  intro k hk
  rw [Finset.mem_range] at hk
  apply Finset.sum_congr rfl
  intro s hs
  rw [Finset.mem_range] at hs
  rw [hagree s hs k (by omega) (Or.inr hR), hval s hs k (by omega)]

/-- A number that is at least `10 ^ d` has more than `d` decimal digits. -/
theorem lt_digits_length {n d : Nat} (h : 10 ^ d ≤ n) : d < (Nat.digits 10 n).length := by
  have h1 : n < 10 ^ (Nat.digits 10 n).length := Nat.lt_base_pow_length_digits (by decide)
  rcases Nat.lt_or_ge d (Nat.digits 10 n).length with h2 | h2
  · exact h2
  · exfalso
    have h3 : 10 ^ (Nat.digits 10 n).length ≤ 10 ^ d := Nat.pow_le_pow_right (by decide) h2
    omega

theorem packedTotal_eight : packedTotal (2 ^ 128) 8 8 20 = 1375968129062134174771 := by
  decide!

/-- C11 (Exactness under scale): with 8 columns, 8 rows and at most 20 fences
`quoridorCalc` returns, and the total it prints, the sum of all the cells of
the final table, is 1375968129062134174771: it is at least `2 ^ 64`, so it
does not fit in a 64-bit unsigned integer, and its decimal representation has
more than 19 digits. -/
theorem C11_total_exceeds_64_bits (fuel : Nat) (hfuel : 2 ^ 8 < fuel) :
    ∃ g, quoridorCalc 8 8 20 fuel initialGlobals =
        some (g, outputResults 8 20 (finalGrid 8 g)) ∧
      (outputResults 8 20 (finalGrid 8 g)).2 =
        ∑ c in Finset.range (2 ^ 8) ×ˢ Finset.range (20 + 1), finalGrid 8 g c.1 c.2 ∧
      (outputResults 8 20 (finalGrid 8 g)).2 = 1375968129062134174771 ∧
      2 ^ 64 ≤ (outputResults 8 20 (finalGrid 8 g)).2 ∧
      19 < (Nat.digits 10 (outputResults 8 20 (finalGrid 8 g)).2).length := by
  obtain ⟨g, hcalc, htotal⟩ := @quoridorCalc_total 8 8 20 fuel (2 ^ 128) (by decide) (by decide)
    hfuel (by decide) (by decide) (by decide)
  rw [packedTotal_eight] at htotal
  refine ⟨g, hcalc, ?_, htotal, ?_, ?_⟩
  · rw [outputResults_eq (by decide), Finset.sum_comm, Finset.sum_product]
  · rw [htotal]
    decide
  · exact lt_digits_length (by rw [htotal]; decide)

/-- An instance of C11: bound 257 on the loop iterations. -/
theorem C11_total_exceeds_64_bits_witness :
    2 ^ 8 < 257 ∧
    ∃ g, quoridorCalc 8 8 20 257 initialGlobals =
        some (g, outputResults 8 20 (finalGrid 8 g)) ∧
      (outputResults 8 20 (finalGrid 8 g)).2 =
        ∑ c in Finset.range (2 ^ 8) ×ˢ Finset.range (20 + 1), finalGrid 8 g c.1 c.2 ∧
      (outputResults 8 20 (finalGrid 8 g)).2 = 1375968129062134174771 ∧
      2 ^ 64 ≤ (outputResults 8 20 (finalGrid 8 g)).2 ∧
      19 < (Nat.digits 10 (outputResults 8 20 (finalGrid 8 g)).2).length :=
  ⟨by decide, C11_total_exceeds_64_bits 257 (by decide)⟩

end Quoridor
